import Mathlib

/-! # NRHI: a shallow embedding of `include/nrhi_lp.hpp`

The persistent pool is rendered as three typed heaps (directory layers, bucket
arrays, key-value records), each an association list from pool offsets to
objects; a store prepends a binding, a load takes the first binding.  The
operations of the class `NRHI` are functions on the state record.  Only
sequential executions are described: a compare-and-swap reads the word it
compares against in the same step.

Conventions.
* `size_t`/`uint64_t` values are naturals below `2 ^ 64`; arithmetic that can
  wrap carries an explicit `% U64`.
* Undefined behaviour (a shift by 64 or more, an index outside an array, a
  dangling pool pointer, a remainder by zero) and a layer walk that does not
  end are rendered as "no result" (`none`, `Ctl.fault`, `attempt.fault`).
* The pool allocator is outside the repository.  The offsets it hands out
  are arguments of the operations that allocate.
-/

namespace nrhi

/-! ## Constants of the class -/

def EXPO : Nat := 1
def LP_DIS_B : Nat := 4
def LP_DIS_S : Nat := 4

def hashcode_size : Nat := 64
def slots_num : Nat := 8
def partial_shift : Nat := 16
def token_shift : Nat := 48
def partial_mask : Nat := 0xFFFF000000000000

/-- Number of values of a 64-bit unsigned word. -/
def U64 : Nat := 2 ^ 64

/-! ## Machine arithmetic -/

/-- Left shift `a << n` on `unsigned long`; undefined for `n ≥ 64`. -/
def shl64 (a n : Nat) : Option Nat :=
  if n < 64 then some ((a <<< n) % U64) else none

/-- Right shift `a >> n` on a 64-bit unsigned value; undefined for `n ≥ 64`. -/
def shr64 (a n : Nat) : Option Nat :=
  if n < 64 then some (a >>> n) else none

/-- Subtraction on `size_t`, wrapping modulo `2 ^ 64`. -/
def sub64 (a b : Nat) : Nat := (a + U64 - b % U64) % U64

/-- Bitwise complement of a 64-bit word. -/
def not64 (a : Nat) : Nat := U64 - 1 - a % U64

/-- Conversion `(ptrdiff_t)x` of a 64-bit unsigned value. -/
def to_ptrdiff (x : Nat) : Int :=
  if x < 2 ^ 63 then (x : Int) else (x : Int) - (2 ^ 64 : Int)

/-- Number of iterations of `for (ptrdiff_t i = 0; i < (ptrdiff_t)(n); i++)`. -/
def loop_bound (n : Nat) : Nat := (to_ptrdiff n).toNat

/-- Array element `a[i]` for a signed index; outside the array there is no value. -/
def at_idx {α : Type} (a : List α) (i : Int) : Option α :=
  if i < 0 then none else a[i.toNat]?

/-- Array store `a[i] = x` for a signed index already known to be inside the array. -/
def set_idx {α : Type} (a : List α) (i : Int) (x : α) : List α :=
  a.set i.toNat x

/-- Sequential compare-and-swap on one word: the success flag and the word afterwards. -/
def CAS (cur oldval newval : Nat) : Bool × Nat :=
  if cur = oldval then (true, newval) else (false, cur)

/-! ## Compound pointers -/

/-- Modelled from the spec: `compound_pool_ptr.hpp` is not among the sources; the offset
of a compound pointer is the low 48 bits of its 64-bit word. -/
def get_offset (w : Nat) : Nat := w % 2 ^ 48

/-- Token field of `kv_ptr_u`: the two bytes after `padding[6]`, the high 16 bits of the word. -/
def slot_token (w : Nat) : Nat := (w >>> 48) % 2 ^ 16

/-- Modelled from the spec: `compound_pool_ptr.hpp` is not among the sources; a compound
pointer resolves, inside its pool, to the object at the offset in its low 48 bits. -/
def get_address {α : Type} (heap : List (Nat × α)) (w : Nat) : Option α :=
  heap.lookup (get_offset w)

/-- Store through a pool pointer: the binding of `off` is replaced. -/
def heap_store {α : Type} (heap : List (Nat × α)) (off : Nat) (x : α) : List (Nat × α) :=
  (off, x) :: heap.filter (fun e => e.1 ≠ off)

/-- Release of the object at `off`. -/
def heap_free {α : Type} (heap : List (Nat × α)) (off : Nat) : List (Nat × α) :=
  heap.filter (fun e => e.1 ≠ off)

/-! ## Persistent layout -/

/-- A bucket: `slots_num` slot words. -/
abbrev bucket := List Nat

/-- A directory layer.  `segments` is the layer's own segment array, each entry the
word `buckets.off` of that segment (0: not allocated). -/
structure directory where
  segs_power : Nat
  segments : List Nat
  prev : Nat
  next : Nat
deriving DecidableEq, Repr

/-- Borrow handle returned by find and insert. -/
structure accessor where
  kv_p : Nat
  pool_uuid : Nat
deriving DecidableEq, Repr

/-- The index object together with the contents of its pool. -/
structure NRHI (K V : Type) where
  my_pool_uuid : Nat
  bucket_size : Nat
  root_dir : Nat
  top_dir : Nat
  dirs : List Nat
  dir_heap : List (Nat × directory)
  bucket_heap : List (Nat × List bucket)
  kv_heap : List (Nat × (K × V))
deriving DecidableEq, Repr

/-- A zero-initialised bucket array of `n` buckets. -/
def zero_buckets (n : Nat) : List bucket :=
  List.replicate n (List.replicate slots_num 0)

/-! ## Control flow of the nested loops -/

/-- Outcome of a loop body: go on, leave through `goto OUT`, `return true` with the
matching slot word, or no result. -/
inductive Ctl (σ : Type) where
  | cont (s : σ)
  | out (s : σ)
  | ret (w : Nat)
  | fault
deriving DecidableEq, Repr

/-- The loop `for (i = i0; i < i0 + n; i++) body`. -/
def for_loop {σ : Type} (body : Nat → σ → Ctl σ) : Nat → Nat → σ → Ctl σ
  | 0, _, s => Ctl.cont s
  | n + 1, i, s =>
    match body i s with
    | Ctl.cont s1 => for_loop body n (i + 1) s1
    | r => r

/-! ## Constructor -/

/-- The constructor `NRHI(hashpower, segspower)`.  `dir_off` is the offset of the root
layer and `bucket_off i` the offset of the bucket array made in iteration `i`. -/
def NRHI_new {K V : Type} (uuid dir_off : Nat) (bucket_off : Nat → Nat)
    (hashpower segspower : Nat) : Option (NRHI K V) :=
  if hashpower = 0 then none
  else
    match shl64 1 hashpower, shl64 1 segspower with
    | some bucket_size, some segs_num =>
      let made := loop_bound segs_num
      some
        { my_pool_uuid := uuid
          bucket_size := bucket_size
          root_dir := dir_off
          top_dir := dir_off
          dirs := [dir_off]
          dir_heap :=
            [(dir_off,
              { segs_power := segspower
                segments :=
                  (List.range segs_num).map (fun i => if i < made then bucket_off i else 0)
                prev := 0
                next := 0 })]
          bucket_heap :=
            (List.range made).map (fun i => (bucket_off i, zero_buckets bucket_size))
          kv_heap := [] }
    | _, _ => none

/-! ## recover -/

/-- The loop of `recover()`: `dp` follows `next` from where it stands until it is null,
and `top_dir` is set to every layer pointer it passes. -/
def recover_loop {K V : Type} : Nat → Nat → NRHI K V → Option (NRHI K V)
  | 0, _, _ => none
  | fuel + 1, dp, st =>
    if dp = 0 then some st
    else
      match get_address st.dir_heap dp with
      | none => none
      | some layer => recover_loop fuel layer.next { st with top_dir := dp }

/-- The method `recover()`.  `fuel` bounds the number of layers the loop visits. -/
def recover {K V : Type} (fuel : Nat) (st : NRHI K V) : Option (NRHI K V) :=
  recover_loop fuel st.root_dir st

/-! ## capacity -/

/-- Inner loop of `capacity`: counts the segments `i .. i+n-1` of a layer whose
`buckets.off` is not 0. -/
def capacity_segs (layer : directory) : Nat → Nat → Nat → Option Nat
  | 0, _, eff => some eff
  | n + 1, i, eff =>
    match layer.segments[i]? with
    | none => none
    | some off => capacity_segs layer n (i + 1) (if off ≠ 0 then (eff + 1) % U64 else eff)

/-- Outer loop of `capacity`: follows `next` from `dp`; without fuel left there is no
result. -/
def capacity_layers (dir_heap : List (Nat × directory)) : Nat → Nat → Nat → Option Nat
  | 0, _, _ => none
  | fuel + 1, dp, eff =>
    if dp = 0 then some eff
    else
      match get_address dir_heap dp with
      | none => none
      | some layer =>
        match shl64 1 layer.segs_power with
        | none => none
        | some segs_num =>
          match capacity_segs layer (loop_bound segs_num) 0 eff with
          | none => none
          | some eff1 => capacity_layers dir_heap fuel layer.next eff1

/-- The method `capacity()`, with `fuel` bounding the number of layers visited.  The map
`umap` of the source only feeds the statistics printed under `DEBUG_CAPACITY`; the
returned value is computed from `effective_segs_num`. -/
def capacity {K V : Type} (fuel : Nat) (st : NRHI K V) : Option Nat :=
  (capacity_layers st.dir_heap fuel st.root_dir 0).map
    (fun eff => (eff * st.bucket_size % U64) * slots_num % U64)

/-! ## find -/

/-- The member template `generic_find<K>`: not implemented, returns false and leaves `res`
alone.  `Q` is the template's key type. -/
def generic_find {K V Q : Type} (_st : NRHI K V) (_key : Q) (res : Option accessor) :
    Bool × Option accessor :=
  (false, res)

/-- The method `find(key, res)`. -/
def find {K V : Type} (st : NRHI K V) (key : K) (res : accessor) : Bool × Option accessor :=
  generic_find st key (some res)

/-- The method `find(key)`. -/
def find_key {K V : Type} (st : NRHI K V) (key : K) : Bool :=
  (generic_find st key none).1

/-- The method template `find<K>(key, res)` for a transparent key of type `Q`. -/
def find_transparent {K V Q : Type} (st : NRHI K V) (key : Q) (res : accessor) :
    Bool × Option accessor :=
  generic_find st key (some res)

/-! ## erase and update -/

/-- The member template `generic_erase<K>`: not implemented, returns false.  The result
carries the returned flag and the state afterwards. -/
def generic_erase {K V Q : Type} (st : NRHI K V) (_key : Q) : Bool × NRHI K V :=
  (false, st)

/-- The member `generic_update`: not implemented, returns false and leaves `res` alone.
The allocation callback, the only difference between the copy and the move overloads of
`update`, is never called and is left out. -/
def generic_update {K V : Type} (st : NRHI K V) (_key : K) (_param : K × V)
    (res : Option accessor) : Bool × NRHI K V × Option accessor :=
  (false, st, res)

/-- The method `erase(key)`. -/
def erase {K V : Type} (st : NRHI K V) (key : K) : Bool × NRHI K V :=
  generic_erase st key

/-- The method template `erase<K>(key)` for a transparent key of type `Q`. -/
def erase_transparent {K V Q : Type} (st : NRHI K V) (key : Q) : Bool × NRHI K V :=
  generic_erase st key

/-- The methods `update(value)`, by copy and by move. -/
def update_value {K V : Type} (st : NRHI K V) (value : K × V) : Bool × NRHI K V :=
  let r := generic_update st value.1 value none
  (r.1, r.2.1)

/-- The methods `update(value, res)`, by copy and by move. -/
def update {K V : Type} (st : NRHI K V) (value : K × V) (res : accessor) :
    Bool × NRHI K V × Option accessor :=
  generic_update st value.1 value (some res)

/-- Record an accessor refers to. -/
def accessor.deref {K V : Type} (st : NRHI K V) (acc : accessor) : Option (K × V) :=
  get_address st.kv_heap acc.kv_p

/-! ## generic_insert -/

/-- Local variables of `generic_insert` that the layer walk reads and writes. -/
structure locals where
  dp : Nat
  effective_dp : Nat
  insert_dp : Nat
  segment_idx : Int
  insert_segment_idx : Int
  insert_bucket_idx : Int
  found_empty : Bool
  slot_idx : Nat
deriving DecidableEq, Repr

/-- Body of the slot loop `for (i = 0; i < slots_num; i++)` of `generic_insert`. -/
def probe_slot {K V : Type} [DecidableEq K] (st : NRHI K V) (key : K) (token : Nat)
    (b : bucket) (bucket_idx : Int) (i : Nat) (l : locals) : Ctl locals :=
  match b[i]? with
  | none => Ctl.fault
  | some w =>
    if l.found_empty = false ∧ w = 0 then
      Ctl.cont
        { l with
          insert_dp := l.dp
          insert_segment_idx := l.segment_idx
          insert_bucket_idx := bucket_idx
          slot_idx := i
          found_empty := true }
    else if w ≠ 0 ∧ slot_token w = token then
      match get_address st.kv_heap w with
      | none => Ctl.fault
      | some kv => if kv.1 = key then Ctl.ret w else Ctl.cont l
    else Ctl.cont l

/-- Body of the bucket loop `for (k = 0; k < LP_DIS_B; k++)` of `generic_insert`. -/
def probe_bucket {K V : Type} [DecidableEq K] (st : NRHI K V) (key : K) (token : Nat)
    (buckets : List bucket) (bucket_idx1 : Nat) (k : Nat) (l : locals) : Ctl locals :=
  if st.bucket_size = 0 then Ctl.fault
  else
    let bucket_idx := to_ptrdiff (((bucket_idx1 + k) % U64) % st.bucket_size)
    match at_idx buckets bucket_idx with
    | none => Ctl.fault
    | some b => for_loop (probe_slot st key token b bucket_idx) slots_num 0 l

/-- Body of the segment loop `for (s = 0; s < LP_DIS_S; s++)` of `generic_insert`. -/
def probe_segment {K V : Type} [DecidableEq K] (st : NRHI K V) (key : K) (token : Nat)
    (layer : directory) (segs_size segment_idx1 bucket_idx1 : Nat) (s : Nat) (l : locals) :
    Ctl locals :=
  if segs_size = 0 then Ctl.fault
  else
    let l1 := { l with segment_idx := to_ptrdiff (((segment_idx1 + s) % U64) % segs_size) }
    match at_idx layer.segments l1.segment_idx with
    | none => Ctl.fault
    | some seg =>
      if get_offset seg = 0 then Ctl.out l1
      else
        match get_address st.bucket_heap seg with
        | none => Ctl.fault
        | some buckets => for_loop (probe_bucket st key token buckets bucket_idx1) LP_DIS_B 0 l1

/-- The walk `while (dp != nullptr)` of `generic_insert`, with `fuel` bounding the number
of layers visited.  `Ctl.cont` is the normal end of the loop (`dp == nullptr`). -/
def probe_layers {K V : Type} [DecidableEq K] (st : NRHI K V) (key : K) (h token : Nat)
    (bucket_idx1 : Nat) : Nat → locals → Ctl locals
  | 0, _ => Ctl.fault
  | fuel + 1, l =>
    if l.dp = 0 then Ctl.cont l
    else
      let l1 := { l with effective_dp := l.dp }
      match get_address st.dir_heap l1.dp with
      | none => Ctl.fault
      | some layer =>
        match shl64 1 layer.segs_power, shr64 h (sub64 hashcode_size layer.segs_power) with
        | some segs_size, some segment_idx1 =>
          match
            for_loop (probe_segment st key token layer segs_size segment_idx1 bucket_idx1)
              LP_DIS_S 0 l1 with
          | Ctl.cont l2 => probe_layers st key h token bucket_idx1 fuel { l2 with dp := layer.next }
          | r => r
        | _, _ => Ctl.fault

/-- Outcome of one pass of the `while (true)` loop of `generic_insert`. -/
inductive attempt (K V : Type) where
  | done (ret : Bool) (st : NRHI K V) (res : Option accessor)
  | retry (st : NRHI K V) (slot_idx : Nat)
  | fault

/-- The block `EXPAND_SEG` of `expand`: gives the segment `segment_idx` of layer `dp` a
bucket array at offset `bk_off` unless it already has one. -/
def expand_seg {K V : Type} (st : NRHI K V) (dp : Nat) (segment_idx : Int) (bk_off : Nat) :
    Option (Bool × NRHI K V × Nat) :=
  match get_address st.dir_heap dp with
  | none => none
  | some layer =>
    match at_idx layer.segments segment_idx with
    | none => none
    | some tmp_off =>
      if tmp_off ≠ 0 then some (true, st, dp)
      else
        let st1 := { st with bucket_heap := (bk_off, zero_buckets st.bucket_size) :: st.bucket_heap }
        match CAS tmp_off tmp_off bk_off with
        | (true, v) =>
          some
            (true,
              { st1 with
                dir_heap :=
                  heap_store st1.dir_heap (get_offset dp)
                    { layer with segments := set_idx layer.segments segment_idx v } },
              dp)
        | (false, _) =>
          some (true, { st1 with bucket_heap := heap_free st1.bucket_heap bk_off }, dp)

/-- The member `expand(pop, dp, segment_idx, is_null)`.  The result carries the returned
flag, the state afterwards and the value left in the reference parameter `dp`. -/
def expand {K V : Type} (st : NRHI K V) (dp : Nat) (segment_idx : Int) (is_null : Bool)
    (bk_off dir_off : Nat) : Option (Bool × NRHI K V × Nat) :=
  match get_address st.dir_heap dp with
  | none => none
  | some layer =>
    if is_null then expand_seg st dp segment_idx bk_off
    else
      match shl64 1 ((layer.segs_power + EXPO) % U64) with
      | none => none
      | some segs_num =>
        let tmp_off := layer.next
        if tmp_off ≠ 0 then some (true, st, dp)
        else
          let new_layer : directory :=
            { segs_power := (layer.segs_power + EXPO) % U64
              segments := List.replicate segs_num 0
              prev := dp
              next := 0 }
          let st1 := { st with dir_heap := (dir_off, new_layer) :: st.dir_heap }
          match CAS tmp_off tmp_off dir_off with
          | (true, v) =>
            let st2 :=
              { st1 with
                dir_heap := heap_store st1.dir_heap (get_offset dp) { layer with next := v } }
            expand_seg { st2 with top_dir := v, dirs := st2.dirs ++ [v] } v segment_idx bk_off
          | (false, v) =>
            let st2 := { st1 with dir_heap := heap_free st1.dir_heap dir_off }
            expand_seg { st2 with top_dir := v } v segment_idx bk_off

/-- The block `FAST_INSERT` of `generic_insert`: allocate the record at `kv_off`, compose
the slot word and publish it with a compare-and-swap against the word just read. -/
def fast_insert {K V : Type} (st : NRHI K V) (token : Nat) (param : K × V)
    (res : Option accessor) (l : locals) (kv_off : Nat) : attempt K V :=
  let st1 := { st with kv_heap := (kv_off, param) :: st.kv_heap }
  let newcont := ((token <<< token_shift) % U64) ^^^ (kv_off &&& not64 partial_mask)
  match get_address st1.dir_heap l.insert_dp with
  | none => attempt.fault
  | some layer =>
    match at_idx layer.segments l.insert_segment_idx with
    | none => attempt.fault
    | some seg =>
      match get_address st1.bucket_heap seg with
      | none => attempt.fault
      | some buckets =>
        match at_idx buckets l.insert_bucket_idx with
        | none => attempt.fault
        | some b =>
          match b[l.slot_idx]? with
          | none => attempt.fault
          | some tmp_off =>
            match CAS tmp_off tmp_off newcont with
            | (true, v) =>
              attempt.done true
                { st1 with
                  bucket_heap :=
                    heap_store st1.bucket_heap (get_offset seg)
                      (set_idx buckets l.insert_bucket_idx (b.set l.slot_idx v)) }
                (res.map (fun _ => { kv_p := v, pool_uuid := st.my_pool_uuid }))
            | (false, _) =>
              attempt.retry { st1 with kv_heap := heap_free st1.kv_heap kv_off } l.slot_idx

/-- Offsets the pool allocator returns during one pass of `generic_insert`. -/
structure offsets where
  kv : Nat
  buckets : Nat
  dir : Nat
deriving DecidableEq, Repr

/-- The part of a pass after the label `OUT`: publish into the recorded empty slot, or
grow the index with `expand` and publish into the slot it prepared. -/
def after_out {K V : Type} (st : NRHI K V) (h token : Nat) (param : K × V)
    (res : Option accessor) (al : offsets) (l : locals) : attempt K V :=
  if l.found_empty then fast_insert st token param res l al.kv
  else
    let is_null : Bool := decide (l.dp ≠ 0)
    let idx : Option Int :=
      if is_null then some l.segment_idx
      else
        match get_address st.dir_heap l.effective_dp with
        | none => none
        | some layer =>
          (shr64 h (sub64 (sub64 hashcode_size layer.segs_power) 1)).map to_ptrdiff
    match idx with
    | none => attempt.fault
    | some insert_segment_idx =>
      match expand st l.effective_dp insert_segment_idx is_null al.buckets al.dir with
      | none => attempt.fault
      | some (true, st1, insert_dp) =>
        fast_insert st1 token param res
          { l with insert_segment_idx := insert_segment_idx, insert_dp := insert_dp } al.kv
      | some (false, _, _) => attempt.done false st res

/-- One pass of the `while (true)` loop of `generic_insert`.  `hasher` is `Hash{}`,
`slot_idx` the value the variable of that name has on entry to the pass, `fuel` the bound
on the layers the walk may visit. -/
def insert_pass {K V : Type} [DecidableEq K] (hasher : K → Nat) (fuel : Nat) (st : NRHI K V)
    (key : K) (param : K × V) (res : Option accessor) (slot_idx : Nat) (al : offsets) :
    attempt K V :=
  let h := hasher key % U64
  let token := (h >>> partial_shift) % 2 ^ 16
  let bucket_idx1 := h &&& sub64 st.bucket_size 1
  let l0 : locals :=
    { dp := st.root_dir
      effective_dp := 0
      insert_dp := 0
      segment_idx := -1
      insert_segment_idx := -1
      insert_bucket_idx := to_ptrdiff bucket_idx1
      found_empty := false
      slot_idx := slot_idx }
  match probe_layers st key h token bucket_idx1 fuel l0 with
  | Ctl.fault => attempt.fault
  | Ctl.ret w => attempt.done true st (res.map (fun _ => { kv_p := w, pool_uuid := st.my_pool_uuid }))
  | Ctl.cont l => after_out st h token param res al l
  | Ctl.out l => after_out st h token param res al l

/-- The loop `while (true)` of `generic_insert`, bounded by `passes` passes; pass number
`n` receives its allocations from `al n`. -/
def generic_insert_loop {K V : Type} [DecidableEq K] (hasher : K → Nat) (fuel : Nat)
    (al : Nat → offsets) (key : K) (param : K × V) (res : Option accessor) :
    Nat → Nat → NRHI K V → Nat → Option (Bool × NRHI K V × Option accessor)
  | 0, _, _, _ => none
  | passes + 1, n, st, slot_idx =>
    match insert_pass hasher fuel st key param res slot_idx (al n) with
    | attempt.done r st1 acc => some (r, st1, acc)
    | attempt.retry st1 slot_idx1 =>
      generic_insert_loop hasher fuel al key param res passes (n + 1) st1 slot_idx1
    | attempt.fault => none

/-- The member `generic_insert(key, param, allocate_kv, res)`.  `fuel` bounds both the
number of passes of `while (true)` and the number of layers one walk visits. -/
def generic_insert {K V : Type} [DecidableEq K] (hasher : K → Nat) (fuel : Nat)
    (al : Nat → offsets) (st : NRHI K V) (key : K) (param : K × V) (res : Option accessor) :
    Option (Bool × NRHI K V × Option accessor) :=
  generic_insert_loop hasher fuel al key param res fuel 0 st 0

/-- The method `insert(value, res)`. -/
def insert {K V : Type} [DecidableEq K] (hasher : K → Nat) (fuel : Nat) (al : Nat → offsets)
    (st : NRHI K V) (value : K × V) (res : accessor) :
    Option (Bool × NRHI K V × Option accessor) :=
  generic_insert hasher fuel al st value.1 value (some res)

/-- The method `insert(value)`. -/
def insert_value {K V : Type} [DecidableEq K] (hasher : K → Nat) (fuel : Nat)
    (al : Nat → offsets) (st : NRHI K V) (value : K × V) : Option (Bool × NRHI K V) :=
  (generic_insert hasher fuel al st value.1 value none).map (fun r => (r.1, r.2.1))

/-! ## The two halves of a pass -/

/-- The first half of a pass of `generic_insert`: the walk over the layers, up to the label
`OUT` or the `return true` of the key test.  It reads the index and writes nothing. -/
def insert_walk {K V : Type} [DecidableEq K] (hasher : K → Nat) (fuel : Nat) (st : NRHI K V)
    (key : K) (slot_idx : Nat) : Ctl locals :=
  let h := hasher key % U64
  let bucket_idx1 := h &&& sub64 st.bucket_size 1
  probe_layers st key h ((h >>> partial_shift) % 2 ^ 16) bucket_idx1 fuel
    { dp := st.root_dir
      effective_dp := 0
      insert_dp := 0
      segment_idx := -1
      insert_segment_idx := -1
      insert_bucket_idx := to_ptrdiff bucket_idx1
      found_empty := false
      slot_idx := slot_idx }

/-- The second half of a pass of `generic_insert`: what the pass does from where the walk
left, with the local variables of the walk, on the state the index has by then. -/
def insert_finish {K V : Type} (hasher : K → Nat) (st : NRHI K V) (key : K) (param : K × V)
    (res : Option accessor) (al : offsets) : Ctl locals → attempt K V
  | Ctl.fault => attempt.fault
  | Ctl.ret w =>
    attempt.done true st (res.map (fun _ => { kv_p := w, pool_uuid := st.my_pool_uuid }))
  | Ctl.cont l =>
    after_out st (hasher key % U64) (((hasher key % U64) >>> partial_shift) % 2 ^ 16) param
      res al l
  | Ctl.out l =>
    after_out st (hasher key % U64) (((hasher key % U64) >>> partial_shift) % 2 ^ 16) param
      res al l

/-- What a pass returned, if it returned. -/
def attempt.returned {K V : Type} : attempt K V → Option (Bool × NRHI K V × Option accessor)
  | attempt.done r st acc => some (r, st, acc)
  | _ => none

/-! ## The operation codes of `common.hpp` -/

/-- The enumeration `OP`, in declaration order. -/
inductive OP where
  | PUT
  | GET
  | UPDATE
  | DELETE
  | HELP
  | QUIT
  | UNKNOWN
deriving DecidableEq, Repr

/-- Underlying value of an enumerator of `OP`, by which `<` and `>` compare. -/
def OP.val : OP → Nat
  | OP.PUT => 0
  | OP.GET => 1
  | OP.UPDATE => 2
  | OP.DELETE => 3
  | OP.HELP => 4
  | OP.QUIT => 5
  | OP.UNKNOWN => 6

/-- The function `parse_ycsb_op`.  `op` is the content of the NUL-terminated string it
receives, and `!strcmp(op, s)` is the equality of `op` and `s`. -/
def parse_ycsb_op (op : String) : OP :=
  if op = "INSERT" then OP.PUT
  else if op = "READ" then OP.GET
  else if op = "UPDATE" then OP.UPDATE
  else if op = "DELETE" then OP.DELETE
  else if op = "help" then OP.HELP
  else if op = "quit" then OP.QUIT
  else OP.UNKNOWN

/-- The test `op > OP::DELETE` by which the run loop of the YCSB drivers skips the token
`opstr`. -/
def ycsb_skipped (opstr : String) : Bool :=
  decide (OP.DELETE.val < (parse_ycsb_op opstr).val)

/-- The function `parse_cli_op`.  `op` is the content of the NUL-terminated string it
receives, and `!strcmp(op, s)` is the equality of `op` and `s`. -/
def parse_cli_op (op : String) : OP :=
  if op = "put" then OP.PUT
  else if op = "get" then OP.GET
  else if op = "free" then OP.DELETE
  else if op = "help" then OP.HELP
  else if op = "quit" then OP.QUIT
  else OP.UNKNOWN

/-- The operations the help text of `nrhi_test_cli.cpp` lists: "put/get/free/help/quit". -/
def cli_help_ops : List String := ["put", "get", "free", "help", "quit"]

/-- The `switch (op)` of the command loop of `nrhi_test_cli.cpp`: true when the token is
dispatched to an operation, false when the `default` branch prints "unknown operation". -/
def cli_accepts (opstr : String) : Bool :=
  match parse_cli_op opstr with
  | OP.PUT => true
  | OP.GET => true
  | OP.DELETE => true
  | OP.HELP => true
  | OP.QUIT => true
  | _ => false

/-! ## Vocabulary of the specification -/

/-- `is_chain heap dp ls`: following `next` from the pointer `dp` visits exactly the layers
`ls` (pointer and contents), in this order, and then reaches a null pointer. -/
def is_chain (heap : List (Nat × directory)) : Nat → List (Nat × directory) → Prop
  | dp, [] => dp = 0
  | dp, e :: rest =>
    dp ≠ 0 ∧ e.1 = dp ∧ get_address heap dp = some e.2 ∧ is_chain heap e.2.next rest

/-- Word held by slot `i` of bucket `j` of the bucket array at offset `a`. -/
def slot_word {K V : Type} (st : NRHI K V) (a j i : Nat) : Option Nat :=
  (st.bucket_heap.lookup a).bind (fun arr => (arr[j]?).bind (fun b => b[i]?))

/-- Key of the record a slot word refers to. -/
def key_of {K V : Type} (st : NRHI K V) (w : Nat) : Option K :=
  (get_address st.kv_heap w).map Prod.fst

/-- Number of segments of the layers `ls` whose bucket pointer is not 0. -/
def allocated_segments (ls : List (Nat × directory)) : Nat :=
  (ls.map (fun e => (e.2.segments.filter (fun off => off ≠ 0)).length)).sum

/-- Number of distinct bucket arrays the segments of the layers `ls` refer to. -/
def distinct_arrays (ls : List (Nat × directory)) : Nat :=
  ((ls.flatMap (fun e => e.2.segments)).filter (fun off => off ≠ 0)).dedup.length

/-- The 64-bit hash of a key. -/
def hash_of {K : Type} (hasher : K → Nat) (key : K) : Nat := hasher key % U64

/-- The token `generic_insert` derives from a hash. -/
def token_of (h : Nat) : Nat := (h >>> partial_shift) % 2 ^ 16

/-- The primary bucket index `generic_insert` derives from a hash. -/
def bucket_of (bucket_size h : Nat) : Nat := h &&& sub64 bucket_size 1

/-- The word `generic_insert` composes from a token and a record offset. -/
def slot_cont (token kv_off : Nat) : Nat :=
  ((token <<< token_shift) % U64) ^^^ (kv_off &&& not64 partial_mask)

/-- Coordinates of a slot as `generic_insert` names it: layer pointer, segment index,
bucket index, slot index; `array` is the bucket pointer found in that segment. -/
structure slot_ref where
  dp : Nat
  segment_idx : Nat
  array : Nat
  bucket_idx : Nat
  slot_idx : Nat
deriving DecidableEq, Repr

/-- Slots `0 .. slots_num-1` of one bucket. -/
def bucket_refs (dp sidx a bidx : Nat) : List slot_ref :=
  (List.range' 0 slots_num).map (fun i => ⟨dp, sidx, a, bidx, i⟩)

/-- Slots of the buckets `(b0 + k) mod bucket_size`, `k = k0 .. k0+n-1`, of one segment. -/
def segment_refs (bucket_size b0 dp sidx a : Nat) (n k0 : Nat) : List slot_ref :=
  (List.range' k0 n).flatMap (fun k => bucket_refs dp sidx a ((b0 + k) % bucket_size))

/-- Slots of the segments `(s0 + s) mod 2^segs_power`, `s = s1 .. s1+n-1`, of one layer, up
to the first of them whose bucket pointer is 0; the second component is the index of that
segment, if the walk met one. -/
def layer_refs (bucket_size b0 dp : Nat) (L : directory) (s0 : Nat) :
    Nat → Nat → List slot_ref × Option Nat
  | 0, _ => ([], none)
  | n + 1, s =>
    let sidx := (s0 + s) % 2 ^ L.segs_power
    match L.segments[sidx]? with
    | none => ([], some sidx)
    | some a =>
      if a = 0 then ([], some sidx)
      else
        let r := layer_refs bucket_size b0 dp L s0 n (s + 1)
        (segment_refs bucket_size b0 dp sidx a LP_DIS_B 0 ++ r.1, r.2)

/-- The probe walk of hash `h` over the layers `ls`, root first: in each layer the segments
`(s0 + s) mod segs`, `s = 0 .. LP_DIS_S-1`, with `s0 = h >> (64 - segs_power)`; in each
segment the buckets `(b0 + b) mod bucket_size`, `b = 0 .. LP_DIS_B-1`; in each bucket the
slots in order; the walk stops at the first segment whose bucket pointer is 0.  The second
component is the layer and segment where it stopped, if it did. -/
def chain_refs (bucket_size h b0 : Nat) :
    List (Nat × directory) → List slot_ref × Option (Nat × Nat)
  | [] => ([], none)
  | e :: rest =>
    let r := layer_refs bucket_size b0 e.1 e.2 (h >>> (hashcode_size - e.2.segs_power)) LP_DIS_S 0
    match r.2 with
    | some sidx => (r.1, some (e.1, sidx))
    | none =>
      let r2 := chain_refs bucket_size h b0 rest
      (r.1 ++ r2.1, r2.2)

/-- Slots visited by the probe walk of `key`, in probe order. -/
def probe_walk {K V : Type} (hasher : K → Nat) (st : NRHI K V) (ls : List (Nat × directory))
    (key : K) : List slot_ref :=
  (chain_refs st.bucket_size (hash_of hasher key)
    (bucket_of st.bucket_size (hash_of hasher key)) ls).1

/-- Segment at which the probe walk of `key` stops, if it meets one with bucket pointer 0. -/
def probe_stop {K V : Type} (hasher : K → Nat) (st : NRHI K V) (ls : List (Nat × directory))
    (key : K) : Option (Nat × Nat) :=
  (chain_refs st.bucket_size (hash_of hasher key)
    (bucket_of st.bucket_size (hash_of hasher key)) ls).2

/-- Word held by the slot a reference names. -/
def ref_word {K V : Type} (st : NRHI K V) (r : slot_ref) : Option Nat :=
  slot_word st r.array r.bucket_idx r.slot_idx

/-- The slot holds a record whose key is `key`. -/
def holds_key {K V : Type} (st : NRHI K V) (key : K) (w : Nat) : Prop :=
  w ≠ 0 ∧ key_of st w = some key

/-- Structure every state built by the constructor and by inserts has: the layers `ls`
are the chain from root and `top_dir` is its last layer; `bucket_size` is a power of two;
a layer of power `p` has `2^p` segments; bucket pointers, layer pointers and record
offsets are 48-bit offsets of objects in the pool; a bucket array has `bucket_size`
buckets of `slots_num` slots. -/
structure shape {K V : Type} (st : NRHI K V) (ls : List (Nat × directory)) : Prop where
  chain : is_chain st.dir_heap st.root_dir ls
  root_ne : st.root_dir ≠ 0
  top : ∃ pre L, ls = pre ++ [(st.top_dir, L)]
  bsize : ∃ hp, 1 ≤ hp ∧ hp ≤ 63 ∧ st.bucket_size = 2 ^ hp
  dp_lt : ∀ e ∈ ls, e.1 < 2 ^ 48
  nodup : (ls.map Prod.fst).Nodup
  power : ∀ e ∈ ls, 1 ≤ e.2.segs_power ∧ e.2.segs_power ≤ 63
  segs_len : ∀ e ∈ ls, e.2.segments.length = 2 ^ e.2.segs_power
  segs : ∀ e ∈ ls, ∀ a ∈ e.2.segments, a ≠ 0 → a < 2 ^ 48 ∧ ∃ arr, st.bucket_heap.lookup a = some arr
  arrays : ∀ a arr, st.bucket_heap.lookup a = some arr →
    arr.length = st.bucket_size ∧ ∀ b ∈ arr, b.length = slots_num
  records : ∀ a j i w, slot_word st a j i = some w → w ≠ 0 → ∃ kv, get_address st.kv_heap w = some kv

/-- Well-formed state: the structure above, and the layer after the top one can still be
made (its power `top.segs_power + EXPO` is at most 63). -/
structure well_formed {K V : Type} (st : NRHI K V) (ls : List (Nat × directory)) : Prop where
  shp : shape st ls
  top_power : ∀ pre e, ls = pre ++ [e] → e.2.segs_power + EXPO ≤ 63

/-- Contract of the pool allocator for one pass of insert: the offsets it returns are
non-null 48-bit offsets at which no object of that kind lives yet. -/
structure fresh {K V : Type} (st : NRHI K V) (o : offsets) : Prop where
  kv_ne : o.kv ≠ 0
  kv_lt : o.kv < 2 ^ 48
  kv_new : st.kv_heap.lookup o.kv = none
  buckets_ne : o.buckets ≠ 0
  buckets_lt : o.buckets < 2 ^ 48
  buckets_new : st.bucket_heap.lookup o.buckets = none
  dir_ne : o.dir ≠ 0
  dir_lt : o.dir < 2 ^ 48
  dir_new : st.dir_heap.lookup o.dir = none

/-- Contract of the pool allocator for the constructor: the root layer and the bucket
arrays get non-null 48-bit offsets, the bucket arrays pairwise different ones. -/
structure fresh_new (dir_off : Nat) (bucket_off : Nat → Nat) (segs_num : Nat) : Prop where
  dir_ne : dir_off ≠ 0
  dir_lt : dir_off < 2 ^ 48
  buckets_ne : ∀ i, i < segs_num → bucket_off i ≠ 0
  buckets_lt : ∀ i, i < segs_num → bucket_off i < 2 ^ 48
  buckets_inj : ∀ i j, i < segs_num → j < segs_num → bucket_off i = bucket_off j → i = j

/-- States reached from a newly created index by sequential inserts. -/
inductive reachable {K V : Type} [DecidableEq K] (hasher : K → Nat) : NRHI K V → Prop where
  | init (uuid dir_off : Nat) (bucket_off : Nat → Nat) (hashpower segspower : Nat)
      (st : NRHI K V) :
      fresh_new dir_off bucket_off (2 ^ segspower) →
      NRHI_new uuid dir_off bucket_off hashpower segspower = some st →
      reachable hasher st
  | step (st : NRHI K V) (fuel : Nat) (al : Nat → offsets) (value : K × V)
      (res : Option accessor) (r : Bool × NRHI K V × Option accessor) :
      reachable hasher st →
      fresh st (al 0) →
      generic_insert hasher fuel al st value.1 value res = some r →
      reachable hasher r.2.1

/-- Root layer the constructor builds when every bucket array is made. -/
def new_root (bucket_off : Nat → Nat) (sp : Nat) : directory :=
  { segs_power := sp, segments := (List.range (2 ^ sp)).map bucket_off, prev := 0, next := 0 }

/-- State the constructor builds when no shift overflows. -/
def new_state {K V : Type} (uuid dir_off : Nat) (bucket_off : Nat → Nat) (hp sp : Nat) :
    NRHI K V :=
  { my_pool_uuid := uuid
    bucket_size := 2 ^ hp
    root_dir := dir_off
    top_dir := dir_off
    dirs := [dir_off]
    dir_heap := [(dir_off, new_root bucket_off sp)]
    bucket_heap := (List.range (2 ^ sp)).map (fun i => (bucket_off i, zero_buckets (2 ^ hp)))
    kv_heap := [] }

/-! ## The walk as a scan of the probe order -/

/-- Word of the slot a reference names, 0 when the reference names no slot. -/
def word_at {K V : Type} (st : NRHI K V) (r : slot_ref) : Nat :=
  (ref_word st r).getD 0

/-- Test the walk applies to a non-empty slot: same token and equal key. -/
def is_match {K V : Type} (st : NRHI K V) (key : K) (token w : Nat) : Prop :=
  w ≠ 0 ∧ slot_token w = token ∧ key_of st w = some key

instance {K V : Type} [DecidableEq K] (st : NRHI K V) (key : K) (token w : Nat) :
    Decidable (is_match st key token w) := by
  unfold is_match
  infer_instance

/-- Outcome of scanning slots in probe order: the first empty slot recorded so far, or the
word of a slot that holds the key. -/
inductive scan_result where
  | go (e : Option slot_ref)
  | hit (w : Nat)
deriving DecidableEq, Repr

/-- The walk over a list of slots, `e` being the empty slot already recorded: the first
empty slot met is recorded, a non-empty slot that matches ends the walk. -/
def scan {K V : Type} [DecidableEq K] (st : NRHI K V) (key : K) (token : Nat) :
    List slot_ref → Option slot_ref → scan_result
  | [], e => scan_result.go e
  | r :: rs, e =>
    if e = none ∧ word_at st r = 0 then scan st key token rs (some r)
    else if is_match st key token (word_at st r) then scan_result.hit (word_at st r)
    else scan st key token rs e

/-- Local variables of `generic_insert` when the walk stands in layer `dp` at segment
`sidx`, having recorded the empty slot `e`. -/
def locals_of (b0 slot0 dp eff : Nat) (sidx : Int) (e : Option slot_ref) : locals :=
  match e with
  | none =>
    { dp := dp, effective_dp := eff, insert_dp := 0, segment_idx := sidx,
      insert_segment_idx := -1, insert_bucket_idx := to_ptrdiff b0, found_empty := false,
      slot_idx := slot0 }
  | some r =>
    { dp := dp, effective_dp := eff, insert_dp := r.dp, segment_idx := sidx,
      insert_segment_idx := (r.segment_idx : Int), insert_bucket_idx := (r.bucket_idx : Int),
      found_empty := true, slot_idx := r.slot_idx }

/-- Loop outcome that corresponds to a scan outcome inside one segment. -/
def lift_scan (b0 slot0 dp eff : Nat) (sidx : Int) : scan_result → Ctl locals
  | scan_result.go e => Ctl.cont (locals_of b0 slot0 dp eff sidx e)
  | scan_result.hit w => Ctl.ret w

/-- Loop outcome of the segment loop of one layer: `stop` is the segment with bucket
pointer 0 the loop met, `last` the segment index left in `segment_idx` otherwise. -/
def layer_result (b0 slot0 dp eff : Nat) (last : Int) (stop : Option Nat) :
    scan_result → Ctl locals
  | scan_result.hit w => Ctl.ret w
  | scan_result.go e =>
    match stop with
    | some sidx => Ctl.out (locals_of b0 slot0 dp eff (sidx : Int) e)
    | none => Ctl.cont (locals_of b0 slot0 dp eff last e)

/-- Loop outcome of the whole layer walk: `stop` is the layer and segment where it met a
bucket pointer 0, `eff` the last layer entered. -/
def chain_result (b0 slot0 eff : Nat) (last : Int) (stop : Option (Nat × Nat)) :
    scan_result → Ctl locals
  | scan_result.hit w => Ctl.ret w
  | scan_result.go e =>
    match stop with
    | some x => Ctl.out (locals_of b0 slot0 x.1 x.1 (x.2 : Int) e)
    | none => Ctl.cont (locals_of b0 slot0 0 eff last e)

/-- Pointer of the last layer of a chain, `eff` for the empty chain. -/
def last_dp (eff : Nat) : List (Nat × directory) → Nat
  | [] => eff
  | e :: rest => last_dp e.1 rest

/-! ## The three effects of an insert on the state -/

/-- Bucket heap after the store of word `w` into slot `i` of bucket `j` of the array at
offset `a`. -/
def write_slot (heap : List (Nat × List bucket)) (a j i w : Nat) : List (Nat × List bucket) :=
  match heap.lookup a with
  | none => heap
  | some arr => heap_store heap a (arr.set j ((arr.getD j []).set i w))

/-- Publication: the record `param` is allocated at `kv_off` and the word `w` is stored into
the slot `r`. -/
def publish {K V : Type} (st : NRHI K V) (param : K × V) (kv_off : Nat) (r : slot_ref)
    (w : Nat) : NRHI K V :=
  { st with
    kv_heap := (kv_off, param) :: st.kv_heap
    bucket_heap := write_slot st.bucket_heap r.array r.bucket_idx r.slot_idx w }

/-- Segment materialization: a zeroed bucket array is allocated at `bk_off` and installed in
segment `sidx` of the layer `L` at `dp`. -/
def materialize {K V : Type} (st : NRHI K V) (dp : Nat) (L : directory) (sidx bk_off : Nat) :
    NRHI K V :=
  { st with
    bucket_heap := (bk_off, zero_buckets st.bucket_size) :: st.bucket_heap
    dir_heap := heap_store st.dir_heap dp { L with segments := L.segments.set sidx bk_off } }

/-- The layer appended after the layer `L` at `dp`. -/
def next_layer (dp : Nat) (L : directory) : directory :=
  { segs_power := L.segs_power + EXPO
    segments := List.replicate (2 ^ (L.segs_power + EXPO)) 0
    prev := dp
    next := 0 }

/-- Directory extension: the layer `next_layer top L` is allocated at `dir_off` and linked
after the layer `L` at `top`; `top_dir` and `dirs` follow. -/
def extend {K V : Type} (st : NRHI K V) (top : Nat) (L : directory) (dir_off : Nat) :
    NRHI K V :=
  { st with
    dir_heap := heap_store ((dir_off, next_layer top L) :: st.dir_heap) top { L with next := dir_off }
    top_dir := dir_off
    dirs := st.dirs ++ [dir_off] }

/-- The chain `ls` with the contents of the layer at `dp` replaced by `L`. -/
def set_layer (ls : List (Nat × directory)) (dp : Nat) (L : directory) :
    List (Nat × directory) :=
  ls.map (fun x => if x.1 = dp then (dp, L) else x)

/-- A slot reference names a slot of the index: its layer is in the chain, its segment
holds the bucket pointer `array`, which is not 0, and bucket and slot index are in range. -/
def valid_ref {K V : Type} (st : NRHI K V) (ls : List (Nat × directory)) (r : slot_ref) : Prop :=
  ∃ L, (r.dp, L) ∈ ls ∧ L.segments[r.segment_idx]? = some r.array ∧ r.array ≠ 0 ∧
    r.bucket_idx < st.bucket_size ∧ r.slot_idx < slots_num

/-! ## The four outcomes of a sequential insert -/

/-- `insert_outcome hasher st ls key param o st1 ls1 w`: how a pass of `generic_insert` for
`key` with allocations `o` leaves the state `st` (chain `ls`): the key is found
(`hit`), the record is published into the first empty slot of the walk (`empty`), into a
segment materialized where the walk stopped (`null`), or into the primary segment of a
newly appended layer (`grow`).  `st1` is the state afterwards, `ls1` its chain and `w` the
slot word the accessor receives. -/
inductive insert_outcome {K V : Type} [DecidableEq K] (hasher : K → Nat) (st : NRHI K V)
    (ls : List (Nat × directory)) (key : K) (param : K × V) (o : offsets) :
    NRHI K V → List (Nat × directory) → Nat → Prop where
  | hit (r : slot_ref) :
      r ∈ probe_walk hasher st ls key →
      is_match st key (token_of (hash_of hasher key)) (word_at st r) →
      insert_outcome hasher st ls key param o st ls (word_at st r)
  | empty (r : slot_ref) :
      (∀ x ∈ probe_walk hasher st ls key,
        ¬ is_match st key (token_of (hash_of hasher key)) (word_at st x)) →
      (probe_walk hasher st ls key).find? (fun x => decide (word_at st x = 0)) = some r →
      insert_outcome hasher st ls key param o
        (publish st param o.kv r (slot_cont (token_of (hash_of hasher key)) o.kv)) ls
        (slot_cont (token_of (hash_of hasher key)) o.kv)
  | null (dp sidx : Nat) (L : directory) :
      (∀ x ∈ probe_walk hasher st ls key,
        ¬ is_match st key (token_of (hash_of hasher key)) (word_at st x)) →
      (∀ x ∈ probe_walk hasher st ls key, word_at st x ≠ 0) →
      probe_stop hasher st ls key = some (dp, sidx) →
      (dp, L) ∈ ls → L.segments[sidx]? = some 0 →
      insert_outcome hasher st ls key param o
        (publish (materialize st dp L sidx o.buckets) param o.kv
          ⟨dp, sidx, o.buckets, bucket_of st.bucket_size (hash_of hasher key), 0⟩
          (slot_cont (token_of (hash_of hasher key)) o.kv))
        (set_layer ls dp { L with segments := L.segments.set sidx o.buckets })
        (slot_cont (token_of (hash_of hasher key)) o.kv)
  | grow (pre : List (Nat × directory)) (L : directory) :
      (∀ x ∈ probe_walk hasher st ls key,
        ¬ is_match st key (token_of (hash_of hasher key)) (word_at st x)) →
      (∀ x ∈ probe_walk hasher st ls key, word_at st x ≠ 0) →
      probe_stop hasher st ls key = none →
      ls = pre ++ [(st.top_dir, L)] → L.next = 0 → L.segs_power + EXPO ≤ 63 →
      insert_outcome hasher st ls key param o
        (publish
          (materialize (extend st st.top_dir L o.dir) o.dir (next_layer st.top_dir L)
            (hash_of hasher key >>> (hashcode_size - (L.segs_power + EXPO))) o.buckets)
          param o.kv
          ⟨o.dir, hash_of hasher key >>> (hashcode_size - (L.segs_power + EXPO)), o.buckets,
            bucket_of st.bucket_size (hash_of hasher key), 0⟩
          (slot_cont (token_of (hash_of hasher key)) o.kv))
        (set_layer ls st.top_dir { L with next := o.dir } ++
          [(o.dir,
            { next_layer st.top_dir L with
              segments := (next_layer st.top_dir L).segments.set
                (hash_of hasher key >>> (hashcode_size - (L.segs_power + EXPO))) o.buckets })])
        (slot_cont (token_of (hash_of hasher key)) o.kv)

/-! ## Keys and slots -/

/-- No two non-empty slots reference records with equal keys. -/
def no_duplicate_keys {K V : Type} (st : NRHI K V) : Prop :=
  ∀ (a j i w a1 j1 i1 w1 : Nat) (k : K),
    slot_word st a j i = some w → w ≠ 0 → key_of st w = some k →
    slot_word st a1 j1 i1 = some w1 → w1 ≠ 0 → key_of st w1 = some k →
    a = a1 ∧ j = j1 ∧ i = i1

/-- No non-empty slot of the index references a record with key `key`. -/
def absent {K V : Type} (st : NRHI K V) (key : K) : Prop :=
  ∀ (a j i w : Nat), slot_word st a j i = some w → ¬ holds_key st key w

/-- Every non-empty slot references a record, carries the token of that record's key and
lies on the probe walk of that key. -/
def placed {K V : Type} (hasher : K → Nat) (st : NRHI K V) (ls : List (Nat × directory)) :
    Prop :=
  ∀ (a j i w : Nat), slot_word st a j i = some w → w ≠ 0 →
    ∃ k, key_of st w = some k ∧ slot_token w = token_of (hash_of hasher k) ∧
      ∃ r ∈ probe_walk hasher st ls k, r.array = a ∧ r.bucket_idx = j ∧ r.slot_idx = i

/-- Invariant of the states reached by sequential inserts. -/
structure inv {K V : Type} (hasher : K → Nat) (st : NRHI K V) (ls : List (Nat × directory)) :
    Prop where
  shp : shape st ls
  plc : placed hasher st ls
  uniq : no_duplicate_keys st

/-! ## Layout of the layer chain -/

/-- `layered prev sp ls`: the layers `ls`, in chain order, have the powers `sp`,
`sp + EXPO`, `sp + 2 EXPO`, ..., and each one's `prev` is the pointer of the layer before
it, `prev` for the first. -/
def layered : Nat → Nat → List (Nat × directory) → Prop
  | _, _, [] => True
  | prev, sp, e :: rest => e.2.prev = prev ∧ e.2.segs_power = sp ∧ layered e.1 (sp + EXPO) rest

/-! ## Checkable form of the structure predicates -/

instance {K V : Type} [DecidableEq K] (st : NRHI K V) (key : K) (w : Nat) :
    Decidable (holds_key st key w) := by
  unfold holds_key
  infer_instance

/-- Boolean test of `is_chain`. -/
def chain_ok (heap : List (Nat × directory)) : Nat → List (Nat × directory) → Bool
  | d, [] => d == 0
  | d, e :: rest =>
    d != 0 && e.1 == d && (get_address heap d == some e.2) && chain_ok heap e.2.next rest

/-- The structure of `shape`, stated with bounded quantifiers only. -/
def shape_check {K V : Type} (st : NRHI K V) (ls : List (Nat × directory)) : Prop :=
  chain_ok st.dir_heap st.root_dir ls = true ∧ st.root_dir ≠ 0 ∧
  (ls ≠ [] ∧ last_dp 0 ls = st.top_dir) ∧
  (∃ hp ∈ List.range 64, 1 ≤ hp ∧ st.bucket_size = 2 ^ hp) ∧
  (∀ e ∈ ls, e.1 < 2 ^ 48 ∧ 1 ≤ e.2.segs_power ∧ e.2.segs_power ≤ 63 ∧
    e.2.segments.length = 2 ^ e.2.segs_power ∧
    ∀ a ∈ e.2.segments, a ≠ 0 → a < 2 ^ 48 ∧ (st.bucket_heap.lookup a).isSome = true) ∧
  (ls.map Prod.fst).Nodup ∧
  (∀ x ∈ st.bucket_heap, x.2.length = st.bucket_size ∧
    ∀ b ∈ x.2, b.length = slots_num ∧
      ∀ w ∈ b, w ≠ 0 → (get_address st.kv_heap w).isSome = true)

instance {K V : Type} (st : NRHI K V) (ls : List (Nat × directory)) :
    Decidable (shape_check st ls) := by
  unfold shape_check
  infer_instance

/-- The allocator contract `fresh`, as a conjunction of decidable facts. -/
def fresh_check {K V : Type} (st : NRHI K V) (o : offsets) : Prop :=
  (o.kv ≠ 0 ∧ o.kv < 2 ^ 48 ∧ (st.kv_heap.lookup o.kv).isNone = true) ∧
  (o.buckets ≠ 0 ∧ o.buckets < 2 ^ 48 ∧ (st.bucket_heap.lookup o.buckets).isNone = true) ∧
  (o.dir ≠ 0 ∧ o.dir < 2 ^ 48 ∧ (st.dir_heap.lookup o.dir).isNone = true)

instance {K V : Type} (st : NRHI K V) (o : offsets) : Decidable (fresh_check st o) := by
  unfold fresh_check
  infer_instance

/-- The structure of `well_formed`, stated with bounded quantifiers only. -/
def well_formed_check {K V : Type} (st : NRHI K V) (ls : List (Nat × directory)) : Prop :=
  shape_check st ls ∧ ∀ e ∈ ls, e.2.segs_power + EXPO ≤ 63

instance {K V : Type} (st : NRHI K V) (ls : List (Nat × directory)) :
    Decidable (well_formed_check st ls) := by
  unfold well_formed_check
  infer_instance

/-- The predicate `absent`, stated with bounded quantifiers only. -/
def absent_check {K V : Type} (st : NRHI K V) (key : K) : Prop :=
  ∀ x ∈ st.bucket_heap, ∀ b ∈ x.2, ∀ w ∈ b, ¬ holds_key st key w

instance {K V : Type} [DecidableEq K] (st : NRHI K V) (key : K) :
    Decidable (absent_check st key) := by
  unfold absent_check
  infer_instance

/-! ## Concrete states and allocations used in the examples -/

/-- Offsets handed out to the first insert of the examples. -/
def ex_alloc1 : Nat → offsets := fun _ => ⟨1000, 2000, 3000⟩

/-- Offsets handed out to the second insert of the examples. -/
def ex_alloc2 : Nat → offsets := fun _ => ⟨1100, 2100, 3100⟩

/-- Offsets of the bucket arrays made by the constructor in the examples. -/
def ex_bucket_off : Nat → Nat := fun i => 128 + 64 * i

/-- Root layer of the index `new(hashpower = 1, segspower = 1)` of the examples. -/
def ex_root : directory := { segs_power := 1, segments := [128, 192], prev := 0, next := 0 }

/-- The index `new(hashpower = 1, segspower = 1)`: two segments of two buckets. -/
def ex_new : NRHI Nat Nat :=
  { my_pool_uuid := 7, bucket_size := 2, root_dir := 64, top_dir := 64, dirs := [64],
    dir_heap := [(64, ex_root)],
    bucket_heap := [(128, zero_buckets 2), (192, zero_buckets 2)], kv_heap := [] }

/-- A layer whose two segments refer to the same bucket array. -/
def ex_shared_root : directory :=
  { segs_power := 1, segments := [128, 128], prev := 0, next := 0 }

/-- A state with a one-layer chain in which one bucket array is shared by two segments. -/
def ex_shared : NRHI Nat Nat :=
  { my_pool_uuid := 7, bucket_size := 2, root_dir := 64, top_dir := 64, dirs := [64],
    dir_heap := [(64, ex_shared_root)],
    bucket_heap := [(128, zero_buckets 2)], kv_heap := [] }

/-- Bucket array of segment 0 once the keys 0..31 are stored. -/
def ex_array0 : List bucket :=
  [[1024, 1056, 1088, 1120, 1152, 1184, 1216, 1248],
   [1040, 1072, 1104, 1136, 1168, 1200, 1232, 1264]]

/-- Bucket array of segment 1 once the keys 0..31 are stored. -/
def ex_array1 : List bucket :=
  [[1280, 1312, 1344, 1376, 1408, 1440, 1472, 1504],
   [1296, 1328, 1360, 1392, 1424, 1456, 1488, 1520]]

/-- Records of the keys `0 .. n-1`, key `k` with value `k + 100` at offset `1024 + 16 k`. -/
def ex_records (n : Nat) : List (Nat × (Nat × Nat)) :=
  (List.range n).reverse.map (fun k => (1024 + 16 * k, (k, k + 100)))

/-- The index `new(1, 1)` after the inserts of the keys 0..31: one layer, every slot of
both segments taken. -/
def ex_full : NRHI Nat Nat :=
  { my_pool_uuid := 7, bucket_size := 2, root_dir := 64, top_dir := 64, dirs := [64],
    dir_heap := [(64, ex_root)],
    bucket_heap := [(192, ex_array1), (128, ex_array0)],
    kv_heap := ex_records 32 }

/-- Root layer once a second layer at offset 1544 is linked after it. -/
def ex_root_linked : directory :=
  { segs_power := 1, segments := [128, 192], prev := 0, next := 1544 }

/-- Second layer of the examples: four segments, the first one materialized at 1540. -/
def ex_second : directory :=
  { segs_power := 2, segments := [1540, 0, 0, 0], prev := 64, next := 0 }

/-- The index `new(1, 1)` after the inserts of the keys 0..32: the insert of key 32 added
the second layer and materialized its segment 0. -/
def ex_grown : NRHI Nat Nat :=
  { my_pool_uuid := 7, bucket_size := 2, root_dir := 64, top_dir := 1544, dirs := [64, 1544],
    dir_heap := [(1544, ex_second), (64, ex_root_linked)],
    bucket_heap :=
      [(1540, [[1536, 0, 0, 0, 0, 0, 0, 0], [0, 0, 0, 0, 0, 0, 0, 0]]),
       (192, ex_array1), (128, ex_array0)],
    kv_heap := ex_records 33 }

/-- Offsets handed out to the insert of key 32 in the examples. -/
def ex_alloc3 : Nat → offsets := fun _ => ⟨1536, 1540, 1544⟩

/-- Offsets handed out to the inserts into `ex_grown` in the examples. -/
def ex_alloc4 : Nat → offsets := fun _ => ⟨4000, 4004, 4008⟩

/-- The index `new(1, 1)` after `insert((42, 1))` with the record at offset 1000. -/
def ex_one : NRHI Nat Nat :=
  { my_pool_uuid := 7, bucket_size := 2, root_dir := 64, top_dir := 64, dirs := [64],
    dir_heap := [(64, ex_root)],
    bucket_heap :=
      [(128, [[1000, 0, 0, 0, 0, 0, 0, 0], [0, 0, 0, 0, 0, 0, 0, 0]]), (192, zero_buckets 2)],
    kv_heap := [(1000, (42, 1))] }

/-- Offsets handed out to the insert of key `n` in the run of the examples. -/
def ex_alloc_seq (n : Nat) : Nat → offsets := fun _ => ⟨1024 + 16 * n, 1540, 1544⟩

/-- The run of the examples: on the index `new(1, 1)`, the inserts of `(k, k + 100)` for
`k = 0 .. n-1`, each with allocator offsets not yet in use. -/
def ex_run : Nat → Option (NRHI Nat Nat)
  | 0 => some ex_new
  | n + 1 =>
    (ex_run n).bind (fun st =>
      if fresh_check st (ex_alloc_seq n 0) then
        (generic_insert id 2 (ex_alloc_seq n) st n (n, n + 100) none).map (fun r => r.2.1)
      else none)

/-- Root layer whose second segment has no bucket array, linked to a second layer. -/
def ex_root_gap : directory :=
  { segs_power := 1, segments := [128, 0], prev := 0, next := 1544 }

/-- A well-formed state that no run of inserts produces: the root layer has an empty
bucket array in segment 0 and no bucket array in segment 1, and the second layer holds the
record `(5, 105)` in slot 0 of bucket 1 of its segment 0. -/
def ex_hidden : NRHI Nat Nat :=
  { my_pool_uuid := 7, bucket_size := 2, root_dir := 64, top_dir := 1544, dirs := [64, 1544],
    dir_heap := [(1544, ex_second), (64, ex_root_gap)],
    bucket_heap :=
      [(1540, [[0, 0, 0, 0, 0, 0, 0, 0], [1536, 0, 0, 0, 0, 0, 0, 0]]), (128, zero_buckets 2)],
    kv_heap := [(1536, (5, 105))] }

/-- A well-formed state that no run of inserts produces: slot 0 of bucket 1 of segment 0
refers to the record `(5, 105)` under the token 9, which is not the token of key 5. -/
def ex_mistoken : NRHI Nat Nat :=
  { my_pool_uuid := 7, bucket_size := 2, root_dir := 64, top_dir := 64, dirs := [64],
    dir_heap := [(64, ex_root)],
    bucket_heap :=
      [(128, [[0, 0, 0, 0, 0, 0, 0, 0], [9 * 2 ^ 48 + 1536, 0, 0, 0, 0, 0, 0, 0]]),
       (192, zero_buckets 2)],
    kv_heap := [(1536, (5, 105))] }

/-! # Theorems -/

/-! ## Machine arithmetic -/

theorem shl64_one {n : Nat} (h : n < 64) : shl64 1 n = some (2 ^ n) := by
  have h1 : 2 ^ n < 2 ^ 64 := Nat.pow_lt_pow_right (by norm_num) h
  unfold shl64 U64
  rw [if_pos h, Nat.shiftLeft_eq, Nat.one_mul, Nat.mod_eq_of_lt h1]

theorem shl64_eq_some {a n x : Nat} (h : shl64 a n = some x) : n < 64 := by
  unfold shl64 at h
  by_contra hn
  simp [hn] at h

theorem loop_bound_of_lt {n : Nat} (h : n < 2 ^ 63) : loop_bound n = n := by
  unfold loop_bound to_ptrdiff
  rw [if_pos h, Int.toNat_ofNat]

theorem get_offset_of_lt {w : Nat} (h : w < 2 ^ 48) : get_offset w = w := by
  unfold get_offset
  exact Nat.mod_eq_of_lt h

/-! ## capacity -/

theorem capacity_segs_spec (L : directory) :
    ∀ (n i eff : Nat), i + n ≤ L.segments.length →
      capacity_segs L n i (eff % U64) =
        some ((eff + (((L.segments.drop i).take n).filter (fun off => off ≠ 0)).length) % U64)
  | 0, i, eff, _ => by simp [capacity_segs]
  | n + 1, i, eff, h => by
    have hi : i < L.segments.length := by omega
    have hd : L.segments.drop i = L.segments[i] :: L.segments.drop (i + 1) :=
      List.drop_eq_getElem_cons hi
    have ih1 := capacity_segs_spec L n (i + 1) (eff + 1) (by omega)
    have ih0 := capacity_segs_spec L n (i + 1) eff (by omega)
    simp only [capacity_segs, List.getElem?_eq_getElem hi, hd, List.take_succ_cons]
    by_cases hz : L.segments[i] = 0
    · simp [hz, ih0]
    · have e1 : (eff % U64 + 1) % U64 = (eff + 1) % U64 := by
        rw [Nat.add_mod, Nat.mod_mod, ← Nat.add_mod]
      simp only [ne_eq, hz, not_false_eq_true, if_true, e1, ih1, List.filter_cons,
        decide_True, List.length_cons]
      congr 2
      omega

theorem capacity_layers_spec (heap : List (Nat × directory)) :
    ∀ (ls : List (Nat × directory)) (fuel dp eff : Nat),
      is_chain heap dp ls →
      (∀ e ∈ ls, e.2.segs_power ≤ 62 ∧ e.2.segments.length = 2 ^ e.2.segs_power) →
      ls.length < fuel →
      capacity_layers heap fuel dp (eff % U64) = some ((eff + allocated_segments ls) % U64)
  | [], fuel, dp, eff, hc, _, hf => by
    obtain ⟨f, rfl⟩ : ∃ f, fuel = f + 1 := ⟨fuel - 1, by simp at hf; omega⟩
    simp only [is_chain] at hc
    simp [capacity_layers, hc, allocated_segments]
  | e :: rest, fuel, dp, eff, hc, hl, hf => by
    obtain ⟨f, rfl⟩ : ∃ f, fuel = f + 1 := ⟨fuel - 1, by simp at hf; omega⟩
    obtain ⟨hne, _, hget, hrest⟩ := hc
    obtain ⟨hp, hlen⟩ := hl e (List.mem_cons_self _ _)
    have hlt : (2 : Nat) ^ e.2.segs_power < 2 ^ 63 := Nat.pow_lt_pow_right (by norm_num) (by omega)
    have hseg := capacity_segs_spec e.2 (2 ^ e.2.segs_power) 0 eff (by omega)
    have htake : (List.drop 0 e.2.segments).take (2 ^ e.2.segs_power) = e.2.segments := by
      rw [List.drop_zero, ← hlen, List.take_length]
    rw [htake] at hseg
    have ih := capacity_layers_spec heap rest f e.2.next
      (eff + (e.2.segments.filter (fun off => off ≠ 0)).length) hrest
      (fun x hx => hl x (List.mem_cons_of_mem _ hx)) (by simp at hf; omega)
    simp only [capacity_layers, hne, if_false, hget, shl64_one (show e.2.segs_power < 64 by omega),
      loop_bound_of_lt hlt, hseg, ih]
    simp [allocated_segments, Nat.add_assoc]

theorem capacity_spec {K V : Type} (st : NRHI K V) (ls : List (Nat × directory)) (fuel : Nat)
    (hc : is_chain st.dir_heap st.root_dir ls)
    (hl : ∀ e ∈ ls, e.2.segs_power ≤ 62 ∧ e.2.segments.length = 2 ^ e.2.segs_power)
    (hf : ls.length < fuel) :
    capacity fuel st = some ((st.bucket_size * slots_num * allocated_segments ls) % U64) := by
  have h := capacity_layers_spec st.dir_heap ls fuel st.root_dir 0 hc hl hf
  rw [Nat.zero_mod, Nat.zero_add] at h
  unfold capacity
  rw [h, Option.map_some', Nat.mod_mul_mod, Nat.mul_assoc, Nat.mod_mul_mod]
  congr 2
  ring

theorem allocated_eq_distinct :
    ∀ (ls : List (Nat × directory)),
      ((ls.flatMap (fun e => e.2.segments)).filter (fun off => off ≠ 0)).Nodup →
      distinct_arrays ls = allocated_segments ls := by
  intro ls hnd
  unfold distinct_arrays allocated_segments
  rw [List.Nodup.dedup hnd]
  clear hnd
  induction ls with
  | nil => simp
  | cons e rest ih =>
    simp only [List.flatMap_cons, List.filter_append, List.length_append, List.map_cons,
      List.sum_cons, ih]

/-- C10 (as amended): for every state whose layer chain from root is finite, with layers
of power at most 62 holding `2^segs_power` segments, `capacity()` returns
`bucket_size * slots_num * n` modulo `2^64`, where `n` counts the segments with a non-zero
bucket pointer over all layers, one per segment; `n` is the number of distinct bucket
arrays whenever no array is shared. -/
theorem capacity_counts_allocated_segments {K V : Type} (st : NRHI K V)
    (ls : List (Nat × directory)) (fuel : Nat)
    (hc : is_chain st.dir_heap st.root_dir ls)
    (hl : ∀ e ∈ ls, e.2.segs_power ≤ 62 ∧ e.2.segments.length = 2 ^ e.2.segs_power)
    (hf : ls.length < fuel) :
    capacity fuel st = some ((st.bucket_size * slots_num * allocated_segments ls) % U64) ∧
      (((ls.flatMap (fun e => e.2.segments)).filter (fun off => off ≠ 0)).Nodup →
        allocated_segments ls = distinct_arrays ls) :=
  ⟨capacity_spec st ls fuel hc hl hf, fun h => (allocated_eq_distinct ls h).symm⟩

theorem capacity_counts_allocated_segments_witness :
    is_chain ex_new.dir_heap ex_new.root_dir [(64, ex_root)] ∧
      capacity 2 ex_new = some ((ex_new.bucket_size * slots_num *
        allocated_segments [(64, ex_root)]) % U64) ∧
      ((([(64, ex_root)].flatMap (fun e => e.2.segments)).filter (fun off => off ≠ 0)).Nodup →
        allocated_segments [(64, ex_root)] = distinct_arrays [(64, ex_root)]) :=
  ⟨⟨by decide, rfl, rfl, rfl⟩,
    capacity_counts_allocated_segments ex_new [(64, ex_root)] 2 ⟨by decide, rfl, rfl, rfl⟩
      (by decide) (by decide)⟩

/-- C10 (counterexample): in a state with a one-layer chain whose two segments share one
bucket array, `capacity()` returns 32 = 2 * bucket_size * slots_num, not
`bucket_size * slots_num` times the one distinct array. -/
theorem capacity_shared_array_counterexample :
    is_chain ex_shared.dir_heap ex_shared.root_dir [(64, ex_shared_root)] ∧
      ([(64, ex_shared_root)].map (fun e => get_offset e.1)).Nodup ∧
      capacity 2 ex_shared = some 32 ∧
      ex_shared.bucket_size * slots_num * distinct_arrays [(64, ex_shared_root)] = 16 :=
  ⟨⟨by decide, rfl, rfl, rfl⟩, by decide, by decide, by decide⟩

/-! ## Constructor -/

theorem lookup_map_const {α : Type} (f : Nat → Nat) (c : α) :
    ∀ (l : List Nat) (a : Nat) (x : α),
      (l.map (fun i => (f i, c))).lookup a = some x → x = c := by
  intro l
  induction l with
  | nil => intro a x h; simp at h
  | cons i rest ih =>
    intro a x h
    rw [List.map_cons, List.lookup_cons] at h
    cases hb : (a == f i) with
    | true => rw [hb] at h; exact (Option.some.inj h).symm
    | false => rw [hb] at h; exact ih a x h

theorem zero_buckets_slot {n j i w : Nat} {b : bucket}
    (hb : (zero_buckets n)[j]? = some b) (hw : b[i]? = some w) : w = 0 := by
  have h1 : b ∈ zero_buckets n := List.getElem?_mem hb
  have h2 : b = List.replicate slots_num 0 := List.eq_of_mem_replicate h1
  have h3 : w ∈ b := List.getElem?_mem hw
  rw [h2] at h3
  exact List.eq_of_mem_replicate h3

theorem NRHI_new_eq {K V : Type} (uuid dir_off : Nat) (bucket_off : Nat → Nat)
    (hp sp : Nat) (h1 : 1 ≤ hp) (h2 : hp ≤ 63) (h3 : sp ≤ 62) :
    (NRHI_new uuid dir_off bucket_off hp sp : Option (NRHI K V)) =
      some (new_state uuid dir_off bucket_off hp sp) := by
  have hlt : (2 : Nat) ^ sp < 2 ^ 63 := Nat.pow_lt_pow_right (by norm_num) (by omega)
  have hm : (List.range (2 ^ sp)).map (fun i => if i < 2 ^ sp then bucket_off i else 0) =
      (List.range (2 ^ sp)).map bucket_off := by
    apply List.map_congr_left
    intro i hi
    rw [if_pos (List.mem_range.mp hi)]
  unfold NRHI_new
  rw [if_neg (by omega), shl64_one (show hp < 64 by omega), shl64_one (show sp < 64 by omega)]
  simp only [loop_bound_of_lt hlt, hm, new_state, new_root]

theorem new_state_chain {K V : Type} (uuid dir_off : Nat) (bucket_off : Nat → Nat)
    (hp sp : Nat) (hne : dir_off ≠ 0) (hlt : dir_off < 2 ^ 48) :
    is_chain (new_state uuid dir_off bucket_off hp sp : NRHI K V).dir_heap dir_off
      [(dir_off, new_root bucket_off sp)] := by
  refine ⟨hne, rfl, ?_, rfl⟩
  simp [get_address, get_offset_of_lt hlt, new_state]

theorem new_state_slots {K V : Type} (uuid dir_off : Nat) (bucket_off : Nat → Nat)
    (hp sp : Nat) (a j i w : Nat)
    (hw : slot_word (new_state uuid dir_off bucket_off hp sp : NRHI K V) a j i = some w) :
    w = 0 := by
  unfold slot_word at hw
  simp only [Option.bind_eq_some] at hw
  obtain ⟨arr, harr, b, hb, hw⟩ := hw
  have := lookup_map_const bucket_off (zero_buckets (2 ^ hp)) _ a arr harr
  subst this
  exact zero_buckets_slot hb hw

/-- C9 (as amended): for `1 ≤ hashpower ≤ 63` and `segspower ≤ 62`, with the allocator
returning non-null 48-bit offsets, the constructor yields a state with
`bucket_size = 2^hashpower`, whose chain is the root layer alone with `2^segspower`
segments, `top = root`, every slot empty, and `capacity()` equal to
`2^segspower * 2^hashpower * 8` modulo `2^64`, which is that product itself when
`segspower + hashpower ≤ 60`. -/
theorem new_index_spec (K V : Type) (uuid dir_off : Nat) (bucket_off : Nat → Nat)
    (hp sp fuel : Nat) (h1 : 1 ≤ hp) (h2 : hp ≤ 63) (h3 : sp ≤ 62)
    (hal : fresh_new dir_off bucket_off (2 ^ sp)) (hf : 2 ≤ fuel) :
    ∃ (st : NRHI K V) (L : directory),
      NRHI_new uuid dir_off bucket_off hp sp = some st ∧
      st.bucket_size = 2 ^ hp ∧
      is_chain st.dir_heap st.root_dir [(st.root_dir, L)] ∧
      L.segs_power = sp ∧ L.segments.length = 2 ^ sp ∧
      st.top_dir = st.root_dir ∧
      (∀ a j i w, slot_word st a j i = some w → w = 0) ∧
      capacity fuel st = some ((2 ^ sp * 2 ^ hp * 8) % U64) ∧
      (sp + hp ≤ 60 → capacity fuel st = some (2 ^ sp * 2 ^ hp * 8)) := by
  have hchain := new_state_chain (K := K) (V := V) uuid dir_off bucket_off hp sp
    hal.dir_ne hal.dir_lt
  have hcap : capacity fuel (new_state uuid dir_off bucket_off hp sp : NRHI K V) =
      some ((2 ^ sp * 2 ^ hp * 8) % U64) := by
    rw [capacity_spec _ _ fuel hchain (by simp [new_root]; omega) (by simp; omega)]
    have hall : ((List.range (2 ^ sp)).map bucket_off).filter (fun off => off ≠ 0) =
        (List.range (2 ^ sp)).map bucket_off := by
      rw [List.filter_eq_self]
      intro a ha
      obtain ⟨i, hi, rfl⟩ := List.mem_map.mp ha
      simpa using hal.buckets_ne i (List.mem_range.mp hi)
    simp only [allocated_segments, List.map_cons, List.map_nil, List.sum_cons, List.sum_nil,
      new_root, hall, List.length_map, List.length_range, slots_num, new_state]
    congr 2
    ring
  refine ⟨_, _, NRHI_new_eq uuid dir_off bucket_off hp sp h1 h2 h3, rfl, hchain, rfl,
    by simp [new_root], rfl, new_state_slots uuid dir_off bucket_off hp sp, hcap, ?_⟩
  intro h60
  rw [hcap]
  have : 2 ^ sp * 2 ^ hp * 8 < U64 := by
    have e : 2 ^ sp * 2 ^ hp * 8 = 2 ^ (sp + hp + 3) := by ring
    rw [e]
    exact Nat.pow_lt_pow_right (by norm_num) (by omega)
  rw [Nat.mod_eq_of_lt this]

theorem new_index_spec_witness :
    ∃ (st : NRHI Nat Nat) (L : directory),
      NRHI_new 7 64 ex_bucket_off 2 1 = some st ∧
      st.bucket_size = 2 ^ 2 ∧
      is_chain st.dir_heap st.root_dir [(st.root_dir, L)] ∧
      L.segs_power = 1 ∧ L.segments.length = 2 ^ 1 ∧
      st.top_dir = st.root_dir ∧
      (∀ a j i w, slot_word st a j i = some w → w = 0) ∧
      capacity 2 st = some ((2 ^ 1 * 2 ^ 2 * 8) % U64) ∧
      (1 + 2 ≤ 60 → capacity 2 st = some (2 ^ 1 * 2 ^ 2 * 8)) :=
  new_index_spec Nat Nat 7 64 ex_bucket_off 2 1 2 (by decide) (by decide) (by decide)
    ⟨by decide, by decide, fun i _ => by unfold ex_bucket_off; omega,
      fun i hi => by unfold ex_bucket_off; omega,
      fun i j _ _ h => by unfold ex_bucket_off at h; omega⟩
    (by decide)

/-- C9 (counterexample): at `hashpower = 64` the constructor yields no state whose
`bucket_size` is `2^64`; the field is a 64-bit word and `1UL << 64` is undefined. -/
theorem new_index_hashpower_64_counterexample :
    ¬ ∃ st : NRHI Nat Nat,
      NRHI_new 7 64 ex_bucket_off 64 0 = some st ∧ st.bucket_size = 2 ^ 64 := by
  rintro ⟨st, h, _⟩
  have hn : (NRHI_new 7 64 ex_bucket_off 64 0 : Option (NRHI Nat Nat)) = none := by decide
  rw [hn] at h
  cases h

/-! ## find -/

/-- C1 (code at the failing input): on the index `new(1, 1)`, `insert((42, 1))` returns
true, and the `find(42, acc)` that follows returns false and leaves `acc` as it was. -/
theorem find_after_insert_returns_false :
    (insert id 2 ex_alloc1 ex_new (42, 1) ⟨0, 0⟩).map (fun r => r.1) = some true ∧
      (insert id 2 ex_alloc1 ex_new (42, 1) ⟨0, 0⟩).map (fun r => find r.2.1 42 ⟨0, 0⟩) =
        some (false, some ⟨0, 0⟩) := by
  decide

/-- C2 (code at the failing input): on the index `new(1, 1)`, `insert((42, 1))` returns
true and the `insert((42, 2))` that follows returns true as well, storing nothing. -/
theorem second_insert_returns_true :
    (insert id 2 ex_alloc1 ex_new (42, 1) ⟨0, 0⟩).map (fun r => r.1) = some true ∧
      ((insert id 2 ex_alloc1 ex_new (42, 1) ⟨0, 0⟩).bind
        (fun r => (insert id 2 ex_alloc2 r.2.1 (42, 2) ⟨0, 0⟩).map
          (fun r2 => (r2.1, decide (r2.2.1 = r.2.1))))) = some (true, true) := by
  decide

/-! ## The layer walk of generic_insert is a scan of the probe order -/

theorem to_ptrdiff_of_lt {x : Nat} (h : x < 2 ^ 63) : to_ptrdiff x = (x : Int) := by
  unfold to_ptrdiff
  rw [if_pos h]

theorem at_idx_natCast {α : Type} (a : List α) (i : Nat) : at_idx a (i : Int) = a[i]? := by
  unfold at_idx
  rw [if_neg (by omega), Int.toNat_ofNat]

theorem for_loop_succ {σ : Type} (body : Nat → σ → Ctl σ) (n i : Nat) (s : σ) :
    for_loop body (n + 1) i s =
      match body i s with
      | Ctl.cont s1 => for_loop body n (i + 1) s1
      | r => r := rfl

theorem scan_append {K V : Type} [DecidableEq K] (st : NRHI K V) (key : K) (token : Nat) :
    ∀ (rs1 rs2 : List slot_ref) (e : Option slot_ref),
      scan st key token (rs1 ++ rs2) e =
        match scan st key token rs1 e with
        | scan_result.go e1 => scan st key token rs2 e1
        | scan_result.hit w => scan_result.hit w
  | [], rs2, e => by simp [scan]
  | r :: rs1, rs2, e => by
    simp only [List.cons_append, scan]
    split_ifs
    · exact scan_append st key token rs1 rs2 (some r)
    · rfl
    · exact scan_append st key token rs1 rs2 e

theorem slot_word_eq {K V : Type} (st : NRHI K V) {a j i : Nat} {arr : List bucket}
    {b : bucket} (harr : st.bucket_heap.lookup a = some arr) (hb : arr[j]? = some b) :
    slot_word st a j i = b[i]? := by
  simp [slot_word, harr, hb]

theorem slot_loop_spec {K V : Type} [DecidableEq K] (st : NRHI K V) (key : K) (token : Nat)
    (b0 slot0 dp eff sidx a bidx : Nat) (arr : List bucket) (b : bucket)
    (harr : st.bucket_heap.lookup a = some arr) (hb : arr[bidx]? = some b)
    (hlen : b.length = slots_num)
    (hrec : ∀ (i w : Nat), b[i]? = some w → w ≠ 0 → ∃ kv, get_address st.kv_heap w = some kv) :
    ∀ (n i : Nat) (e : Option slot_ref), i + n ≤ slots_num →
      for_loop (probe_slot st key token b (bidx : Int)) n i
          (locals_of b0 slot0 dp eff (sidx : Int) e) =
        lift_scan b0 slot0 dp eff (sidx : Int)
          (scan st key token
            ((List.range' i n).map (fun t => (⟨dp, sidx, a, bidx, t⟩ : slot_ref))) e)
  | 0, i, e, _ => by simp [for_loop, scan, lift_scan]
  | n + 1, i, e, h => by
    have hi : i < b.length := by omega
    have hw : b[i]? = some b[i] := List.getElem?_eq_getElem hi
    have hword : word_at st ⟨dp, sidx, a, bidx, i⟩ = b[i] := by
      simp [word_at, ref_word, slot_word_eq st harr hb, hw]
    rw [for_loop_succ, List.range'_succ, List.map_cons, scan, hword]
    by_cases he : e = none
    · subst he
      by_cases hz : b[i] = 0
      · have ih := slot_loop_spec st key token b0 slot0 dp eff sidx a bidx arr b harr hb hlen
          hrec n (i + 1) (some ⟨dp, sidx, a, bidx, i⟩) (by omega)
        simp only [probe_slot, hw, hz, locals_of, and_self, if_true, true_and]
        simpa [locals_of] using ih
      · have ih := slot_loop_spec st key token b0 slot0 dp eff sidx a bidx arr b harr hb hlen
          hrec n (i + 1) none (by omega)
        obtain ⟨kv, hkv⟩ := hrec i b[i] hw hz
        simp only [probe_slot, hw, hz, and_false, if_false, ne_eq, not_false_eq_true, true_and,
          is_match, key_of, hkv, Option.map_some', Option.some.injEq]
        by_cases ht : slot_token b[i] = token
        · by_cases hk : kv.1 = key
          · simp [ht, hk, lift_scan]
          · simp [ht, hk, ih]
        · simp [ht, ih]
    · obtain ⟨r, rfl⟩ := Option.ne_none_iff_exists'.mp he
      have ih := slot_loop_spec st key token b0 slot0 dp eff sidx a bidx arr b harr hb hlen
        hrec n (i + 1) (some r) (by omega)
      by_cases hz : b[i] = 0
      · simp [probe_slot, hw, hz, locals_of, is_match, ih] 
        simpa [locals_of] using ih
      · obtain ⟨kv, hkv⟩ := hrec i b[i] hw hz
        simp only [probe_slot, hw, hz, and_false, if_false, ne_eq, not_false_eq_true, true_and,
          is_match, key_of, hkv, Option.map_some', Option.some.injEq, false_and]
        by_cases ht : slot_token b[i] = token
        · by_cases hk : kv.1 = key
          · simp [ht, hk, lift_scan]
          · simp [ht, hk, ih]
        · simp [ht, ih]

theorem locals_of_segment_idx (b0 slot0 dp eff : Nat) (prev x : Int) (e : Option slot_ref) :
    { locals_of b0 slot0 dp eff prev e with segment_idx := x } = locals_of b0 slot0 dp eff x e := by
  cases e <;> rfl

theorem locals_of_effective_dp (b0 slot0 dp eff : Nat) (prev : Int) (e : Option slot_ref) :
    { locals_of b0 slot0 dp eff prev e with effective_dp := (locals_of b0 slot0 dp eff prev e).dp } =
      locals_of b0 slot0 dp dp prev e := by
  cases e <;> rfl

theorem locals_of_dp (b0 slot0 dp eff x : Nat) (prev : Int) (e : Option slot_ref) :
    { locals_of b0 slot0 dp eff prev e with dp := x } = locals_of b0 slot0 x eff prev e := by
  cases e <;> rfl

theorem locals_of_dp_eq (b0 slot0 dp eff : Nat) (prev : Int) (e : Option slot_ref) :
    (locals_of b0 slot0 dp eff prev e).dp = dp := by
  cases e <;> rfl

theorem bucket_loop_spec {K V : Type} [DecidableEq K] (st : NRHI K V) (key : K) (token : Nat)
    (b0 slot0 dp eff sidx a : Nat) (arr : List bucket)
    (harr : st.bucket_heap.lookup a = some arr)
    (hbs1 : 0 < st.bucket_size) (hbs2 : st.bucket_size ≤ 2 ^ 63) (hb0 : b0 < st.bucket_size)
    (hlen : arr.length = st.bucket_size) (hslots : ∀ b ∈ arr, b.length = slots_num)
    (hrec : ∀ (a j i w : Nat), slot_word st a j i = some w → w ≠ 0 →
      ∃ kv, get_address st.kv_heap w = some kv) :
    ∀ (n k : Nat) (e : Option slot_ref), k + n ≤ LP_DIS_B →
      for_loop (probe_bucket st key token arr b0) n k (locals_of b0 slot0 dp eff (sidx : Int) e) =
        lift_scan b0 slot0 dp eff (sidx : Int)
          (scan st key token (segment_refs st.bucket_size b0 dp sidx a n k) e)
  | 0, k, e, _ => by simp [for_loop, scan, lift_scan, segment_refs]
  | n + 1, k, e, h => by
    have hk : k < 4 := by unfold LP_DIS_B at h; omega
    have hmod : (b0 + k) % U64 = b0 + k := by
      apply Nat.mod_eq_of_lt
      unfold U64
      omega
    have hidx : (b0 + k) % st.bucket_size < st.bucket_size := Nat.mod_lt _ hbs1
    have hidx2 : (b0 + k) % st.bucket_size < arr.length := by omega
    have hb : arr[(b0 + k) % st.bucket_size]? = some arr[(b0 + k) % st.bucket_size] :=
      List.getElem?_eq_getElem hidx2
    have hbody : probe_bucket st key token arr b0 k (locals_of b0 slot0 dp eff (sidx : Int) e) =
        lift_scan b0 slot0 dp eff (sidx : Int)
          (scan st key token (bucket_refs dp sidx a ((b0 + k) % st.bucket_size)) e) := by
      unfold probe_bucket
      rw [if_neg (by omega)]
      simp only [hmod, to_ptrdiff_of_lt (show (b0 + k) % st.bucket_size < 2 ^ 63 by omega),
        at_idx_natCast, hb]
      exact slot_loop_spec st key token b0 slot0 dp eff sidx a _ arr _ harr hb
        (hslots _ (List.getElem_mem _))
        (fun i w hw hz => hrec a _ i w (by rw [slot_word_eq st harr hb]; exact hw) hz)
        slots_num 0 e (by omega)
    have hrefs : segment_refs st.bucket_size b0 dp sidx a (n + 1) k =
        bucket_refs dp sidx a ((b0 + k) % st.bucket_size) ++
          segment_refs st.bucket_size b0 dp sidx a n (k + 1) := by
      simp [segment_refs, List.range'_succ, List.flatMap_cons]
    rw [for_loop_succ, hbody, hrefs, scan_append]
    cases hsc : scan st key token (bucket_refs dp sidx a ((b0 + k) % st.bucket_size)) e with
    | go e1 =>
      simp only [lift_scan]
      exact bucket_loop_spec st key token b0 slot0 dp eff sidx a arr harr hbs1 hbs2 hb0 hlen
        hslots hrec n (k + 1) e1 (by omega)
    | hit w => simp [lift_scan]

theorem segment_loop_spec {K V : Type} [DecidableEq K] (st : NRHI K V) (key : K) (token : Nat)
    (b0 slot0 dp eff : Nat) (L : directory) (s0 : Nat)
    (hsp : L.segs_power ≤ 63) (hs0 : s0 < 2 ^ L.segs_power)
    (hslen : L.segments.length = 2 ^ L.segs_power)
    (hsegs : ∀ a ∈ L.segments, a ≠ 0 → a < 2 ^ 48 ∧ ∃ arr, st.bucket_heap.lookup a = some arr)
    (hbs1 : 0 < st.bucket_size) (hbs2 : st.bucket_size ≤ 2 ^ 63) (hb0 : b0 < st.bucket_size)
    (harrays : ∀ a arr, st.bucket_heap.lookup a = some arr →
      arr.length = st.bucket_size ∧ ∀ b ∈ arr, b.length = slots_num)
    (hrec : ∀ (a j i w : Nat), slot_word st a j i = some w → w ≠ 0 →
      ∃ kv, get_address st.kv_heap w = some kv) :
    ∀ (n s : Nat) (prev : Int) (e : Option slot_ref), s + n ≤ LP_DIS_S →
      ∃ last : Int,
        for_loop (probe_segment st key token L (2 ^ L.segs_power) s0 b0) n s
            (locals_of b0 slot0 dp eff prev e) =
          layer_result b0 slot0 dp eff last (layer_refs st.bucket_size b0 dp L s0 n s).2
            (scan st key token (layer_refs st.bucket_size b0 dp L s0 n s).1 e)
  | 0, s, prev, e, _ => ⟨prev, by simp [for_loop, layer_refs, scan, layer_result]⟩
  | n + 1, s, prev, e, h => by
    have hs : s < 4 := by unfold LP_DIS_S at h; omega
    have hpow : (2 : Nat) ^ L.segs_power ≤ 2 ^ 63 := Nat.pow_le_pow_right (by norm_num) hsp
    have hpos : 0 < (2 : Nat) ^ L.segs_power := Nat.pow_pos (by norm_num)
    have hmod : (s0 + s) % U64 = s0 + s := by
      apply Nat.mod_eq_of_lt
      unfold U64
      omega
    have hidx : (s0 + s) % 2 ^ L.segs_power < 2 ^ L.segs_power := Nat.mod_lt _ hpos
    have hidx2 : (s0 + s) % 2 ^ L.segs_power < L.segments.length := by omega
    have hseg : L.segments[(s0 + s) % 2 ^ L.segs_power]? =
        some L.segments[(s0 + s) % 2 ^ L.segs_power] := List.getElem?_eq_getElem hidx2
    rw [for_loop_succ]
    unfold probe_segment
    rw [if_neg (by omega)]
    simp only [hmod, to_ptrdiff_of_lt (show (s0 + s) % 2 ^ L.segs_power < 2 ^ 63 by omega),
      locals_of_segment_idx, at_idx_natCast, hseg, layer_refs]
    by_cases hz : L.segments[(s0 + s) % 2 ^ L.segs_power] = 0
    · refine ⟨0, ?_⟩
      simp [hz, get_offset, scan, layer_result]
    · obtain ⟨hlt, arr, harr⟩ := hsegs _ (List.getElem_mem hidx2) hz
      obtain ⟨halen, hslots⟩ := harrays _ _ harr
      have hbl := bucket_loop_spec st key token b0 slot0 dp eff
        ((s0 + s) % 2 ^ L.segs_power) _ arr harr hbs1 hbs2 hb0 halen hslots hrec LP_DIS_B 0 e
        (by omega)
      simp only [get_offset_of_lt hlt, hz, if_false, get_address, harr, hbl, scan_append]
      cases hsc : scan st key token
          (segment_refs st.bucket_size b0 dp ((s0 + s) % 2 ^ L.segs_power)
            L.segments[(s0 + s) % 2 ^ L.segs_power] LP_DIS_B 0) e with
      | go e1 =>
        obtain ⟨last, hl⟩ := segment_loop_spec st key token b0 slot0 dp eff L s0 hsp hs0 hslen
          hsegs hbs1 hbs2 hb0 harrays hrec n (s + 1)
          (((s0 + s) % 2 ^ L.segs_power : Nat) : Int) e1 (by omega)
        exact ⟨last, by simp only [lift_scan]; exact hl⟩
      | hit w => exact ⟨0, by simp [lift_scan, layer_result]⟩

theorem sub64_of_le {a b : Nat} (hb : b ≤ a) (ha : a < U64) : sub64 a b = a - b := by
  unfold sub64
  have h1 : b % U64 = b := Nat.mod_eq_of_lt (by omega)
  have h2 : a + U64 - b = (a - b) + U64 := by omega
  rw [h1, h2, Nat.add_mod_right, Nat.mod_eq_of_lt (by omega)]

theorem shr_lt_pow {h p : Nat} (hh : h < U64) (hp : p ≤ 64) : h >>> (64 - p) < 2 ^ p := by
  rw [Nat.shiftRight_eq_div_pow, Nat.div_lt_iff_lt_mul (Nat.pow_pos (by norm_num))]
  have e : 2 ^ p * 2 ^ (64 - p) = U64 := by
    rw [← Nat.pow_add]
    unfold U64
    congr 1
    omega
  rw [e]
  exact hh

theorem probe_layers_succ {K V : Type} [DecidableEq K] (st : NRHI K V) (key : K)
    (h token b0 f : Nat) (l : locals) (L : directory) (segs s0 : Nat) (hne : l.dp ≠ 0)
    (hget : get_address st.dir_heap l.dp = some L)
    (h1 : shl64 1 L.segs_power = some segs)
    (h2 : shr64 h (sub64 hashcode_size L.segs_power) = some s0) :
    probe_layers st key h token b0 (f + 1) l =
      match for_loop (probe_segment st key token L segs s0 b0) LP_DIS_S 0
          { l with effective_dp := l.dp } with
      | Ctl.cont l2 => probe_layers st key h token b0 f { l2 with dp := L.next }
      | r => r := by
  simp only [probe_layers, hne, if_false, hget, h1, h2]

theorem shr64_primary {h p : Nat} (hp1 : 1 ≤ p) (hp2 : p ≤ 63) :
    shr64 h (sub64 hashcode_size p) = some (h >>> (hashcode_size - p)) := by
  have hsub : sub64 hashcode_size p = hashcode_size - p :=
    sub64_of_le (by unfold hashcode_size; omega) (by unfold hashcode_size U64; omega)
  unfold shr64
  rw [hsub, if_pos (by unfold hashcode_size; omega)]

theorem probe_layers_spec {K V : Type} [DecidableEq K] (st : NRHI K V) (key : K)
    (h token b0 slot0 : Nat) (hh : h < U64)
    (hbs1 : 0 < st.bucket_size) (hbs2 : st.bucket_size ≤ 2 ^ 63) (hb0 : b0 < st.bucket_size)
    (harrays : ∀ a arr, st.bucket_heap.lookup a = some arr →
      arr.length = st.bucket_size ∧ ∀ b ∈ arr, b.length = slots_num)
    (hrec : ∀ (a j i w : Nat), slot_word st a j i = some w → w ≠ 0 →
      ∃ kv, get_address st.kv_heap w = some kv) :
    ∀ (ls : List (Nat × directory)) (fuel dp eff : Nat) (prev : Int) (e : Option slot_ref),
      is_chain st.dir_heap dp ls →
      (∀ x ∈ ls, 1 ≤ x.2.segs_power ∧ x.2.segs_power ≤ 63) →
      (∀ x ∈ ls, x.2.segments.length = 2 ^ x.2.segs_power) →
      (∀ x ∈ ls, ∀ a ∈ x.2.segments, a ≠ 0 →
        a < 2 ^ 48 ∧ ∃ arr, st.bucket_heap.lookup a = some arr) →
      ls.length < fuel →
      ∃ last : Int,
        probe_layers st key h token b0 fuel (locals_of b0 slot0 dp eff prev e) =
          chain_result b0 slot0 (last_dp eff ls) last (chain_refs st.bucket_size h b0 ls).2
            (scan st key token (chain_refs st.bucket_size h b0 ls).1 e)
  | [], fuel, dp, eff, prev, e, hc, _, _, _, hf => by
    obtain ⟨f, rfl⟩ : ∃ f, fuel = f + 1 := ⟨fuel - 1, by simp at hf; omega⟩
    simp only [is_chain] at hc
    subst hc
    exact ⟨prev, by simp [probe_layers, locals_of_dp_eq, chain_refs, scan, chain_result, last_dp]⟩
  | x :: rest, fuel, dp, eff, prev, e, hc, hpow, hlen, hsegs, hf => by
    obtain ⟨f, rfl⟩ : ∃ f, fuel = f + 1 := ⟨fuel - 1, by simp at hf; omega⟩
    obtain ⟨hne, hx, hget, hrest⟩ := hc
    obtain ⟨hp1, hp2⟩ := hpow x (List.mem_cons_self _ _)
    have hs0 : h >>> (hashcode_size - x.2.segs_power) < 2 ^ x.2.segs_power :=
      shr_lt_pow (p := x.2.segs_power) hh (by omega)
    obtain ⟨last1, hloop⟩ := segment_loop_spec st key token b0 slot0 dp dp x.2
      (h >>> (hashcode_size - x.2.segs_power)) hp2 hs0 (hlen x (List.mem_cons_self _ _))
      (hsegs x (List.mem_cons_self _ _)) hbs1 hbs2 hb0 harrays hrec LP_DIS_S 0 prev e (by omega)
    rw [probe_layers_succ st key h token b0 f _ x.2 _ _ (by rw [locals_of_dp_eq]; exact hne)
      (by rw [locals_of_dp_eq]; exact hget) (shl64_one (show x.2.segs_power < 64 by omega))
      (shr64_primary hp1 hp2), locals_of_effective_dp, hloop]
    simp only [chain_refs, hx]
    cases hsc : scan st key token
        (layer_refs st.bucket_size b0 dp x.2 (h >>> (hashcode_size - x.2.segs_power))
          LP_DIS_S 0).1 e with
    | hit w =>
      refine ⟨0, ?_⟩
      cases hstop : (layer_refs st.bucket_size b0 dp x.2
          (h >>> (hashcode_size - x.2.segs_power)) LP_DIS_S 0).2 with
      | some sidx => simp [layer_result, chain_result, hsc]
      | none => simp [layer_result, chain_result, hsc, scan_append]
    | go e1 =>
      cases hstop : (layer_refs st.bucket_size b0 dp x.2
          (h >>> (hashcode_size - x.2.segs_power)) LP_DIS_S 0).2 with
      | some sidx =>
        exact ⟨0, by simp [layer_result, chain_result, hsc]⟩
      | none =>
        obtain ⟨last, hl⟩ := probe_layers_spec st key h token b0 slot0 hh hbs1 hbs2 hb0 harrays
          hrec rest f x.2.next dp last1 e1 hrest
          (fun y hy => hpow y (List.mem_cons_of_mem _ hy))
          (fun y hy => hlen y (List.mem_cons_of_mem _ hy))
          (fun y hy => hsegs y (List.mem_cons_of_mem _ hy)) (by simp at hf; omega)
        refine ⟨last, ?_⟩
        simp only [layer_result, locals_of_dp, hl, scan_append, hsc, last_dp, hx]

/-! ## Characterisation of the scan -/

theorem scan_eq {K V : Type} [DecidableEq K] (st : NRHI K V) (key : K) (token : Nat) :
    ∀ (rs : List slot_ref) (e : Option slot_ref),
      scan st key token rs e =
        match rs.find? (fun r => decide (is_match st key token (word_at st r))) with
        | some r => scan_result.hit (word_at st r)
        | none =>
          scan_result.go (e.orElse (fun _ => rs.find? (fun r => decide (word_at st r = 0))))
  | [], e => by cases e <;> simp [scan]
  | r :: rs, e => by
    have ih1 := scan_eq st key token rs (some r)
    have ih2 := scan_eq st key token rs e
    unfold scan
    by_cases h1 : e = none ∧ word_at st r = 0
    · have hnm : ¬ is_match st key token (word_at st r) := fun hm => hm.1 h1.2
      rw [if_pos h1, ih1, List.find?_cons_of_neg _ (by simpa using hnm)]
      cases rs.find? (fun r => decide (is_match st key token (word_at st r))) with
      | some r1 => rfl
      | none => simp [h1.1, h1.2]
    · rw [if_neg h1]
      by_cases hm : is_match st key token (word_at st r)
      · rw [if_pos hm, List.find?_cons_of_pos _ (by simpa using hm)]
      · rw [if_neg hm, ih2, List.find?_cons_of_neg _ (by simpa using hm)]
        cases rs.find? (fun r => decide (is_match st key token (word_at st r))) with
        | some r1 => rfl
        | none =>
          cases e with
          | some x => simp
          | none =>
            have hz : ¬ word_at st r = 0 := fun hz => h1 ⟨rfl, hz⟩
            simp [hz]

theorem scan_hit {K V : Type} [DecidableEq K] (st : NRHI K V) (key : K) (token : Nat)
    (rs : List slot_ref) (e : Option slot_ref) (w : Nat)
    (h : scan st key token rs e = scan_result.hit w) :
    ∃ r ∈ rs, word_at st r = w ∧ is_match st key token w := by
  rw [scan_eq] at h
  cases hf : rs.find? (fun r => decide (is_match st key token (word_at st r))) with
  | none => rw [hf] at h; cases h
  | some r =>
    rw [hf] at h
    have hw : word_at st r = w := by injection h
    have hm := List.find?_some hf
    exact ⟨r, List.mem_of_find?_eq_some hf, hw, by rw [← hw]; simpa using hm⟩

theorem scan_go {K V : Type} [DecidableEq K] (st : NRHI K V) (key : K) (token : Nat)
    (rs : List slot_ref) (e e1 : Option slot_ref)
    (h : scan st key token rs e = scan_result.go e1) :
    (∀ r ∈ rs, ¬ is_match st key token (word_at st r)) ∧
      e1 = e.orElse (fun _ => rs.find? (fun r => decide (word_at st r = 0))) := by
  rw [scan_eq] at h
  cases hf : rs.find? (fun r => decide (is_match st key token (word_at st r))) with
  | some r => rw [hf] at h; cases h
  | none =>
    rw [hf] at h
    refine ⟨fun r hr hm => ?_, by injection h with h; exact h.symm⟩
    have := List.find?_eq_none.mp hf r hr
    simp at this
    exact this hm

theorem scan_of_no_match {K V : Type} [DecidableEq K] (st : NRHI K V) (key : K) (token : Nat)
    (rs : List slot_ref) (e : Option slot_ref)
    (h : ∀ r ∈ rs, ¬ is_match st key token (word_at st r)) :
    scan st key token rs e =
      scan_result.go (e.orElse (fun _ => rs.find? (fun r => decide (word_at st r = 0)))) := by
  rw [scan_eq]
  have hf : rs.find? (fun r => decide (is_match st key token (word_at st r))) = none := by
    rw [List.find?_eq_none]
    intro r hr
    simpa using h r hr
  rw [hf]

/-! ## Heaps -/

theorem lookup_filter_ne {α : Type} (off a : Nat) (ha : a ≠ off) :
    ∀ (heap : List (Nat × α)),
      (heap.filter (fun e => decide (e.1 ≠ off))).lookup a = heap.lookup a
  | [] => rfl
  | x :: rest => by
    have ih := lookup_filter_ne (α := α) off a ha rest
    obtain ⟨k, v⟩ := x
    by_cases hk : k = off
    · have hak : (a == k) = false := by simp [hk, ha]
      simp only [List.filter_cons, hk, ne_eq, not_true_eq_false, decide_False, Bool.false_eq_true,
        if_false, List.lookup_cons]
      rw [← hk, hak]
      rw [← hk] at ih
      exact ih
    · by_cases hak : a = k
      · simp [List.filter_cons, hk, List.lookup_cons, hak]
      · have hak2 : (a == k) = false := by simp [hak]
        simp only [List.filter_cons, hk, ne_eq, not_false_eq_true, decide_True, if_true,
          List.lookup_cons, hak2]
        exact ih

theorem lookup_heap_store {α : Type} (heap : List (Nat × α)) (off a : Nat) (x : α) :
    (heap_store heap off x).lookup a = if a = off then some x else heap.lookup a := by
  unfold heap_store
  by_cases ha : a = off
  · simp [List.lookup_cons, ha]
  · have hb : (a == off) = false := by simp [ha]
    rw [List.lookup_cons, hb, if_neg ha]
    exact lookup_filter_ne off a ha heap

theorem lookup_cons_ne {α : Type} (heap : List (Nat × α)) (off a : Nat) (x : α) (ha : a ≠ off) :
    ((off, x) :: heap).lookup a = heap.lookup a := by
  have hb : (a == off) = false := by simp [ha]
  rw [List.lookup_cons, hb]

theorem lookup_cons_self {α : Type} (heap : List (Nat × α)) (off : Nat) (x : α) :
    ((off, x) :: heap).lookup off = some x := by
  simp [List.lookup_cons]

/-! ## Chains -/

theorem is_chain_mem (heap : List (Nat × directory)) :
    ∀ (ls : List (Nat × directory)) (dp : Nat), is_chain heap dp ls →
      ∀ x ∈ ls, x.1 ≠ 0 ∧ get_address heap x.1 = some x.2
  | [], _, _, x, hx => by cases hx
  | y :: rest, dp, hc, x, hx => by
    obtain ⟨hne, hy, hget, hrest⟩ := hc
    rcases List.mem_cons.mp hx with rfl | hmem
    · rw [hy]
      exact ⟨hne, hget⟩
    · exact is_chain_mem heap rest y.2.next hrest x hmem

theorem is_chain_last (heap : List (Nat × directory)) :
    ∀ (ls : List (Nat × directory)) (dp eff : Nat), is_chain heap dp ls → ls ≠ [] →
      ∃ pre L, ls = pre ++ [(last_dp eff ls, L)] ∧ L.next = 0
  | [], _, _, _, hne => absurd rfl hne
  | [y], dp, eff, hc, _ => by
    obtain ⟨_, _, _, hrest⟩ := hc
    exact ⟨[], y.2, by simp [last_dp], hrest⟩
  | y :: z :: rest, dp, eff, hc, _ => by
    obtain ⟨_, _, _, hrest⟩ := hc
    obtain ⟨pre, L, hl, hn⟩ := is_chain_last heap (z :: rest) y.2.next y.1 hrest (by simp)
    refine ⟨y :: pre, L, ?_, hn⟩
    have e : last_dp eff (y :: z :: rest) = last_dp y.1 (z :: rest) := rfl
    rw [e, List.cons_append, ← hl]

theorem mem_of_eq_append_singleton {α : Type} {ls pre : List α} {x : α}
    (h : ls = pre ++ [x]) : x ∈ ls := by
  rw [h]
  simp

/-! ## Slots of the probe walk -/

theorem mem_bucket_refs {dp sidx a bidx : Nat} {r : slot_ref}
    (h : r ∈ bucket_refs dp sidx a bidx) :
    r.dp = dp ∧ r.segment_idx = sidx ∧ r.array = a ∧ r.bucket_idx = bidx ∧
      r.slot_idx < slots_num := by
  unfold bucket_refs at h
  obtain ⟨i, hi, rfl⟩ := List.mem_map.mp h
  have := List.mem_range'_1.mp hi
  refine ⟨rfl, rfl, rfl, rfl, ?_⟩
  show i < slots_num
  omega

theorem mem_segment_refs {bs b0 dp sidx a n k0 : Nat} {r : slot_ref} (hbs : 0 < bs)
    (h : r ∈ segment_refs bs b0 dp sidx a n k0) :
    r.dp = dp ∧ r.segment_idx = sidx ∧ r.array = a ∧ r.bucket_idx < bs ∧
      r.slot_idx < slots_num := by
  unfold segment_refs at h
  obtain ⟨k, _, hk⟩ := List.mem_flatMap.mp h
  obtain ⟨h1, h2, h3, h4, h5⟩ := mem_bucket_refs hk
  exact ⟨h1, h2, h3, by rw [h4]; exact Nat.mod_lt _ hbs, h5⟩

theorem mem_layer_refs {bs b0 dp : Nat} {L : directory} {s0 : Nat} (hbs : 0 < bs) :
    ∀ (n s : Nat) (r : slot_ref), r ∈ (layer_refs bs b0 dp L s0 n s).1 →
      r.dp = dp ∧ L.segments[r.segment_idx]? = some r.array ∧ r.array ≠ 0 ∧
        r.bucket_idx < bs ∧ r.slot_idx < slots_num
  | 0, _, r, h => by simp [layer_refs] at h
  | n + 1, s, r, h => by
    unfold layer_refs at h
    cases hseg : L.segments[(s0 + s) % 2 ^ L.segs_power]? with
    | none => simp [hseg] at h
    | some a =>
      by_cases hz : a = 0
      · simp [hseg, hz] at h
      · simp only [hseg, hz, if_false, List.mem_append] at h
        rcases h with h | h
        · obtain ⟨h1, h2, h3, h4, h5⟩ := mem_segment_refs hbs h
          exact ⟨h1, by rw [h2, h3]; exact hseg, by rw [h3]; exact hz, h4, h5⟩
        · exact mem_layer_refs hbs n (s + 1) r h

theorem layer_refs_stop {bs b0 dp : Nat} {L : directory} {s0 : Nat}
    (hlen : L.segments.length = 2 ^ L.segs_power) :
    ∀ (n s sidx : Nat), (layer_refs bs b0 dp L s0 n s).2 = some sidx →
      L.segments[sidx]? = some 0 ∧ sidx < 2 ^ L.segs_power
  | 0, _, _, h => by simp [layer_refs] at h
  | n + 1, s, sidx, h => by
    have hidx : (s0 + s) % 2 ^ L.segs_power < L.segments.length := by
      rw [hlen]
      exact Nat.mod_lt _ (Nat.pow_pos (by norm_num))
    simp only [layer_refs, List.getElem?_eq_getElem hidx] at h
    by_cases hz : L.segments[(s0 + s) % 2 ^ L.segs_power] = 0
    · simp only [hz, if_true, Option.some.injEq] at h
      subst h
      exact ⟨by rw [List.getElem?_eq_getElem hidx, hz],
        Nat.mod_lt _ (Nat.pow_pos (by norm_num))⟩
    · simp only [hz, if_false] at h
      exact layer_refs_stop hlen n (s + 1) sidx h

theorem mem_chain_refs {K V : Type} (st : NRHI K V) (h b0 : Nat) (hbs : 0 < st.bucket_size) :
    ∀ (ls : List (Nat × directory)) (r : slot_ref),
      r ∈ (chain_refs st.bucket_size h b0 ls).1 → valid_ref st ls r
  | [], r, hr => by simp [chain_refs] at hr
  | x :: rest, r, hr => by
    unfold chain_refs at hr
    have hlayer : r ∈ (layer_refs st.bucket_size b0 x.1 x.2
        (h >>> (hashcode_size - x.2.segs_power)) LP_DIS_S 0).1 → valid_ref st (x :: rest) r := by
      intro hm
      obtain ⟨h1, h2, h3, h4, h5⟩ := mem_layer_refs hbs _ _ r hm
      exact ⟨x.2, by rw [h1]; exact List.mem_cons_self _ _, h2, h3, h4, h5⟩
    cases hstop : (layer_refs st.bucket_size b0 x.1 x.2
        (h >>> (hashcode_size - x.2.segs_power)) LP_DIS_S 0).2 with
    | some sidx =>
      simp only [hstop] at hr
      exact hlayer hr
    | none =>
      simp only [hstop, List.mem_append] at hr
      rcases hr with hr | hr
      · exact hlayer hr
      · obtain ⟨L, hL, hrest⟩ := mem_chain_refs st h b0 hbs rest r hr
        exact ⟨L, List.mem_cons_of_mem _ hL, hrest⟩

theorem chain_refs_stop (bs h b0 : Nat) :
    ∀ (ls : List (Nat × directory)) (dp sidx : Nat),
      (∀ x ∈ ls, x.2.segments.length = 2 ^ x.2.segs_power) →
      (chain_refs bs h b0 ls).2 = some (dp, sidx) →
      ∃ L, (dp, L) ∈ ls ∧ L.segments[sidx]? = some 0 ∧ sidx < 2 ^ L.segs_power
  | [], _, _, _, hs => by simp [chain_refs] at hs
  | x :: rest, dp, sidx, hlen, hs => by
    unfold chain_refs at hs
    cases hstop : (layer_refs bs b0 x.1 x.2
        (h >>> (hashcode_size - x.2.segs_power)) LP_DIS_S 0).2 with
    | some s1 =>
      simp only [hstop, Option.some.injEq, Prod.mk.injEq] at hs
      obtain ⟨h1, h2⟩ := hs
      subst h1 h2
      obtain ⟨hz, hlt⟩ := layer_refs_stop (hlen x (List.mem_cons_self _ _)) _ _ _ hstop
      exact ⟨x.2, List.mem_cons_self _ _, hz, hlt⟩
    | none =>
      simp only [hstop] at hs
      obtain ⟨L, hL, hrest⟩ := chain_refs_stop bs h b0 rest dp sidx
        (fun y hy => hlen y (List.mem_cons_of_mem _ hy)) hs
      exact ⟨L, List.mem_cons_of_mem _ hL, hrest⟩

/-! ## The blocks FAST_INSERT and expand -/

theorem CAS_self (x n : Nat) : CAS x x n = (true, n) := by
  simp [CAS]

theorem set_idx_natCast {α : Type} (a : List α) (i : Nat) (x : α) :
    set_idx a (i : Int) x = a.set i x := by
  simp [set_idx]

theorem fast_insert_spec {K V : Type} (st : NRHI K V) (token : Nat) (param : K × V)
    (res : Option accessor) (l : locals) (kv_off : Nat) (r : slot_ref) (L : directory)
    (arr : List bucket) (b : bucket)
    (hdp : l.insert_dp = r.dp) (hseg : l.insert_segment_idx = (r.segment_idx : Int))
    (hbi : l.insert_bucket_idx = (r.bucket_idx : Int)) (hsi : l.slot_idx = r.slot_idx)
    (hL : get_address st.dir_heap r.dp = some L)
    (ha : L.segments[r.segment_idx]? = some r.array) (hlt : r.array < 2 ^ 48)
    (harr : st.bucket_heap.lookup r.array = some arr)
    (hb : arr[r.bucket_idx]? = some b) (hs : r.slot_idx < b.length) :
    fast_insert st token param res l kv_off =
      attempt.done true (publish st param kv_off r (slot_cont token kv_off))
        (res.map (fun _ => { kv_p := slot_cont token kv_off, pool_uuid := st.my_pool_uuid })) := by
  have hgd : arr.getD r.bucket_idx [] = b := by
    rw [List.getD_eq_getElem?_getD, hb]
    rfl
  have hL1 : st.dir_heap.lookup (get_offset r.dp) = some L := hL
  unfold fast_insert
  simp only [hdp, hseg, hbi, hsi, hL1, at_idx_natCast, ha, get_address, get_offset_of_lt hlt, harr,
    hb, List.getElem?_eq_getElem hs, CAS_self, set_idx_natCast, publish, write_slot, hgd,
    slot_cont]

theorem expand_seg_spec {K V : Type} (st : NRHI K V) (dp sidx bk_off : Nat) (L : directory)
    (hdp : dp < 2 ^ 48) (hL : get_address st.dir_heap dp = some L)
    (hz : L.segments[sidx]? = some 0) :
    expand_seg st dp (sidx : Int) bk_off = some (true, materialize st dp L sidx bk_off, dp) := by
  unfold expand_seg
  simp only [hL, at_idx_natCast, hz, ne_eq, not_true_eq_false, if_false, CAS_self,
    get_offset_of_lt hdp, set_idx_natCast, materialize]

theorem expand_dir_spec {K V : Type} (st : NRHI K V) (top idx bk_off dir_off : Nat)
    (L : directory) (htop : top < 2 ^ 48) (hL : get_address st.dir_heap top = some L)
    (hnext : L.next = 0) (hp : L.segs_power + EXPO ≤ 63) (hdir : dir_off < 2 ^ 48)
    (hne : dir_off ≠ top) (hidx : idx < 2 ^ (L.segs_power + EXPO)) :
    expand st top (idx : Int) false bk_off dir_off =
      some (true,
        materialize (extend st top L dir_off) dir_off (next_layer top L) idx bk_off, dir_off) := by
  have hmod : (L.segs_power + EXPO) % U64 = L.segs_power + EXPO :=
    Nat.mod_eq_of_lt (by unfold U64; omega)
  have hget : get_address (extend st top L dir_off).dir_heap dir_off = some (next_layer top L) := by
    unfold get_address extend
    rw [get_offset_of_lt hdir]
    simp only [lookup_heap_store, if_neg hne, lookup_cons_self]
  have hseg : (next_layer top L).segments[idx]? = some 0 := by
    unfold next_layer
    simp [List.getElem?_replicate, hidx]
  have h := expand_seg_spec (extend st top L dir_off) dir_off idx bk_off (next_layer top L) hdir
    hget hseg
  unfold expand
  simp only [hL, Bool.false_eq_true, if_false, hmod, shl64_one (show L.segs_power + EXPO < 64 by omega),
    hnext, ne_eq, not_true_eq_false, CAS_self, get_offset_of_lt htop]
  exact h

/-! ## One pass of generic_insert -/

theorem bucket_of_lt {bs h : Nat} (h1 : 0 < bs) (h2 : bs ≤ 2 ^ 63) : bucket_of bs h < bs := by
  unfold bucket_of
  rw [sub64_of_le (by omega) (by unfold U64; omega)]
  have := @Nat.and_le_right h (bs - 1)
  omega

theorem shape_bsize {K V : Type} {st : NRHI K V} {ls : List (Nat × directory)}
    (hs : shape st ls) : 0 < st.bucket_size ∧ st.bucket_size ≤ 2 ^ 63 := by
  obtain ⟨hp, h1, h2, h3⟩ := hs.bsize
  rw [h3]
  exact ⟨Nat.pow_pos (by norm_num), Nat.pow_le_pow_right (by norm_num) h2⟩

theorem hash_of_lt {K : Type} (hasher : K → Nat) (key : K) : hash_of hasher key < U64 :=
  Nat.mod_lt _ (by unfold U64; norm_num)

theorem walk_outcome {K V : Type} [DecidableEq K] (hasher : K → Nat) (st : NRHI K V)
    (ls : List (Nat × directory)) (key : K) (slot0 fuel : Nat) (hs : shape st ls)
    (hf : ls.length < fuel) :
    ∃ last : Int,
      probe_layers st key (hash_of hasher key) (token_of (hash_of hasher key))
          (bucket_of st.bucket_size (hash_of hasher key)) fuel
          (locals_of (bucket_of st.bucket_size (hash_of hasher key)) slot0 st.root_dir 0 (-1) none) =
        chain_result (bucket_of st.bucket_size (hash_of hasher key)) slot0 (last_dp 0 ls) last
          (probe_stop hasher st ls key)
          (scan st key (token_of (hash_of hasher key)) (probe_walk hasher st ls key) none) := by
  obtain ⟨hb1, hb2⟩ := shape_bsize hs
  exact probe_layers_spec st key _ _ _ slot0 (hash_of_lt hasher key) hb1 hb2
    (bucket_of_lt hb1 hb2) hs.arrays hs.records ls fuel st.root_dir 0 (-1) none hs.chain hs.power
    hs.segs_len hs.segs hf

theorem insert_pass_eq {K V : Type} [DecidableEq K] (hasher : K → Nat) (fuel : Nat)
    (st : NRHI K V) (key : K) (param : K × V) (res : Option accessor) (slot0 : Nat)
    (al : offsets) :
    insert_pass hasher fuel st key param res slot0 al =
      match probe_layers st key (hash_of hasher key) (token_of (hash_of hasher key))
          (bucket_of st.bucket_size (hash_of hasher key)) fuel
          (locals_of (bucket_of st.bucket_size (hash_of hasher key)) slot0 st.root_dir 0 (-1) none) with
      | Ctl.fault => attempt.fault
      | Ctl.ret w =>
        attempt.done true st (res.map (fun _ => { kv_p := w, pool_uuid := st.my_pool_uuid }))
      | Ctl.cont l =>
        after_out st (hash_of hasher key) (token_of (hash_of hasher key)) param res al l
      | Ctl.out l =>
        after_out st (hash_of hasher key) (token_of (hash_of hasher key)) param res al l := rfl

theorem getElem?_lt {α : Type} {l : List α} {i : Nat} {a : α} (h : l[i]? = some a) :
    i < l.length := by
  obtain ⟨hlt, _⟩ := List.getElem?_eq_some_iff.mp h
  exact hlt

theorem valid_ref_slot {K V : Type} {st : NRHI K V} {ls : List (Nat × directory)}
    (hs : shape st ls) {r : slot_ref} (hr : valid_ref st ls r) :
    ∃ L arr b, get_address st.dir_heap r.dp = some L ∧
      L.segments[r.segment_idx]? = some r.array ∧ r.array < 2 ^ 48 ∧
      st.bucket_heap.lookup r.array = some arr ∧ arr[r.bucket_idx]? = some b ∧
      r.slot_idx < b.length := by
  obtain ⟨L, hL, hseg, hne, hbi, hsi⟩ := hr
  obtain ⟨hlt, arr, harr⟩ := hs.segs _ hL r.array (List.getElem?_mem hseg) hne
  obtain ⟨hlen, hslots⟩ := hs.arrays _ _ harr
  have hb : r.bucket_idx < arr.length := by omega
  refine ⟨L, arr, arr[r.bucket_idx], (is_chain_mem _ _ _ hs.chain _ hL).2, hseg, hlt, harr,
    List.getElem?_eq_getElem hb, ?_⟩
  rw [hslots _ (List.getElem_mem hb)]
  exact hsi

theorem after_out_found {K V : Type} (st : NRHI K V) (ls : List (Nat × directory))
    (hs : shape st ls) (h token : Nat) (param : K × V) (res : Option accessor) (o : offsets)
    (b0 slot0 dp eff : Nat) (sidx : Int) (r : slot_ref) (hr : valid_ref st ls r) :
    after_out st h token param res o (locals_of b0 slot0 dp eff sidx (some r)) =
      attempt.done true (publish st param o.kv r (slot_cont token o.kv))
        (res.map (fun _ => { kv_p := slot_cont token o.kv, pool_uuid := st.my_pool_uuid })) := by
  obtain ⟨L, arr, b, hL, hseg, hlt, harr, hb, hsl⟩ := valid_ref_slot hs hr
  unfold after_out
  rw [if_pos (by rfl)]
  exact fast_insert_spec st token param res _ o.kv r L arr b rfl rfl rfl rfl hL hseg hlt harr hb hsl

theorem fast_insert_materialized {K V : Type} (st : NRHI K V) (token : Nat) (param : K × V)
    (res : Option accessor) (l : locals) (kv_off dp sidx bk b0 slot0 : Nat) (L : directory)
    (hdp : l.insert_dp = dp) (hseg : l.insert_segment_idx = (sidx : Int))
    (hbi : l.insert_bucket_idx = (b0 : Int)) (hsi : l.slot_idx = slot0)
    (hlt : dp < 2 ^ 48) (hsidx : sidx < L.segments.length) (hbk : bk < 2 ^ 48)
    (hb0 : b0 < st.bucket_size) (hslot0 : slot0 < slots_num) :
    fast_insert (materialize st dp L sidx bk) token param res l kv_off =
      attempt.done true
        (publish (materialize st dp L sidx bk) param kv_off ⟨dp, sidx, bk, b0, slot0⟩
          (slot_cont token kv_off))
        (res.map (fun _ => { kv_p := slot_cont token kv_off, pool_uuid := st.my_pool_uuid })) := by
  have hL : get_address (materialize st dp L sidx bk).dir_heap dp =
      some { L with segments := L.segments.set sidx bk } := by
    unfold get_address materialize
    rw [get_offset_of_lt hlt]
    simp only [lookup_heap_store, if_true]
  exact fast_insert_spec (materialize st dp L sidx bk) token param res l kv_off
    ⟨dp, sidx, bk, b0, slot0⟩ _ (zero_buckets st.bucket_size) (List.replicate slots_num 0)
    hdp hseg hbi hsi hL (List.getElem?_set_self hsidx) hbk (lookup_cons_self _ _ _)
    (by unfold zero_buckets; exact List.getElem?_replicate_of_lt hb0) (by simpa using hslot0)

theorem after_out_null {K V : Type} (st : NRHI K V) (ls : List (Nat × directory))
    (hs : shape st ls) (h token : Nat) (param : K × V) (res : Option accessor) (o : offsets)
    (b0 slot0 dp sidx : Nat) (L : directory) (hb0 : b0 < st.bucket_size)
    (hslot0 : slot0 < slots_num) (hmem : (dp, L) ∈ ls) (hz : L.segments[sidx]? = some 0)
    (hbk : o.buckets < 2 ^ 48) :
    after_out st h token param res o (locals_of b0 slot0 dp dp (sidx : Int) none) =
      attempt.done true
        (publish (materialize st dp L sidx o.buckets) param o.kv ⟨dp, sidx, o.buckets, b0, slot0⟩
          (slot_cont token o.kv))
        (res.map (fun _ => { kv_p := slot_cont token o.kv, pool_uuid := st.my_pool_uuid })) := by
  obtain ⟨hne, hL⟩ := is_chain_mem _ _ _ hs.chain _ hmem
  have hlt : dp < 2 ^ 48 := hs.dp_lt _ hmem
  have hexp : expand st dp (sidx : Int) true o.buckets o.dir =
      some (true, materialize st dp L sidx o.buckets, dp) := by
    unfold expand
    simp only at hL
    rw [hL]
    exact expand_seg_spec st dp sidx o.buckets L hlt hL hz
  have hb63 : b0 < 2 ^ 63 := lt_of_lt_of_le hb0 (shape_bsize hs).2
  unfold after_out
  simp only [locals_of, Bool.false_eq_true, if_false, ne_eq, hne, not_false_eq_true,
    decide_True, if_true, hexp]
  exact fast_insert_materialized st token param res _ o.kv dp sidx o.buckets b0 slot0 L rfl rfl
    (to_ptrdiff_of_lt hb63) rfl hlt (getElem?_lt hz) hbk hb0 hslot0

theorem after_out_extend {K V : Type} (st : NRHI K V) (ls : List (Nat × directory))
    (hs : shape st ls) (h token : Nat) (hh : h < U64) (param : K × V) (res : Option accessor)
    (o : offsets) (b0 slot0 top : Nat) (last : Int) (L : directory)
    (hb0 : b0 < st.bucket_size) (hslot0 : slot0 < slots_num) (hmem : (top, L) ∈ ls)
    (hnext : L.next = 0) (hp : L.segs_power + EXPO ≤ 63)
    (hbk : o.buckets < 2 ^ 48) (hdir : o.dir < 2 ^ 48) (hnew : st.dir_heap.lookup o.dir = none) :
    after_out st h token param res o (locals_of b0 slot0 0 top last none) =
      attempt.done true
        (publish
          (materialize (extend st top L o.dir) o.dir (next_layer top L)
            (h >>> (hashcode_size - (L.segs_power + EXPO))) o.buckets)
          param o.kv
          ⟨o.dir, h >>> (hashcode_size - (L.segs_power + EXPO)), o.buckets, b0, slot0⟩
          (slot_cont token o.kv))
        (res.map (fun _ => { kv_p := slot_cont token o.kv, pool_uuid := st.my_pool_uuid })) := by
  obtain ⟨hne, hL⟩ := is_chain_mem _ _ _ hs.chain _ hmem
  have hlt : top < 2 ^ 48 := hs.dp_lt _ hmem
  have hEXPO : EXPO = 1 := rfl
  have hidx : h >>> (hashcode_size - (L.segs_power + EXPO)) < 2 ^ (L.segs_power + EXPO) :=
    shr_lt_pow hh (by omega)
  have hidx63 : h >>> (hashcode_size - (L.segs_power + EXPO)) < 2 ^ 63 :=
    lt_of_lt_of_le hidx (Nat.pow_le_pow_right (by norm_num) hp)
  have hsub : sub64 (sub64 hashcode_size L.segs_power) 1 =
      hashcode_size - (L.segs_power + EXPO) := by
    have h1 : sub64 hashcode_size L.segs_power = hashcode_size - L.segs_power :=
      sub64_of_le (by unfold hashcode_size; omega) (by unfold hashcode_size U64; omega)
    rw [h1, sub64_of_le (by unfold hashcode_size; omega) (by unfold hashcode_size U64; omega)]
    omega
  have hdne : o.dir ≠ top := by
    intro he
    have h1 : st.dir_heap.lookup top = some L := by
      have := hL
      unfold get_address at this
      rwa [get_offset_of_lt hlt] at this
    rw [he, h1] at hnew
    cases hnew
  have hexp := expand_dir_spec st top (h >>> (hashcode_size - (L.segs_power + EXPO)))
    o.buckets o.dir L hlt hL hnext hp hdir hdne hidx
  have hb63 : b0 < 2 ^ 63 := lt_of_lt_of_le hb0 (shape_bsize hs).2
  simp only at hL
  unfold after_out
  simp only [locals_of, Bool.false_eq_true, if_false, ne_eq, not_true_eq_false, decide_False,
    hL, hsub, shr64, if_pos (show hashcode_size - (L.segs_power + EXPO) < 64 by
      unfold hashcode_size; omega), Option.map_some', to_ptrdiff_of_lt hidx63, hexp]
  exact fast_insert_materialized (extend st top L o.dir) token param res _ o.kv o.dir
    (h >>> (hashcode_size - (L.segs_power + EXPO))) o.buckets b0 slot0 (next_layer top L) rfl rfl
    (to_ptrdiff_of_lt hb63) rfl hdir (by simpa [next_layer] using hidx) hbk hb0 hslot0

theorem insert_pass_hit {K V : Type} [DecidableEq K] (hasher : K → Nat) (st : NRHI K V)
    (ls : List (Nat × directory)) (key : K) (param : K × V) (res : Option accessor)
    (slot0 fuel : Nat) (o : offsets) (hs : shape st ls) (hf : ls.length < fuel) (w : Nat)
    (hsc : scan st key (token_of (hash_of hasher key)) (probe_walk hasher st ls key) none =
      scan_result.hit w) :
    insert_pass hasher fuel st key param res slot0 o =
      attempt.done true st (res.map (fun _ => { kv_p := w, pool_uuid := st.my_pool_uuid })) := by
  obtain ⟨last, hw⟩ := walk_outcome hasher st ls key slot0 fuel hs hf
  rw [insert_pass_eq, hw, hsc]
  rfl

theorem insert_pass_empty {K V : Type} [DecidableEq K] (hasher : K → Nat) (st : NRHI K V)
    (ls : List (Nat × directory)) (key : K) (param : K × V) (res : Option accessor)
    (slot0 fuel : Nat) (o : offsets) (hs : shape st ls) (hf : ls.length < fuel) (r : slot_ref)
    (hsc : scan st key (token_of (hash_of hasher key)) (probe_walk hasher st ls key) none =
      scan_result.go (some r)) :
    insert_pass hasher fuel st key param res slot0 o =
      attempt.done true
        (publish st param o.kv r (slot_cont (token_of (hash_of hasher key)) o.kv))
        (res.map (fun _ =>
          { kv_p := slot_cont (token_of (hash_of hasher key)) o.kv,
            pool_uuid := st.my_pool_uuid })) := by
  obtain ⟨last, hw⟩ := walk_outcome hasher st ls key slot0 fuel hs hf
  have hfind := (scan_go st key _ _ none (some r) hsc).2
  have hr : r ∈ probe_walk hasher st ls key := by
    simp only [Option.orElse] at hfind
    exact List.mem_of_find?_eq_some hfind.symm
  have hv : valid_ref st ls r := mem_chain_refs st _ _ (shape_bsize hs).1 ls r hr
  rw [insert_pass_eq, hw, hsc]
  cases hstop : probe_stop hasher st ls key with
  | some x => exact after_out_found st ls hs _ _ param res o _ slot0 _ _ _ r hv
  | none => exact after_out_found st ls hs _ _ param res o _ slot0 _ _ _ r hv

theorem insert_pass_null {K V : Type} [DecidableEq K] (hasher : K → Nat) (st : NRHI K V)
    (ls : List (Nat × directory)) (key : K) (param : K × V) (res : Option accessor)
    (slot0 fuel : Nat) (o : offsets) (hs : shape st ls) (hf : ls.length < fuel)
    (hslot0 : slot0 < slots_num) (hbk : o.buckets < 2 ^ 48) (dp sidx : Nat)
    (hsc : scan st key (token_of (hash_of hasher key)) (probe_walk hasher st ls key) none =
      scan_result.go none)
    (hstop : probe_stop hasher st ls key = some (dp, sidx)) :
    ∃ L, (dp, L) ∈ ls ∧ L.segments[sidx]? = some 0 ∧
      insert_pass hasher fuel st key param res slot0 o =
        attempt.done true
          (publish (materialize st dp L sidx o.buckets) param o.kv
            ⟨dp, sidx, o.buckets, bucket_of st.bucket_size (hash_of hasher key), slot0⟩
            (slot_cont (token_of (hash_of hasher key)) o.kv))
          (res.map (fun _ =>
            { kv_p := slot_cont (token_of (hash_of hasher key)) o.kv,
              pool_uuid := st.my_pool_uuid })) := by
  obtain ⟨last, hw⟩ := walk_outcome hasher st ls key slot0 fuel hs hf
  obtain ⟨L, hL, hz, _⟩ := chain_refs_stop _ _ _ ls dp sidx hs.segs_len hstop
  obtain ⟨hb1, hb2⟩ := shape_bsize hs
  refine ⟨L, hL, hz, ?_⟩
  rw [insert_pass_eq, hw, hsc, hstop]
  exact after_out_null st ls hs _ _ param res o _ slot0 dp sidx L (bucket_of_lt hb1 hb2) hslot0
    hL hz hbk

theorem append_singleton_inj {α : Type} {p1 p2 : List α} {x y : α}
    (h : p1 ++ [x] = p2 ++ [y]) : p1 = p2 ∧ x = y := by
  have := List.append_inj' h rfl
  exact ⟨this.1, by simpa using this.2⟩

theorem insert_pass_extend {K V : Type} [DecidableEq K] (hasher : K → Nat) (st : NRHI K V)
    (ls : List (Nat × directory)) (key : K) (param : K × V) (res : Option accessor)
    (slot0 fuel : Nat) (o : offsets) (hs : shape st ls) (hf : ls.length < fuel)
    (hslot0 : slot0 < slots_num) (hbk : o.buckets < 2 ^ 48) (hdir : o.dir < 2 ^ 48)
    (hnew : st.dir_heap.lookup o.dir = none)
    (pre : List (Nat × directory)) (L : directory) (hls : ls = pre ++ [(st.top_dir, L)])
    (hp : L.segs_power + EXPO ≤ 63)
    (hsc : scan st key (token_of (hash_of hasher key)) (probe_walk hasher st ls key) none =
      scan_result.go none)
    (hstop : probe_stop hasher st ls key = none) :
    L.next = 0 ∧
      insert_pass hasher fuel st key param res slot0 o =
        attempt.done true
          (publish
            (materialize (extend st st.top_dir L o.dir) o.dir (next_layer st.top_dir L)
              (hash_of hasher key >>> (hashcode_size - (L.segs_power + EXPO))) o.buckets)
            param o.kv
            ⟨o.dir, hash_of hasher key >>> (hashcode_size - (L.segs_power + EXPO)), o.buckets,
              bucket_of st.bucket_size (hash_of hasher key), slot0⟩
            (slot_cont (token_of (hash_of hasher key)) o.kv))
          (res.map (fun _ =>
            { kv_p := slot_cont (token_of (hash_of hasher key)) o.kv,
              pool_uuid := st.my_pool_uuid })) := by
  obtain ⟨last, hw⟩ := walk_outcome hasher st ls key slot0 fuel hs hf
  obtain ⟨hb1, hb2⟩ := shape_bsize hs
  have hne : ls ≠ [] := by rw [hls]; simp
  obtain ⟨pre1, L1, hl1, hn1⟩ := is_chain_last _ ls st.root_dir 0 hs.chain hne
  have heq : pre1 ++ [(last_dp 0 ls, L1)] = pre ++ [(st.top_dir, L)] := by rw [← hl1, ← hls]
  obtain ⟨_, hx⟩ := append_singleton_inj heq
  have htop : last_dp 0 ls = st.top_dir := congrArg Prod.fst hx
  have hL1 : L1 = L := congrArg Prod.snd hx
  subst hL1
  refine ⟨hn1, ?_⟩
  rw [insert_pass_eq, hw, hsc, hstop, htop]
  exact after_out_extend st ls hs _ _ (hash_of_lt hasher key) param res o _ slot0 st.top_dir last
    L1 (bucket_of_lt hb1 hb2) hslot0 (mem_of_eq_append_singleton hls) hn1 hp hbk hdir hnew

theorem generic_insert_of_pass {K V : Type} [DecidableEq K] (hasher : K → Nat) (fuel : Nat)
    (al : Nat → offsets) (st : NRHI K V) (key : K) (param : K × V) (res : Option accessor)
    (b : Bool) (st1 : NRHI K V) (acc : Option accessor) (hf : 0 < fuel)
    (hp : insert_pass hasher fuel st key param res 0 (al 0) = attempt.done b st1 acc) :
    generic_insert hasher fuel al st key param res = some (b, st1, acc) := by
  obtain ⟨f, rfl⟩ : ∃ f, fuel = f + 1 := ⟨fuel - 1, by omega⟩
  unfold generic_insert generic_insert_loop
  rw [hp]

/-! ## The composed slot word -/

theorem two_pow_mul_xor {i a b : Nat} (hb : b < 2 ^ i) : 2 ^ i * a ^^^ b = 2 ^ i * a + b := by
  apply Nat.eq_of_testBit_eq
  intro j
  rw [Nat.testBit_xor, Nat.testBit_mul_pow_two, Nat.testBit_mul_pow_two_add a hb j]
  by_cases hj : j < i
  · have hge : ¬ j ≥ i := by omega
    simp [hj, hge]
  · have hge : j ≥ i := by omega
    have hlt : b < 2 ^ j := lt_of_lt_of_le hb (Nat.pow_le_pow_right (by norm_num) hge)
    simp [hj, hge, Nat.testBit_lt_two_pow hlt]

theorem slot_cont_eq {t o : Nat} (ht : t < 2 ^ 16) (ho : o < 2 ^ 48) :
    slot_cont t o = 2 ^ 48 * t + o := by
  have h1 : (t <<< token_shift) % U64 = 2 ^ 48 * t := by
    unfold token_shift U64
    rw [Nat.shiftLeft_eq, Nat.mod_eq_of_lt (by omega), Nat.mul_comm]
  have h2 : o &&& not64 partial_mask = o := by
    have e : not64 partial_mask = 2 ^ 48 - 1 := by decide
    rw [e, Nat.and_pow_two_sub_one_eq_mod, Nat.mod_eq_of_lt ho]
  unfold slot_cont
  rw [h1, h2, two_pow_mul_xor ho]

theorem slot_cont_eq_or {t o : Nat} (ht : t < 2 ^ 16) (ho : o < 2 ^ 48) :
    slot_cont t o = t <<< 48 ||| o := by
  rw [slot_cont_eq ht ho, Nat.mul_add_lt_is_or ho, Nat.shiftLeft_eq, Nat.mul_comm]

theorem get_offset_slot_cont {t o : Nat} (ht : t < 2 ^ 16) (ho : o < 2 ^ 48) :
    get_offset (slot_cont t o) = o := by
  rw [slot_cont_eq ht ho]
  unfold get_offset
  rw [Nat.mul_add_mod, Nat.mod_eq_of_lt ho]

theorem slot_token_slot_cont {t o : Nat} (ht : t < 2 ^ 16) (ho : o < 2 ^ 48) :
    slot_token (slot_cont t o) = t := by
  rw [slot_cont_eq ht ho]
  unfold slot_token
  rw [Nat.shiftRight_eq_div_pow, Nat.mul_add_div (Nat.pow_pos (by norm_num)),
    Nat.div_eq_of_lt ho, Nat.add_zero, Nat.mod_eq_of_lt ht]

theorem slot_cont_ne_zero {t o : Nat} (ht : t < 2 ^ 16) (ho : o < 2 ^ 48) (hne : o ≠ 0) :
    slot_cont t o ≠ 0 := by
  rw [slot_cont_eq ht ho]
  omega

theorem token_of_lt (h : Nat) : token_of h < 2 ^ 16 :=
  Nat.mod_lt _ (by norm_num)

/-! ## Slots after publication, materialization and extension -/

theorem slot_word_publish {K V : Type} (st : NRHI K V) (param : K × V) (kv_off : Nat)
    (r : slot_ref) (w : Nat) (arr : List bucket) (b : bucket)
    (harr : st.bucket_heap.lookup r.array = some arr) (hb : arr[r.bucket_idx]? = some b)
    (hs : r.slot_idx < b.length) (a j i : Nat) :
    slot_word (publish st param kv_off r w) a j i =
      if a = r.array ∧ j = r.bucket_idx ∧ i = r.slot_idx then some w else slot_word st a j i := by
  have hgd : arr.getD r.bucket_idx [] = b := by
    rw [List.getD_eq_getElem?_getD, hb]
    rfl
  have hbl : r.bucket_idx < arr.length := getElem?_lt hb
  unfold slot_word publish write_slot
  simp only [harr, lookup_heap_store, hgd]
  by_cases ha : a = r.array
  · subst ha
    simp only [if_true, Option.some_bind, harr, true_and]
    by_cases hj : j = r.bucket_idx
    · subst hj
      simp only [List.getElem?_set_self hbl, Option.some_bind, hb, true_and]
      by_cases hi : i = r.slot_idx
      · subst hi
        simp [List.getElem?_set_self hs]
      · have hi2 : r.slot_idx ≠ i := fun h => hi h.symm
        simp [hi, List.getElem?_set_ne hi2]
    · have hj2 : r.bucket_idx ≠ j := fun h => hj h.symm
      simp [hj, List.getElem?_set_ne hj2]
  · simp [ha]

theorem slot_word_materialize {K V : Type} (st : NRHI K V) (dp : Nat) (L : directory)
    (sidx bk : Nat) (a j i : Nat) (ha : a ≠ bk) :
    slot_word (materialize st dp L sidx bk) a j i = slot_word st a j i := by
  unfold slot_word materialize
  simp only [lookup_cons_ne _ _ _ _ ha]

theorem slot_word_materialize_new {K V : Type} (st : NRHI K V) (dp : Nat) (L : directory)
    (sidx bk : Nat) (j i w : Nat)
    (h : slot_word (materialize st dp L sidx bk) bk j i = some w) : w = 0 := by
  unfold slot_word materialize at h
  simp only [lookup_cons_self, Option.some_bind, Option.bind_eq_some] at h
  obtain ⟨b, hb, hw⟩ := h
  exact zero_buckets_slot hb hw

theorem slot_word_extend {K V : Type} (st : NRHI K V) (top : Nat) (L : directory)
    (dir_off : Nat) (a j i : Nat) :
    slot_word (extend st top L dir_off) a j i = slot_word st a j i := rfl

theorem slot_word_some_lookup {K V : Type} {st : NRHI K V} {a j i w : Nat}
    (h : slot_word st a j i = some w) : ∃ arr, st.bucket_heap.lookup a = some arr := by
  unfold slot_word at h
  cases hl : st.bucket_heap.lookup a with
  | none => rw [hl] at h; cases h
  | some arr => exact ⟨arr, rfl⟩

/-! ## The constructor yields a well-formed state -/

theorem lookup_map_mem {α : Type} (f : Nat → Nat) (c : α) :
    ∀ (l : List Nat) (i : Nat), i ∈ l → (l.map (fun i => (f i, c))).lookup (f i) = some c := by
  intro l
  induction l with
  | nil => intro i hi; cases hi
  | cons x rest ih =>
    intro i hi
    rw [List.map_cons, List.lookup_cons]
    by_cases hx : f i = f x
    · simp [hx]
    · have hb : (f i == f x) = false := by simp [hx]
      rw [hb]
      rcases List.mem_cons.mp hi with rfl | hmem
      · exact absurd rfl hx
      · exact ih i hmem

theorem word_at_eq_zero_of_empty {K V : Type} {st : NRHI K V}
    (h : ∀ a j i w, slot_word st a j i = some w → w = 0) (r : slot_ref) : word_at st r = 0 := by
  unfold word_at ref_word
  cases hw : slot_word st r.array r.bucket_idx r.slot_idx with
  | none => rfl
  | some w => exact h _ _ _ _ hw

theorem shape_new_state {K V : Type} (uuid dir_off : Nat) (bucket_off : Nat → Nat)
    (hp sp : Nat) (h1 : 1 ≤ hp) (h2 : hp ≤ 63) (h3 : 1 ≤ sp) (h4 : sp ≤ 62)
    (hal : fresh_new dir_off bucket_off (2 ^ sp)) :
    shape (new_state uuid dir_off bucket_off hp sp : NRHI K V)
      [(dir_off, new_root bucket_off sp)] where
  chain := new_state_chain uuid dir_off bucket_off hp sp hal.dir_ne hal.dir_lt
  root_ne := hal.dir_ne
  top := ⟨[], new_root bucket_off sp, rfl⟩
  bsize := ⟨hp, h1, h2, rfl⟩
  dp_lt := by
    intro e he
    rw [List.mem_singleton.mp he]
    exact hal.dir_lt
  nodup := by simp
  power := by
    intro e he
    rw [List.mem_singleton.mp he]
    exact ⟨h3, by show sp ≤ 63; omega⟩
  segs_len := by
    intro e he
    rw [List.mem_singleton.mp he]
    simp [new_root]
  segs := by
    intro e he a ha _
    rw [List.mem_singleton.mp he] at ha
    obtain ⟨i, hi, rfl⟩ := List.mem_map.mp ha
    exact ⟨hal.buckets_lt i (List.mem_range.mp hi), _,
      lookup_map_mem bucket_off (zero_buckets (2 ^ hp)) _ i hi⟩
  arrays := by
    intro a arr harr
    have := lookup_map_const bucket_off (zero_buckets (2 ^ hp)) _ a arr harr
    subst this
    refine ⟨by simp [zero_buckets, new_state], ?_⟩
    intro b hb
    rw [List.eq_of_mem_replicate hb]
    simp
  records := by
    intro a j i w hw hne
    exact absurd (new_state_slots uuid dir_off bucket_off hp sp a j i w hw) hne

theorem well_formed_new_state {K V : Type} (uuid dir_off : Nat) (bucket_off : Nat → Nat)
    (hp sp : Nat) (h1 : 1 ≤ hp) (h2 : hp ≤ 63) (h3 : 1 ≤ sp) (h4 : sp ≤ 62)
    (hal : fresh_new dir_off bucket_off (2 ^ sp)) :
    well_formed (new_state uuid dir_off bucket_off hp sp : NRHI K V)
      [(dir_off, new_root bucket_off sp)] where
  shp := shape_new_state uuid dir_off bucket_off hp sp h1 h2 h3 h4 hal
  top_power := by
    intro pre e he
    have hlen := congrArg List.length he
    simp only [List.length_singleton, List.length_append] at hlen
    have hpre : pre = [] := List.length_eq_zero.mp (by omega)
    subst hpre
    have : e = (dir_off, new_root bucket_off sp) := by simpa using he.symm
    subst this
    show sp + EXPO ≤ 63
    unfold EXPO
    omega

theorem ex_fresh_new : fresh_new 64 ex_bucket_off (2 ^ 1) :=
  ⟨by decide, by decide, fun i _ => by unfold ex_bucket_off; omega,
    fun i hi => by unfold ex_bucket_off; omega,
    fun i j _ _ h => by unfold ex_bucket_off at h; omega⟩

theorem ex_new_well_formed : well_formed ex_new [(64, ex_root)] :=
  well_formed_new_state (K := Nat) (V := Nat) 7 64 ex_bucket_off 1 1 (by decide) (by decide)
    (by decide) (by decide) ex_fresh_new

theorem ex_new_fresh : fresh ex_new (ex_alloc1 0) :=
  ⟨by decide, by decide, by decide, by decide, by decide, by decide, by decide, by decide,
    by decide⟩

theorem ex_new_empty (a j i w : Nat) (h : slot_word ex_new a j i = some w) : w = 0 :=
  new_state_slots (K := Nat) (V := Nat) 7 64 ex_bucket_off 1 1 a j i w h

/-! ## Insert into the first empty slot -/

theorem not_match_of_not_holds {K V : Type} {st : NRHI K V} {key : K} {token w : Nat}
    (h : ¬ holds_key st key w) : ¬ is_match st key token w :=
  fun hm => h ⟨hm.1, hm.2.2⟩

/-- C3: in a well-formed state, for a key `k` held by no slot its probe walk visits, if
`r0` is the first empty slot of the walk in probe order (layers root to top, segments
`(s0+s) mod segs`, buckets `(b0+b) mod bucket_size`, slots in order, up to the first
segment with bucket pointer 0), then `insert((k,v), acc)` returns true, allocates exactly
the record `(k,v)`, stores the word `token << 48 | record offset` in `r0`, changes no
other slot, and `acc` resolves to the new record. -/
theorem insert_publishes_in_first_empty_slot {K V : Type} [DecidableEq K] (hasher : K → Nat)
    (st : NRHI K V) (ls : List (Nat × directory)) (key : K) (v : V) (res : accessor)
    (fuel : Nat) (al : Nat → offsets) (r0 : slot_ref)
    (hwf : well_formed st ls) (hfr : fresh st (al 0)) (hf : ls.length < fuel)
    (habs : ∀ r ∈ probe_walk hasher st ls key, ¬ holds_key st key (word_at st r))
    (hfirst : (probe_walk hasher st ls key).find? (fun r => decide (word_at st r = 0)) =
      some r0) :
    ∃ st1 acc,
      insert hasher fuel al st (key, v) res = some (true, st1, some acc) ∧
      acc.kv_p = token_of (hash_of hasher key) <<< 48 ||| (al 0).kv ∧
      st1.kv_heap = ((al 0).kv, (key, v)) :: st.kv_heap ∧
      ref_word st1 r0 = some (token_of (hash_of hasher key) <<< 48 ||| (al 0).kv) ∧
      (∀ a j i, ¬ (a = r0.array ∧ j = r0.bucket_idx ∧ i = r0.slot_idx) →
        slot_word st1 a j i = slot_word st a j i) ∧
      st1.dir_heap = st.dir_heap ∧ st1.top_dir = st.top_dir ∧
      acc.deref st1 = some (key, v) := by
  have hs := hwf.shp
  have hsc : scan st key (token_of (hash_of hasher key)) (probe_walk hasher st ls key) none =
      scan_result.go (some r0) := by
    rw [scan_of_no_match st key _ _ none (fun r hr => not_match_of_not_holds (habs r hr)), hfirst]
    rfl
  have hpass := insert_pass_empty hasher st ls key (key, v) (some res) 0 fuel (al 0) hs hf r0 hsc
  have hgi := generic_insert_of_pass hasher fuel al st key (key, v) (some res) _ _ _
    (by omega) hpass
  have hr0 : valid_ref st ls r0 :=
    mem_chain_refs st _ _ (shape_bsize hs).1 ls r0 (List.mem_of_find?_eq_some hfirst)
  obtain ⟨L, arr, b, _, _, _, harr, hb, hsl⟩ := valid_ref_slot hs hr0
  have hw := slot_cont_eq_or (token_of_lt (hash_of hasher key)) hfr.kv_lt
  have hoff := get_offset_slot_cont (token_of_lt (hash_of hasher key)) hfr.kv_lt
  refine ⟨_, _, hgi, hw, rfl, ?_, ?_, rfl, rfl, ?_⟩
  · unfold ref_word
    rw [slot_word_publish st _ _ r0 _ arr b harr hb hsl, if_pos ⟨rfl, rfl, rfl⟩, hw]
  · intro a j i hne
    rw [slot_word_publish st _ _ r0 _ arr b harr hb hsl, if_neg hne]
  · unfold accessor.deref get_address
    simp only [hoff, publish, lookup_cons_self]

theorem insert_publishes_in_first_empty_slot_witness :
    ∃ st1 acc,
      insert id 2 ex_alloc1 ex_new (42, 1) ⟨0, 0⟩ = some (true, st1, some acc) ∧
      acc.kv_p = token_of (hash_of id 42) <<< 48 ||| (ex_alloc1 0).kv ∧
      st1.kv_heap = ((ex_alloc1 0).kv, (42, 1)) :: ex_new.kv_heap ∧
      ref_word st1 ⟨64, 0, 128, 0, 0⟩ =
        some (token_of (hash_of id 42) <<< 48 ||| (ex_alloc1 0).kv) ∧
      (∀ a j i, ¬ (a = 128 ∧ j = 0 ∧ i = 0) → slot_word st1 a j i = slot_word ex_new a j i) ∧
      st1.dir_heap = ex_new.dir_heap ∧ st1.top_dir = ex_new.top_dir ∧
      acc.deref st1 = some (42, 1) :=
  insert_publishes_in_first_empty_slot id ex_new [(64, ex_root)] 42 1 ⟨0, 0⟩ 2 ex_alloc1
    ⟨64, 0, 128, 0, 0⟩ ex_new_well_formed ex_new_fresh (by decide)
    (fun r _ hk => hk.1 (word_at_eq_zero_of_empty ex_new_empty r)) (by decide)

/-! ## Chains under stores into the directory heap -/

theorem get_address_heap_store {α : Type} (heap : List (Nat × α)) (off x : Nat) (v : α)
    (hx : x < 2 ^ 48) :
    get_address (heap_store heap off v) x = if x = off then some v else get_address heap x := by
  unfold get_address
  rw [get_offset_of_lt hx, lookup_heap_store]

theorem get_address_cons {α : Type} (heap : List (Nat × α)) (off x : Nat) (v : α)
    (hx : x < 2 ^ 48) :
    get_address ((off, v) :: heap) x = if x = off then some v else get_address heap x := by
  unfold get_address
  rw [get_offset_of_lt hx]
  by_cases h : x = off
  · simp [h, List.lookup_cons]
  · rw [lookup_cons_ne _ _ _ _ h, if_neg h]

theorem is_chain_congr (heap heap1 : List (Nat × directory)) :
    ∀ (ls : List (Nat × directory)) (d : Nat),
      (∀ x ∈ ls, get_address heap1 x.1 = get_address heap x.1) →
      is_chain heap d ls → is_chain heap1 d ls
  | [], _, _, hc => hc
  | y :: rest, d, hx, hc => by
    obtain ⟨hne, hy, hget, hrest⟩ := hc
    refine ⟨hne, hy, ?_, is_chain_congr heap heap1 rest _
      (fun x h => hx x (List.mem_cons_of_mem _ h)) hrest⟩
    rw [← hy, hx y (List.mem_cons_self _ _), hy]
    exact hget

theorem set_layer_of_not_mem (dp : Nat) (L1 : directory) :
    ∀ (ls : List (Nat × directory)), dp ∉ ls.map Prod.fst → set_layer ls dp L1 = ls
  | [], _ => rfl
  | y :: rest, h => by
    have h1 : y.1 ≠ dp := fun e => h (by simp [e])
    have h2 : dp ∉ rest.map Prod.fst := fun e => h (by simp only [List.map_cons]; exact List.mem_cons_of_mem _ e)
    have ih := set_layer_of_not_mem dp L1 rest h2
    unfold set_layer at ih ⊢
    rw [List.map_cons, if_neg h1, ih]

theorem set_layer_cons (y : Nat × directory) (rest : List (Nat × directory)) (dp : Nat)
    (L1 : directory) :
    set_layer (y :: rest) dp L1 = (if y.1 = dp then (dp, L1) else y) :: set_layer rest dp L1 :=
  rfl

theorem set_layer_append (l1 l2 : List (Nat × directory)) (dp : Nat) (L1 : directory) :
    set_layer (l1 ++ l2) dp L1 = set_layer l1 dp L1 ++ set_layer l2 dp L1 := by
  unfold set_layer
  rw [List.map_append]

theorem set_layer_map_fst (dp : Nat) (L1 : directory) :
    ∀ (ls : List (Nat × directory)), (set_layer ls dp L1).map Prod.fst = ls.map Prod.fst
  | [] => rfl
  | y :: rest => by
    rw [set_layer_cons, List.map_cons, List.map_cons, set_layer_map_fst dp L1 rest]
    by_cases h : y.1 = dp
    · rw [if_pos h, h]
    · rw [if_neg h]

theorem set_layer_length (ls : List (Nat × directory)) (dp : Nat) (L1 : directory) :
    (set_layer ls dp L1).length = ls.length := by
  unfold set_layer
  rw [List.length_map]

theorem mem_set_layer {ls : List (Nat × directory)} {dp : Nat} {L1 : directory}
    {y : Nat × directory} (h : y ∈ set_layer ls dp L1) :
    (y ∈ ls ∧ y.1 ≠ dp) ∨ (y = (dp, L1) ∧ dp ∈ ls.map Prod.fst) := by
  unfold set_layer at h
  obtain ⟨x, hx, hxy⟩ := List.mem_map.mp h
  by_cases hd : x.1 = dp
  · rw [if_pos hd] at hxy
    exact Or.inr ⟨hxy.symm, by rw [← hd]; exact List.mem_map_of_mem _ hx⟩
  · rw [if_neg hd] at hxy
    subst hxy
    exact Or.inl ⟨hx, hd⟩

theorem mem_set_layer_of_mem {ls : List (Nat × directory)} {dp : Nat} {L1 : directory}
    {x : Nat × directory} (h : x ∈ ls) :
    (if x.1 = dp then (dp, L1) else x) ∈ set_layer ls dp L1 := by
  unfold set_layer
  exact List.mem_map_of_mem _ h

theorem snd_eq_of_nodup {ls : List (Nat × directory)} (hnd : (ls.map Prod.fst).Nodup)
    {x y : Nat × directory} (hx : x ∈ ls) (hy : y ∈ ls) (h : x.1 = y.1) : x = y := by
  induction ls with
  | nil => cases hx
  | cons z rest ih =>
    rw [List.map_cons, List.nodup_cons] at hnd
    rcases List.mem_cons.mp hx with rfl | hx1
    · rcases List.mem_cons.mp hy with rfl | hy1
      · rfl
      · exact absurd (by rw [h]; exact List.mem_map_of_mem _ hy1) hnd.1
    · rcases List.mem_cons.mp hy with rfl | hy1
      · exact absurd (by rw [← h]; exact List.mem_map_of_mem _ hx1) hnd.1
      · exact ih hnd.2 hx1 hy1

theorem is_chain_store_other (heap : List (Nat × directory)) (dp : Nat) (L1 : directory)
    (ls : List (Nat × directory)) (d : Nat) (hlt : ∀ x ∈ ls, x.1 < 2 ^ 48)
    (hnot : dp ∉ ls.map Prod.fst) (hc : is_chain heap d ls) :
    is_chain (heap_store heap dp L1) d ls := by
  apply is_chain_congr heap _ ls d _ hc
  intro x hx
  rw [get_address_heap_store _ _ _ _ (hlt x hx), if_neg]
  intro e
  exact hnot (by rw [← e]; exact List.mem_map_of_mem _ hx)

theorem is_chain_set_layer (heap : List (Nat × directory)) (dp : Nat) (L L1 : directory)
    (hn : L1.next = L.next) :
    ∀ (ls : List (Nat × directory)) (d : Nat), (∀ x ∈ ls, x.1 < 2 ^ 48) →
      (ls.map Prod.fst).Nodup → (dp, L) ∈ ls → is_chain heap d ls →
      is_chain (heap_store heap dp L1) d (set_layer ls dp L1)
  | [], _, _, _, hm, _ => by cases hm
  | y :: rest, d, hlt, hnd, hm, hc => by
    obtain ⟨hne, hy, hget, hrest⟩ := hc
    have hnd1 := hnd
    rw [List.map_cons, List.nodup_cons] at hnd1
    have hlt1 : ∀ x ∈ rest, x.1 < 2 ^ 48 := fun x h => hlt x (List.mem_cons_of_mem _ h)
    rw [set_layer_cons]
    by_cases hd : y.1 = dp
    · have hyL : y = (dp, L) :=
        snd_eq_of_nodup hnd (List.mem_cons_self _ _) hm hd
      have hnot : dp ∉ rest.map Prod.fst := by rw [← hd]; exact hnd1.1
      rw [if_pos hd, set_layer_of_not_mem dp L1 rest hnot]
      refine ⟨hne, by rw [← hy, hd], ?_, ?_⟩
      · rw [get_address_heap_store _ _ _ _ (by rw [← hy]; exact hlt y (List.mem_cons_self _ _)),
          if_pos (by rw [← hy, hd])]
      · have : L1.next = y.2.next := by rw [hn, hyL]
        simp only
        rw [this]
        exact is_chain_store_other heap dp L1 rest _ hlt1 hnot hrest
    · have hm1 : (dp, L) ∈ rest := by
        rcases List.mem_cons.mp hm with h | h
        · exact absurd (by rw [← h]) hd
        · exact h
      rw [if_neg hd]
      refine ⟨hne, hy, ?_, is_chain_set_layer heap dp L L1 hn rest _ hlt1 hnd1.2 hm1 hrest⟩
      rw [get_address_heap_store _ _ _ _ (by rw [← hy]; exact hlt y (List.mem_cons_self _ _)),
        if_neg (by rw [← hy]; exact hd)]
      exact hget

theorem is_chain_extend (heap : List (Nat × directory)) (top dir : Nat) (L N : directory)
    (hdir0 : dir ≠ 0) (hdir : dir < 2 ^ 48) (hN : N.next = 0) :
    ∀ (ls : List (Nat × directory)) (d : Nat) (pre : List (Nat × directory)),
      ls = pre ++ [(top, L)] → (∀ x ∈ ls, x.1 < 2 ^ 48) → (ls.map Prod.fst).Nodup →
      dir ∉ ls.map Prod.fst → is_chain heap d ls →
      is_chain (heap_store ((dir, N) :: heap) top { L with next := dir }) d
        (set_layer ls top { L with next := dir } ++ [(dir, N)])
  | [], _, pre, h, _, _, _, _ => by simp at h
  | [y], d, pre, hls, hlt, _, hnot, hc => by
    obtain ⟨hne, hy, _, _⟩ := hc
    have hpre : pre = [] := by
      have hlen := congrArg List.length hls
      simp only [List.length_singleton, List.length_append] at hlen
      exact List.length_eq_zero.mp (by omega)
    subst hpre
    have hyt : y = (top, L) := by simpa using hls
    subst hyt
    have hdt : dir ≠ top := fun e => hnot (by simp [e])
    have htop : top < 2 ^ 48 := hlt _ (List.mem_cons_self _ _)
    simp only at hy
    subst hy
    rw [set_layer_cons, if_pos rfl]
    refine ⟨hne, rfl, ?_, hdir0, rfl, ?_, hN⟩
    · rw [get_address_heap_store _ _ _ _ htop, if_pos rfl]
    · show get_address _ dir = some N
      rw [get_address_heap_store _ _ _ _ hdir, if_neg hdt, get_address_cons _ _ _ _ hdir,
        if_pos rfl]
  | y :: z :: rest, d, pre, hls, hlt, hnd, hnot, hc => by
    obtain ⟨hne, hy, hget, hrest⟩ := hc
    have hnd1 := hnd
    rw [List.map_cons, List.nodup_cons] at hnd1
    obtain ⟨pre1, hpre1⟩ : ∃ pre1, z :: rest = pre1 ++ [(top, L)] := by
      cases pre with
      | nil =>
        have hlen := congrArg List.length hls
        simp at hlen
      | cons p pre1 =>
        rw [List.cons_append] at hls
        exact ⟨pre1, (List.cons.inj hls).2⟩
    have htop_mem : top ∈ (z :: rest).map Prod.fst := by
      rw [hpre1]
      simp
    have hyt : y.1 ≠ top := fun e => hnd1.1 (by rw [e]; exact htop_mem)
    have hyd : y.1 ≠ dir := fun e => hnot (by simp [e])
    have hylt : y.1 < 2 ^ 48 := hlt y (List.mem_cons_self _ _)
    rw [set_layer_cons, if_neg hyt, List.cons_append]
    refine ⟨hne, hy, ?_, ?_⟩
    · rw [← hy, get_address_heap_store _ _ _ _ hylt, if_neg hyt, get_address_cons _ _ _ _ hylt,
        if_neg hyd, hy]
      exact hget
    · exact is_chain_extend heap top dir L N hdir0 hdir hN (z :: rest) y.2.next pre1 hpre1
        (fun x h => hlt x (List.mem_cons_of_mem _ h)) hnd1.2
        (fun e => hnot (by simp only [List.map_cons]; exact List.mem_cons_of_mem _ e)) hrest

/-! ## The structure of the state is kept by the three effects -/

theorem lookup_ne_of_none {α : Type} {heap : List (Nat × α)} {a b : Nat} {x : α}
    (ha : heap.lookup a = some x) (hb : heap.lookup b = none) : a ≠ b := by
  intro e
  rw [e, hb] at ha
  cases ha

theorem shape_publish {K V : Type} (st : NRHI K V) (ls : List (Nat × directory))
    (hs : shape st ls) (param : K × V) (kv t : Nat) (r : slot_ref) (hr : valid_ref st ls r)
    (ht : t < 2 ^ 16) (hkv : kv < 2 ^ 48) :
    shape (publish st param kv r (slot_cont t kv)) ls := by
  obtain ⟨L, arr, b, _, _, _, harr, hb, hsl⟩ := valid_ref_slot hs hr
  have hgd : arr.getD r.bucket_idx [] = b := by
    rw [List.getD_eq_getElem?_getD, hb]
    rfl
  have hheap : (publish st param kv r (slot_cont t kv)).bucket_heap =
      heap_store st.bucket_heap r.array
        (arr.set r.bucket_idx (b.set r.slot_idx (slot_cont t kv))) := by
    simp only [publish, write_slot, harr, hgd]
  refine ⟨hs.chain, hs.root_ne, hs.top, hs.bsize, hs.dp_lt, hs.nodup, hs.power, hs.segs_len,
    ?_, ?_, ?_⟩
  · intro e he a ha hne
    obtain ⟨hlt, arr0, h0⟩ := hs.segs e he a ha hne
    refine ⟨hlt, ?_⟩
    rw [hheap, lookup_heap_store]
    by_cases h : a = r.array
    · exact ⟨_, by rw [if_pos h]⟩
    · exact ⟨arr0, by rw [if_neg h]; exact h0⟩
  · intro a arr2 h2
    rw [hheap, lookup_heap_store] at h2
    by_cases h : a = r.array
    · rw [if_pos h] at h2
      obtain ⟨hlen, hslots⟩ := hs.arrays _ _ harr
      have e2 : arr2 = arr.set r.bucket_idx (b.set r.slot_idx (slot_cont t kv)) :=
        (Option.some.inj h2).symm
      subst e2
      refine ⟨by rw [List.length_set]; exact hlen, ?_⟩
      intro b2 hb2
      rcases List.mem_or_eq_of_mem_set hb2 with h3 | h3
      · exact hslots b2 h3
      · rw [h3, List.length_set]
        exact hslots b (List.getElem?_mem hb)
    · rw [if_neg h] at h2
      exact hs.arrays a arr2 h2
  · intro a j i w hw hne
    rw [slot_word_publish st param kv r _ arr b harr hb hsl] at hw
    by_cases h : a = r.array ∧ j = r.bucket_idx ∧ i = r.slot_idx
    · rw [if_pos h] at hw
      have e2 : w = slot_cont t kv := (Option.some.inj hw).symm
      subst e2
      refine ⟨param, ?_⟩
      unfold get_address publish
      simp only [get_offset_slot_cont ht hkv, lookup_cons_self]
    · rw [if_neg h] at hw
      obtain ⟨kv0, h0⟩ := hs.records a j i w hw hne
      unfold get_address publish
      unfold get_address at h0
      by_cases h4 : get_offset w = kv
      · exact ⟨param, by simp only [h4, lookup_cons_self]⟩
      · exact ⟨kv0, by simp only [lookup_cons_ne _ _ _ _ h4, h0]⟩

theorem shape_materialize {K V : Type} (st : NRHI K V) (ls : List (Nat × directory))
    (hs : shape st ls) (dp sidx bk : Nat) (L : directory) (hmem : (dp, L) ∈ ls)
    (hbk : bk < 2 ^ 48) (hnew : st.bucket_heap.lookup bk = none) :
    shape (materialize st dp L sidx bk)
      (set_layer ls dp { L with segments := L.segments.set sidx bk }) := by
  have hdp : dp ∈ ls.map Prod.fst := List.mem_map_of_mem Prod.fst hmem
  refine ⟨is_chain_set_layer st.dir_heap dp L { L with segments := L.segments.set sidx bk } rfl
    ls st.root_dir hs.dp_lt hs.nodup hmem hs.chain, hs.root_ne, ?_, hs.bsize, ?_, ?_, ?_, ?_, ?_,
    ?_, ?_⟩
  · obtain ⟨pre, Lt, hls⟩ := hs.top
    rw [hls, set_layer_append, set_layer_cons]
    by_cases h : st.top_dir = dp
    · exact ⟨_, _, by rw [if_pos h, ← h]; rfl⟩
    · exact ⟨_, _, by rw [if_neg h]; rfl⟩
  · intro e he
    rcases mem_set_layer he with ⟨h1, _⟩ | ⟨h1, _⟩
    · exact hs.dp_lt e h1
    · rw [h1]
      exact hs.dp_lt (dp, L) hmem
  · rw [set_layer_map_fst]
    exact hs.nodup
  · intro e he
    rcases mem_set_layer he with ⟨h1, _⟩ | ⟨h1, _⟩
    · exact hs.power e h1
    · rw [h1]
      exact hs.power (dp, L) hmem
  · intro e he
    rcases mem_set_layer he with ⟨h1, _⟩ | ⟨h1, _⟩
    · exact hs.segs_len e h1
    · rw [h1]
      simp only [List.length_set]
      exact hs.segs_len (dp, L) hmem
  · have hold : ∀ e ∈ ls, ∀ a ∈ e.2.segments, a ≠ 0 → a < 2 ^ 48 ∧
        ∃ arr, (materialize st dp L sidx bk).bucket_heap.lookup a = some arr := by
      intro e he a ha hne
      obtain ⟨hlt, arr0, h0⟩ := hs.segs e he a ha hne
      refine ⟨hlt, arr0, ?_⟩
      unfold materialize
      simp only [lookup_cons_ne _ _ _ _ (lookup_ne_of_none h0 hnew), h0]
    intro e he a ha hne
    rcases mem_set_layer he with ⟨h1, _⟩ | ⟨h1, _⟩
    · exact hold e h1 a ha hne
    · rw [h1] at ha
      rcases List.mem_or_eq_of_mem_set ha with h3 | h3
      · exact hold _ hmem a h3 hne
      · rw [h3]
        exact ⟨hbk, _, by unfold materialize; exact lookup_cons_self _ _ _⟩
  · intro a arr harr
    by_cases h : a = bk
    · rw [h] at harr
      unfold materialize at harr
      rw [lookup_cons_self] at harr
      have e2 : arr = zero_buckets st.bucket_size := (Option.some.inj harr).symm
      subst e2
      refine ⟨by simp [zero_buckets, materialize], ?_⟩
      intro b hb
      rw [List.eq_of_mem_replicate hb]
      simp
    · unfold materialize at harr
      rw [lookup_cons_ne _ _ _ _ h] at harr
      exact hs.arrays a arr harr
  · intro a j i w hw hne
    by_cases h : a = bk
    · rw [h] at hw
      exact absurd (slot_word_materialize_new st dp L sidx bk j i w hw) hne
    · rw [slot_word_materialize st dp L sidx bk a j i h] at hw
      exact hs.records a j i w hw hne

theorem shape_extend {K V : Type} (st : NRHI K V) (ls : List (Nat × directory))
    (hs : shape st ls) (pre : List (Nat × directory)) (L : directory) (dir : Nat)
    (hls : ls = pre ++ [(st.top_dir, L)]) (hp : L.segs_power + EXPO ≤ 63)
    (hdir0 : dir ≠ 0) (hdir : dir < 2 ^ 48) (hnew : st.dir_heap.lookup dir = none) :
    shape (extend st st.top_dir L dir)
      (set_layer ls st.top_dir { L with next := dir } ++ [(dir, next_layer st.top_dir L)]) := by
  have hmem : (st.top_dir, L) ∈ ls := mem_of_eq_append_singleton hls
  have hnot : dir ∉ ls.map Prod.fst := by
    intro h
    obtain ⟨x, hx, hxd⟩ := List.mem_map.mp h
    have hget := (is_chain_mem _ _ _ hs.chain x hx).2
    unfold get_address at hget
    rw [get_offset_of_lt (hs.dp_lt x hx), hxd, hnew] at hget
    cases hget
  have hold : ∀ e ∈ set_layer ls st.top_dir { L with next := dir },
      ∃ x ∈ ls, e.1 = x.1 ∧ e.2.segs_power = x.2.segs_power ∧ e.2.segments = x.2.segments := by
    intro e he
    rcases mem_set_layer he with ⟨h1, _⟩ | ⟨h1, _⟩
    · exact ⟨e, h1, rfl, rfl, rfl⟩
    · exact ⟨_, hmem, by rw [h1], by rw [h1], by rw [h1]⟩
  refine ⟨is_chain_extend st.dir_heap st.top_dir dir L _ hdir0 hdir rfl ls st.root_dir pre hls
    hs.dp_lt hs.nodup hnot hs.chain, hs.root_ne, ⟨_, _, rfl⟩, hs.bsize, ?_, ?_, ?_, ?_, ?_,
    hs.arrays, hs.records⟩
  · intro e he
    rcases List.mem_append.mp he with h | h
    · obtain ⟨x, hx, h1, _, _⟩ := hold e h
      rw [h1]
      exact hs.dp_lt x hx
    · rw [List.mem_singleton.mp h]
      exact hdir
  · rw [List.map_append, set_layer_map_fst, List.map_singleton]
    exact List.Nodup.append hs.nodup (List.nodup_singleton _)
      (by
        intro a ha hb
        rw [List.mem_singleton.mp hb] at ha
        exact hnot ha)
  · intro e he
    rcases List.mem_append.mp he with h | h
    · obtain ⟨x, hx, _, h2, _⟩ := hold e h
      rw [h2]
      exact hs.power x hx
    · rw [List.mem_singleton.mp h]
      have h1 : 1 ≤ L.segs_power := (hs.power (st.top_dir, L) hmem).1
      exact ⟨by show 1 ≤ L.segs_power + EXPO; omega, hp⟩
  · intro e he
    rcases List.mem_append.mp he with h | h
    · obtain ⟨x, hx, _, h2, h3⟩ := hold e h
      rw [h2, h3]
      exact hs.segs_len x hx
    · rw [List.mem_singleton.mp h]
      simp [next_layer]
  · intro e he a ha hne
    rcases List.mem_append.mp he with h | h
    · obtain ⟨x, hx, _, _, h3⟩ := hold e h
      rw [h3] at ha
      exact hs.segs x hx a ha hne
    · rw [List.mem_singleton.mp h] at ha
      exact absurd (List.eq_of_mem_replicate ha) hne

/-! ## Soundness of the checkable predicates -/

theorem chain_ok_sound (heap : List (Nat × directory)) :
    ∀ (ls : List (Nat × directory)) (d : Nat), chain_ok heap d ls = true → is_chain heap d ls
  | [], d, h => by simpa [chain_ok] using h
  | e :: rest, d, h => by
    simp only [chain_ok, Bool.and_eq_true, bne_iff_ne, ne_eq, beq_iff_eq] at h
    obtain ⟨⟨⟨h1, h2⟩, h3⟩, h4⟩ := h
    exact ⟨h1, h2, h3, chain_ok_sound heap rest _ h4⟩

theorem mem_of_lookup {α : Type} :
    ∀ (heap : List (Nat × α)) (a : Nat) (x : α), heap.lookup a = some x → (a, x) ∈ heap
  | [], _, _, h => by simp at h
  | (k, v) :: rest, a, x, h => by
    rw [List.lookup_cons] at h
    by_cases hk : a = k
    · simp only [hk, beq_self_eq_true, Option.some.injEq] at h
      rw [hk, h]
      exact List.mem_cons_self _ _
    · have hb : (a == k) = false := by simp [hk]
      rw [hb] at h
      exact List.mem_cons_of_mem _ (mem_of_lookup rest a x h)

theorem shape_of_check {K V : Type} {st : NRHI K V} {ls : List (Nat × directory)}
    (h : shape_check st ls) : shape st ls := by
  obtain ⟨hc, hroot, ⟨hne, htop⟩, ⟨hp, hmem, hp1, hp2⟩, hlayers, hnd, harr⟩ := h
  have hp3 : hp < 64 := List.mem_range.mp hmem
  have hchain := chain_ok_sound _ ls _ hc
  refine ⟨hchain, hroot, ?_, ?_, fun e he => (hlayers e he).1,
    hnd, fun e he => ⟨(hlayers e he).2.1, (hlayers e he).2.2.1⟩,
    fun e he => (hlayers e he).2.2.2.1, ?_, ?_, ?_⟩
  · obtain ⟨pre, L, hl, _⟩ := is_chain_last _ ls st.root_dir 0 hchain hne
    exact ⟨pre, L, by rw [← htop]; exact hl⟩
  · exact ⟨hp, hp1, by omega, hp2⟩
  · intro e he a ha hz
    obtain ⟨h1, h2⟩ := (hlayers e he).2.2.2.2 a ha hz
    exact ⟨h1, Option.isSome_iff_exists.mp h2⟩
  · intro a arr hl
    obtain ⟨h1, h2⟩ := harr _ (mem_of_lookup _ a arr hl)
    exact ⟨h1, fun b hb => (h2 b hb).1⟩
  · intro a j i w hw hz
    unfold slot_word at hw
    simp only [Option.bind_eq_some] at hw
    obtain ⟨arr, hl, b, hb, hw⟩ := hw
    obtain ⟨_, h2⟩ := harr _ (mem_of_lookup _ a arr hl)
    exact Option.isSome_iff_exists.mp
      ((h2 b (List.getElem?_mem hb)).2 w (List.getElem?_mem hw) hz)

theorem well_formed_of_check {K V : Type} {st : NRHI K V} {ls : List (Nat × directory)}
    (h : well_formed_check st ls) : well_formed st ls :=
  ⟨shape_of_check h.1, fun _ e he => h.2 e (mem_of_eq_append_singleton he)⟩

theorem fresh_of_check {K V : Type} {st : NRHI K V} {o : offsets} (h : fresh_check st o) :
    fresh st o := by
  obtain ⟨⟨a1, a2, a3⟩, ⟨b1, b2, b3⟩, ⟨c1, c2, c3⟩⟩ := h
  exact ⟨a1, a2, Option.isNone_iff_eq_none.mp a3, b1, b2, Option.isNone_iff_eq_none.mp b3,
    c1, c2, Option.isNone_iff_eq_none.mp c3⟩

/-! ## Directory-chain extension -/

theorem scan_full {K V : Type} [DecidableEq K] (st : NRHI K V) (key : K) (token : Nat)
    (rs : List slot_ref) (habs : ∀ r ∈ rs, ¬ holds_key st key (word_at st r))
    (hfull : ∀ r ∈ rs, word_at st r ≠ 0) :
    scan st key token rs none = scan_result.go none := by
  have hf : rs.find? (fun r => decide (word_at st r = 0)) = none := by
    rw [List.find?_eq_none]
    intro r hr
    simpa using hfull r hr
  rw [scan_of_no_match st key token rs none (fun r hr => not_match_of_not_holds (habs r hr)), hf]
  rfl

theorem slot_word_zero_buckets {K V : Type} (st : NRHI K V) (a n j i : Nat)
    (ha : st.bucket_heap.lookup a = some (zero_buckets n)) (hj : j < n) (hi : i < slots_num) :
    slot_word st a j i = some 0 := by
  unfold slot_word zero_buckets at *
  simp [ha, List.getElem?_replicate_of_lt hj, List.getElem?_replicate_of_lt hi]

/-- C7: in a well-formed state whose top layer is `Ltop`, for a key `k` with hash `h` held
by no slot its probe walk visits, if the walk passes through every layer meeting no empty
slot and no segment with bucket pointer 0, then `insert((k,v), acc)` returns true and
appends exactly one layer `N` to the chain: `N.segs_power = top.segs_power + EXPO`,
`N.prev` is the old top, `N.next = 0`, the old top's `next` is `N`, `top = N`, root is
unchanged; `N` has `2^N.segs_power` segments, all with bucket pointer 0 except segment
`h >> (64 - N.segs_power)`, which holds a fresh bucket array that is zeroed but for slot 0
of bucket `h & (bucket_size - 1)`, where the record `(k,v)` is published. -/
theorem insert_extends_directory_chain {K V : Type} [DecidableEq K] (hasher : K → Nat)
    (st : NRHI K V) (ls pre : List (Nat × directory)) (Ltop : directory) (key : K) (v : V)
    (res : accessor) (fuel : Nat) (al : Nat → offsets)
    (hwf : well_formed st ls) (hfr : fresh st (al 0)) (hf : ls.length < fuel)
    (hls : ls = pre ++ [(st.top_dir, Ltop)])
    (habs : ∀ r ∈ probe_walk hasher st ls key, ¬ holds_key st key (word_at st r))
    (hfull : ∀ r ∈ probe_walk hasher st ls key, word_at st r ≠ 0)
    (hstop : probe_stop hasher st ls key = none) :
    ∃ st1 acc N,
      insert hasher fuel al st (key, v) res = some (true, st1, some acc) ∧
      is_chain st1.dir_heap st1.root_dir
        (set_layer ls st.top_dir { Ltop with next := (al 0).dir } ++ [((al 0).dir, N)]) ∧
      (set_layer ls st.top_dir { Ltop with next := (al 0).dir } ++ [((al 0).dir, N)]).length =
        ls.length + 1 ∧
      N.segs_power = Ltop.segs_power + EXPO ∧ N.prev = st.top_dir ∧ N.next = 0 ∧
      Ltop.next = 0 ∧
      get_address st1.dir_heap st.top_dir = some { Ltop with next := (al 0).dir } ∧
      st1.top_dir = (al 0).dir ∧ st1.root_dir = st.root_dir ∧
      N.segments = (List.replicate (2 ^ N.segs_power) 0).set
        (hash_of hasher key >>> (hashcode_size - N.segs_power)) (al 0).buckets ∧
      st.bucket_heap.lookup (al 0).buckets = none ∧
      (∀ j i, j < st.bucket_size → i < slots_num →
        slot_word st1 (al 0).buckets j i =
          some (if j = hash_of hasher key &&& (st.bucket_size - 1) ∧ i = 0 then
            token_of (hash_of hasher key) <<< 48 ||| (al 0).kv else 0)) ∧
      st1.kv_heap = ((al 0).kv, (key, v)) :: st.kv_heap ∧
      acc.kv_p = token_of (hash_of hasher key) <<< 48 ||| (al 0).kv ∧
      acc.deref st1 = some (key, v) := by
  have hs := hwf.shp
  obtain ⟨hb1, hb2⟩ := shape_bsize hs
  have hp : Ltop.segs_power + EXPO ≤ 63 := hwf.top_power pre _ hls
  have hsc := scan_full st key (token_of (hash_of hasher key)) _ habs hfull
  obtain ⟨hnext, hpass⟩ := insert_pass_extend hasher st ls key (key, v) (some res) 0 fuel (al 0)
    hs hf (by decide) hfr.buckets_lt hfr.dir_lt hfr.dir_new pre Ltop hls hp hsc hstop
  have hgi := generic_insert_of_pass hasher fuel al st key (key, v) (some res) _ _ _
    (by omega) hpass
  have hw := slot_cont_eq_or (token_of_lt (hash_of hasher key)) hfr.kv_lt
  have hoff := get_offset_slot_cont (token_of_lt (hash_of hasher key)) hfr.kv_lt
  have hb0 : bucket_of st.bucket_size (hash_of hasher key) =
      hash_of hasher key &&& (st.bucket_size - 1) := by
    unfold bucket_of
    rw [sub64_of_le (by omega) (by unfold U64; omega)]
  have hb0lt := bucket_of_lt (h := hash_of hasher key) hb1 hb2
  -- the chain after extension and materialization
  have hs1 := shape_extend st ls hs pre Ltop (al 0).dir hls hp hfr.dir_ne hfr.dir_lt hfr.dir_new
  have hmemN : ((al 0).dir, next_layer st.top_dir Ltop) ∈
      set_layer ls st.top_dir { Ltop with next := (al 0).dir } ++
        [((al 0).dir, next_layer st.top_dir Ltop)] := by simp
  have hs2 := shape_materialize (extend st st.top_dir Ltop (al 0).dir) _ hs1 (al 0).dir
    (hash_of hasher key >>> (hashcode_size - (Ltop.segs_power + EXPO))) (al 0).buckets
    (next_layer st.top_dir Ltop) hmemN hfr.buckets_lt hfr.buckets_new
  have hnot : (al 0).dir ∉
      (set_layer ls st.top_dir { Ltop with next := (al 0).dir }).map Prod.fst := by
    have := hs1.nodup
    rw [List.map_append, List.map_singleton] at this
    intro hm
    exact (List.nodup_append.mp this).2.2 hm (List.mem_singleton_self _)
  have hlist : set_layer
      (set_layer ls st.top_dir { Ltop with next := (al 0).dir } ++
        [((al 0).dir, next_layer st.top_dir Ltop)]) (al 0).dir
      { next_layer st.top_dir Ltop with
        segments := (next_layer st.top_dir Ltop).segments.set
          (hash_of hasher key >>> (hashcode_size - (Ltop.segs_power + EXPO))) (al 0).buckets } =
      set_layer ls st.top_dir { Ltop with next := (al 0).dir } ++
        [((al 0).dir,
          { next_layer st.top_dir Ltop with
            segments := (next_layer st.top_dir Ltop).segments.set
              (hash_of hasher key >>> (hashcode_size - (Ltop.segs_power + EXPO)))
              (al 0).buckets })] := by
    rw [set_layer_append, set_layer_of_not_mem _ _ _ hnot]
    simp [set_layer]
  have hchain := hs2.chain
  rw [hlist] at hchain
  have htopmem : (st.top_dir, { Ltop with next := (al 0).dir }) ∈
      set_layer ls st.top_dir { Ltop with next := (al 0).dir } ++
        [((al 0).dir,
          { next_layer st.top_dir Ltop with
            segments := (next_layer st.top_dir Ltop).segments.set
              (hash_of hasher key >>> (hashcode_size - (Ltop.segs_power + EXPO)))
              (al 0).buckets })] := by
    apply List.mem_append_left
    have := @mem_set_layer_of_mem ls st.top_dir { Ltop with next := (al 0).dir } _
      (mem_of_eq_append_singleton hls)
    simpa using this
  have hz : (materialize (extend st st.top_dir Ltop (al 0).dir) (al 0).dir
      (next_layer st.top_dir Ltop)
      (hash_of hasher key >>> (hashcode_size - (Ltop.segs_power + EXPO)))
      (al 0).buckets).bucket_heap.lookup (al 0).buckets = some (zero_buckets st.bucket_size) :=
    lookup_cons_self _ _ _
  have hzb : (zero_buckets st.bucket_size)[bucket_of st.bucket_size (hash_of hasher key)]? =
      some (List.replicate slots_num 0) := by
    unfold zero_buckets
    exact List.getElem?_replicate_of_lt hb0lt
  refine ⟨_, _, _, hgi, hchain, by simp [set_layer_length], rfl, rfl, rfl, hnext,
    (is_chain_mem _ _ _ hchain _ htopmem).2, rfl, rfl, rfl, hfr.buckets_new, ?_, rfl, hw, ?_⟩
  · intro j i hj hi
    have hsw := slot_word_publish
      (materialize (extend st st.top_dir Ltop (al 0).dir) (al 0).dir
        (next_layer st.top_dir Ltop)
        (hash_of hasher key >>> (hashcode_size - (Ltop.segs_power + EXPO))) (al 0).buckets)
      (key, v) (al 0).kv
      ⟨(al 0).dir, hash_of hasher key >>> (hashcode_size - (Ltop.segs_power + EXPO)),
        (al 0).buckets, bucket_of st.bucket_size (hash_of hasher key), 0⟩
      (slot_cont (token_of (hash_of hasher key)) (al 0).kv) (zero_buckets st.bucket_size)
      (List.replicate slots_num 0) hz hzb (by simp [slots_num]) (al 0).buckets j i
    refine hsw.trans ?_
    simp only
    by_cases hji : j = bucket_of st.bucket_size (hash_of hasher key) ∧ i = 0
    · rw [if_pos ⟨trivial, hji⟩, if_pos (by rw [← hb0]; exact hji), hw]
    · rw [if_neg (fun h => hji h.2), if_neg (by rw [← hb0]; exact hji)]
      exact slot_word_zero_buckets _ _ _ j i hz hj hi
  · unfold accessor.deref get_address
    simp only [hoff, publish, lookup_cons_self]

set_option maxRecDepth 100000 in
theorem insert_extends_directory_chain_witness :
    ∃ st1 acc N,
      insert id 2 ex_alloc3 ex_full (32, 132) ⟨0, 0⟩ = some (true, st1, some acc) ∧
      is_chain st1.dir_heap st1.root_dir
        (set_layer [(64, ex_root)] ex_full.top_dir { ex_root with next := (ex_alloc3 0).dir } ++
          [((ex_alloc3 0).dir, N)]) ∧
      (set_layer [(64, ex_root)] ex_full.top_dir { ex_root with next := (ex_alloc3 0).dir } ++
          [((ex_alloc3 0).dir, N)]).length = [(64, ex_root)].length + 1 ∧
      N.segs_power = ex_root.segs_power + EXPO ∧ N.prev = ex_full.top_dir ∧ N.next = 0 ∧
      ex_root.next = 0 ∧
      get_address st1.dir_heap ex_full.top_dir =
        some { ex_root with next := (ex_alloc3 0).dir } ∧
      st1.top_dir = (ex_alloc3 0).dir ∧ st1.root_dir = ex_full.root_dir ∧
      N.segments = (List.replicate (2 ^ N.segs_power) 0).set
        (hash_of id 32 >>> (hashcode_size - N.segs_power)) (ex_alloc3 0).buckets ∧
      ex_full.bucket_heap.lookup (ex_alloc3 0).buckets = none ∧
      (∀ j i, j < ex_full.bucket_size → i < slots_num →
        slot_word st1 (ex_alloc3 0).buckets j i =
          some (if j = hash_of id 32 &&& (ex_full.bucket_size - 1) ∧ i = 0 then
            token_of (hash_of id 32) <<< 48 ||| (ex_alloc3 0).kv else 0)) ∧
      st1.kv_heap = ((ex_alloc3 0).kv, (32, 132)) :: ex_full.kv_heap ∧
      acc.kv_p = token_of (hash_of id 32) <<< 48 ||| (ex_alloc3 0).kv ∧
      acc.deref st1 = some (32, 132) :=
  insert_extends_directory_chain id ex_full [(64, ex_root)] [] ex_root 32 132 ⟨0, 0⟩ 2 ex_alloc3
    (well_formed_of_check (by decide)) (fresh_of_check (by decide)) (by decide) rfl
    (by decide) (by decide) (by decide)

/-! ## The outcomes of one pass -/

theorem find_empty_none_iff {K V : Type} (st : NRHI K V) (rs : List slot_ref) :
    rs.find? (fun x => decide (word_at st x = 0)) = none ↔ ∀ x ∈ rs, word_at st x ≠ 0 := by
  rw [List.find?_eq_none]
  constructor
  · intro h x hx
    simpa using h x hx
  · intro h x hx
    simpa using h x hx

theorem after_out_extend_fault {K V : Type} (st : NRHI K V) (ls : List (Nat × directory))
    (hs : shape st ls) (h token : Nat) (param : K × V) (res : Option accessor)
    (o : offsets) (b0 slot0 top : Nat) (last : Int) (L : directory)
    (hmem : (top, L) ∈ ls) (hp : ¬ L.segs_power + EXPO ≤ 63) :
    after_out st h token param res o (locals_of b0 slot0 0 top last none) = attempt.fault := by
  obtain ⟨_, hL⟩ := is_chain_mem _ _ _ hs.chain _ hmem
  have hp63 : L.segs_power = 63 := by
    have h1 := (hs.power (top, L) hmem).2
    have h2 : L.segs_power ≤ 63 := h1
    have hE : EXPO = 1 := rfl
    omega
  have hsub : sub64 (sub64 hashcode_size L.segs_power) 1 = 0 := by
    rw [hp63]
    decide
  have hshl : shl64 1 ((L.segs_power + EXPO) % U64) = none := by
    rw [hp63]
    decide
  simp only at hL
  unfold after_out
  simp only [locals_of, Bool.false_eq_true, if_false, ne_eq, not_true_eq_false, decide_False,
    hL, hsub, shr64, Nat.shiftRight_zero, Option.map_some', expand, hshl]
  simp

theorem insert_pass_outcome {K V : Type} [DecidableEq K] (hasher : K → Nat) (st : NRHI K V)
    (ls : List (Nat × directory)) (key : K) (param : K × V) (res : Option accessor)
    (fuel : Nat) (o : offsets) (hs : shape st ls) (hfr : fresh st o) (hf : ls.length < fuel) :
    (∃ st1 ls1 w,
      insert_pass hasher fuel st key param res 0 o =
        attempt.done true st1 (res.map (fun _ => { kv_p := w, pool_uuid := st.my_pool_uuid })) ∧
      insert_outcome hasher st ls key param o st1 ls1 w) ∨
    (insert_pass hasher fuel st key param res 0 o = attempt.fault ∧
      ∃ pre L, ls = pre ++ [(st.top_dir, L)] ∧ ¬ L.segs_power + EXPO ≤ 63) := by
  cases hsc : scan st key (token_of (hash_of hasher key)) (probe_walk hasher st ls key) none with
  | hit w =>
    obtain ⟨r, hr, hw, hm⟩ := scan_hit st key _ _ none w hsc
    refine Or.inl ⟨st, ls, w, insert_pass_hit hasher st ls key param res 0 fuel o hs hf w hsc, ?_⟩
    rw [← hw] at hm ⊢
    exact insert_outcome.hit r hr hm
  | go e =>
    obtain ⟨hnm, he⟩ := scan_go st key _ _ none e hsc
    simp only [Option.orElse] at he
    cases e with
    | some r =>
      exact Or.inl ⟨_, ls, _, insert_pass_empty hasher st ls key param res 0 fuel o hs hf r hsc,
        insert_outcome.empty r hnm he.symm⟩
    | none =>
      have hfull := (find_empty_none_iff st _).mp he.symm
      cases hstop : probe_stop hasher st ls key with
      | some x =>
        obtain ⟨dp, sidx⟩ := x
        obtain ⟨L, hL, hz, hpass⟩ := insert_pass_null hasher st ls key param res 0 fuel o hs hf
          (by decide) hfr.buckets_lt dp sidx hsc hstop
        exact Or.inl ⟨_, _, _, hpass, insert_outcome.null dp sidx L hnm hfull hstop hL hz⟩
      | none =>
        obtain ⟨pre, L, hls⟩ := hs.top
        by_cases hp : L.segs_power + EXPO ≤ 63
        · obtain ⟨hnext, hpass⟩ := insert_pass_extend hasher st ls key param res 0 fuel o hs hf
            (by decide) hfr.buckets_lt hfr.dir_lt hfr.dir_new pre L hls hp hsc hstop
          exact Or.inl ⟨_, _, _, hpass, insert_outcome.grow pre L hnm hfull hstop hls hnext hp⟩
        · refine Or.inr ⟨?_, pre, L, hls, hp⟩
          obtain ⟨last, hw⟩ := walk_outcome hasher st ls key 0 fuel hs hf
          have hne : ls ≠ [] := by rw [hls]; simp
          obtain ⟨pre1, L1, hl1, _⟩ := is_chain_last _ ls st.root_dir 0 hs.chain hne
          have heq : pre1 ++ [(last_dp 0 ls, L1)] = pre ++ [(st.top_dir, L)] := by
            rw [← hl1, ← hls]
          have htop : last_dp 0 ls = st.top_dir := congrArg Prod.fst (append_singleton_inj heq).2
          rw [insert_pass_eq, hw, hsc, hstop, htop]
          exact after_out_extend_fault st ls hs _ _ param res o _ 0 st.top_dir last L
            (mem_of_eq_append_singleton hls) hp

theorem insert_outcome_of_well_formed {K V : Type} [DecidableEq K] (hasher : K → Nat)
    (st : NRHI K V) (ls : List (Nat × directory)) (key : K) (param : K × V)
    (res : Option accessor) (fuel : Nat) (al : Nat → offsets) (hwf : well_formed st ls)
    (hfr : fresh st (al 0)) (hf : ls.length < fuel) :
    ∃ st1 ls1 w,
      generic_insert hasher fuel al st key param res =
        some (true, st1, res.map (fun _ => { kv_p := w, pool_uuid := st.my_pool_uuid })) ∧
      insert_outcome hasher st ls key param (al 0) st1 ls1 w := by
  rcases insert_pass_outcome hasher st ls key param res fuel (al 0) hwf.shp hfr hf with
    ⟨st1, ls1, w, hpass, hout⟩ | ⟨_, pre, L, hls, hp⟩
  · exact ⟨st1, ls1, w, generic_insert_of_pass hasher fuel al st key param res _ _ _ (by omega)
      hpass, hout⟩
  · exact absurd (hwf.top_power pre _ hls) hp

/-! ## Structure and frame of the outcomes -/

theorem set_layer_singleton_self (dp : Nat) (L L1 : directory) :
    set_layer [(dp, L)] dp L1 = [(dp, L1)] := by
  simp [set_layer]

theorem grow_chain_eq (ls : List (Nat × directory)) (top dir : Nat) (L1 N N1 : directory)
    (hnot : dir ∉ ls.map Prod.fst) :
    set_layer (set_layer ls top L1 ++ [(dir, N)]) dir N1 = set_layer ls top L1 ++ [(dir, N1)] := by
  rw [set_layer_append, set_layer_of_not_mem _ _ _ (by rw [set_layer_map_fst]; exact hnot),
    set_layer_singleton_self]

theorem not_mem_of_lookup_none {K V : Type} {st : NRHI K V} {ls : List (Nat × directory)}
    (hs : shape st ls) {dir : Nat} (hnew : st.dir_heap.lookup dir = none) :
    dir ∉ ls.map Prod.fst := by
  intro h
  obtain ⟨x, hx, hxd⟩ := List.mem_map.mp h
  have hget := (is_chain_mem _ _ _ hs.chain x hx).2
  unfold get_address at hget
  rw [get_offset_of_lt (hs.dp_lt x hx), hxd, hnew] at hget
  cases hget

theorem valid_ref_materialized {K V : Type} (st : NRHI K V) (ls : List (Nat × directory))
    (dp sidx bk b0 : Nat) (L : directory) (hmem : (dp, L) ∈ ls)
    (hsidx : sidx < L.segments.length) (hbk : bk ≠ 0) (hb0 : b0 < st.bucket_size) :
    valid_ref (materialize st dp L sidx bk)
      (set_layer ls dp { L with segments := L.segments.set sidx bk }) ⟨dp, sidx, bk, b0, 0⟩ := by
  refine ⟨{ L with segments := L.segments.set sidx bk }, ?_, List.getElem?_set_self hsidx, hbk,
    hb0, by show 0 < slots_num; decide⟩
  have := @mem_set_layer_of_mem ls dp { L with segments := L.segments.set sidx bk } _ hmem
  simpa using this

theorem insert_outcome_shape {K V : Type} [DecidableEq K] (hasher : K → Nat) (st : NRHI K V)
    (ls : List (Nat × directory)) (key : K) (param : K × V) (o : offsets) (st1 : NRHI K V)
    (ls1 : List (Nat × directory)) (w : Nat) (hs : shape st ls) (hfr : fresh st o)
    (hout : insert_outcome hasher st ls key param o st1 ls1 w) : shape st1 ls1 := by
  obtain ⟨hb1, hb2⟩ := shape_bsize hs
  have hb0 := bucket_of_lt (h := hash_of hasher key) hb1 hb2
  have ht := token_of_lt (hash_of hasher key)
  cases hout with
  | hit r hr hm => exact hs
  | empty r hnm hfind =>
    exact shape_publish st ls hs param o.kv _ r
      (mem_chain_refs st _ _ hb1 ls r (List.mem_of_find?_eq_some hfind)) ht hfr.kv_lt
  | null dp sidx L hnm hfull hstop hL hz =>
    have hs2 := shape_materialize st ls hs dp sidx o.buckets L hL hfr.buckets_lt hfr.buckets_new
    exact shape_publish _ _ hs2 param o.kv _ _
      (valid_ref_materialized st ls dp sidx o.buckets _ L hL (getElem?_lt hz) hfr.buckets_ne hb0)
      ht hfr.kv_lt
  | grow pre L hnm hfull hstop hls hnext hp =>
    have hs1 := shape_extend st ls hs pre L o.dir hls hp hfr.dir_ne hfr.dir_lt hfr.dir_new
    have hmemN : (o.dir, next_layer st.top_dir L) ∈
        set_layer ls st.top_dir { L with next := o.dir } ++
          [(o.dir, next_layer st.top_dir L)] := by simp
    have hidx : hash_of hasher key >>> (hashcode_size - (L.segs_power + EXPO)) <
        (next_layer st.top_dir L).segments.length := by
      have := shr_lt_pow (p := L.segs_power + EXPO) (hash_of_lt hasher key) (by omega)
      simpa [next_layer] using this
    have hs2 := shape_materialize (extend st st.top_dir L o.dir) _ hs1 o.dir
      (hash_of hasher key >>> (hashcode_size - (L.segs_power + EXPO))) o.buckets
      (next_layer st.top_dir L) hmemN hfr.buckets_lt hfr.buckets_new
    have hv := valid_ref_materialized (extend st st.top_dir L o.dir) _ o.dir
      (hash_of hasher key >>> (hashcode_size - (L.segs_power + EXPO))) o.buckets
      (bucket_of st.bucket_size (hash_of hasher key)) (next_layer st.top_dir L) hmemN hidx
      hfr.buckets_ne hb0
    have hs3 := shape_publish _ _ hs2 param o.kv (token_of (hash_of hasher key)) _ hv ht
      hfr.kv_lt
    rw [grow_chain_eq ls st.top_dir o.dir _ _ _ (not_mem_of_lookup_none hs hfr.dir_new)] at hs3
    exact hs3

theorem word_at_of_slot_word {K V : Type} {st : NRHI K V} {r : slot_ref} {w : Nat}
    (h : slot_word st r.array r.bucket_idx r.slot_idx = some w) : word_at st r = w := by
  unfold word_at ref_word
  rw [h]
  rfl

theorem slot_word_publish_fresh {K V : Type} (st : NRHI K V) (param : K × V)
    (kv dp sidx bk b0 : Nat) (w : Nat) (hb0 : b0 < st.bucket_size)
    (hlook : st.bucket_heap.lookup bk = some (zero_buckets st.bucket_size)) (a j i : Nat) :
    slot_word (publish st param kv ⟨dp, sidx, bk, b0, 0⟩ w) a j i =
      if a = bk ∧ j = b0 ∧ i = 0 then some w else slot_word st a j i :=
  slot_word_publish st param kv ⟨dp, sidx, bk, b0, 0⟩ w (zero_buckets st.bucket_size)
    (List.replicate slots_num 0) hlook
    (by unfold zero_buckets; exact List.getElem?_replicate_of_lt hb0) (by simp [slots_num]) a j i

theorem insert_outcome_slots {K V : Type} [DecidableEq K] (hasher : K → Nat) (st : NRHI K V)
    (ls : List (Nat × directory)) (key : K) (param : K × V) (o : offsets) (st1 : NRHI K V)
    (ls1 : List (Nat × directory)) (w : Nat) (hs : shape st ls) (hfr : fresh st o)
    (hout : insert_outcome hasher st ls key param o st1 ls1 w) :
    ∀ a j i w0, slot_word st a j i = some w0 → w0 ≠ 0 → slot_word st1 a j i = some w0 := by
  obtain ⟨hb1, hb2⟩ := shape_bsize hs
  have hb0 := bucket_of_lt (h := hash_of hasher key) hb1 hb2
  intro a j i w0 hw hne
  obtain ⟨arr0, harr0⟩ := slot_word_some_lookup hw
  have habk : a ≠ o.buckets := lookup_ne_of_none harr0 hfr.buckets_new
  cases hout with
  | hit r hr hm => exact hw
  | empty r hnm hfind =>
    obtain ⟨L, arr, b, _, _, _, harr, hb, hsl⟩ := valid_ref_slot hs
      (mem_chain_refs st _ _ hb1 ls r (List.mem_of_find?_eq_some hfind))
    have hzero : word_at st r = 0 := by simpa using List.find?_some hfind
    rw [slot_word_publish st _ _ r _ arr b harr hb hsl, if_neg]
    · exact hw
    · rintro ⟨rfl, rfl, rfl⟩
      rw [word_at_of_slot_word hw] at hzero
      exact hne hzero
  | null dp sidx L hnm hfull hstop hL hz =>
    rw [slot_word_publish_fresh (materialize st dp L sidx o.buckets) param o.kv dp sidx
        o.buckets _ _ hb0 (lookup_cons_self _ _ _) a j i,
      if_neg (fun h => habk h.1), slot_word_materialize _ _ _ _ _ _ _ _ habk]
    exact hw
  | grow pre L hnm hfull hstop hls hnext hp =>
    rw [slot_word_publish_fresh
        (materialize (extend st st.top_dir L o.dir) o.dir (next_layer st.top_dir L)
          (hash_of hasher key >>> (hashcode_size - (L.segs_power + EXPO))) o.buckets)
        param o.kv o.dir _ o.buckets _ _ hb0 (lookup_cons_self _ _ _) a j i,
      if_neg (fun h => habk h.1), slot_word_materialize _ _ _ _ _ _ _ _ habk, slot_word_extend]
    exact hw

theorem insert_outcome_layers {K V : Type} [DecidableEq K] (hasher : K → Nat) (st : NRHI K V)
    (ls : List (Nat × directory)) (key : K) (param : K × V) (o : offsets) (st1 : NRHI K V)
    (ls1 : List (Nat × directory)) (w : Nat) (hs : shape st ls)
    (hout : insert_outcome hasher st ls key param o st1 ls1 w) :
    ∀ e ∈ ls, ∃ y ∈ ls1, y.1 = e.1 ∧ y.2.segs_power = e.2.segs_power ∧ y.2.prev = e.2.prev ∧
      y.2.segments.length = e.2.segments.length ∧
      (∀ (i a : Nat), e.2.segments[i]? = some a → a ≠ 0 → y.2.segments[i]? = some a) ∧
      (y.2.next = e.2.next ∨
        (e.1 = st.top_dir ∧ e.2.next = 0 ∧ y.2.next = st1.top_dir)) := by
  intro e he
  cases hout with
  | hit r hr hm => exact ⟨e, he, rfl, rfl, rfl, rfl, fun _ _ h _ => h, Or.inl rfl⟩
  | empty r hnm hfind => exact ⟨e, he, rfl, rfl, rfl, rfl, fun _ _ h _ => h, Or.inl rfl⟩
  | null dp sidx L hnm hfull hstop hL hz =>
    have hy := @mem_set_layer_of_mem ls dp { L with segments := L.segments.set sidx o.buckets }
      e he
    by_cases hd : e.1 = dp
    · have heL : e = (dp, L) := snd_eq_of_nodup hs.nodup he hL hd
      rw [if_pos hd] at hy
      refine ⟨_, hy, hd.symm, by rw [heL], by rw [heL], by rw [heL]; simp, ?_,
        Or.inl (by rw [heL])⟩
      intro i a hia hne
      rw [heL] at hia
      have hi : sidx ≠ i := by
        rintro rfl
        rw [hz] at hia
        exact hne (Option.some.inj hia).symm
      simp only
      rw [List.getElem?_set_ne hi]
      exact hia
    · rw [if_neg hd] at hy
      exact ⟨e, hy, rfl, rfl, rfl, rfl, fun _ _ h _ => h, Or.inl rfl⟩
  | grow pre L hnm hfull hstop hls hnext hp =>
    have hy := @mem_set_layer_of_mem ls st.top_dir { L with next := o.dir } e he
    have hL : (st.top_dir, L) ∈ ls := mem_of_eq_append_singleton hls
    by_cases hd : e.1 = st.top_dir
    · have heL : e = (st.top_dir, L) := snd_eq_of_nodup hs.nodup he hL hd
      rw [if_pos hd] at hy
      exact ⟨_, List.mem_append_left _ hy, hd.symm, by rw [heL], by rw [heL], by rw [heL],
        fun _ _ h _ => by rw [heL] at h; exact h, Or.inr ⟨hd, by rw [heL]; exact hnext, rfl⟩⟩
    · rw [if_neg hd] at hy
      exact ⟨e, List.mem_append_left _ hy, rfl, rfl, rfl, rfl, fun _ _ h _ => h, Or.inl rfl⟩

theorem insert_outcome_root {K V : Type} [DecidableEq K] (hasher : K → Nat) (st : NRHI K V)
    (ls : List (Nat × directory)) (key : K) (param : K × V) (o : offsets) (st1 : NRHI K V)
    (ls1 : List (Nat × directory)) (w : Nat)
    (hout : insert_outcome hasher st ls key param o st1 ls1 w) :
    st1.root_dir = st.root_dir ∧ st1.bucket_size = st.bucket_size ∧
      st1.my_pool_uuid = st.my_pool_uuid := by
  cases hout <;> exact ⟨rfl, rfl, rfl⟩

/-- C8: a sequential insert on a well-formed state rewrites nothing that was published:
every slot that was non-empty holds the same word afterwards, root is unchanged, and
every layer of the chain keeps its `segs_power`, its `prev`, the length of its segment
array and every non-zero bucket pointer; its `next` is unchanged too, except that the old
top layer's `next` goes from 0 to the new top when the chain is extended. -/
theorem insert_rewrites_nothing_published {K V : Type} [DecidableEq K] (hasher : K → Nat)
    (st : NRHI K V) (ls : List (Nat × directory)) (key : K) (v : V) (res : accessor)
    (fuel : Nat) (al : Nat → offsets)
    (hwf : well_formed st ls) (hfr : fresh st (al 0)) (hf : ls.length < fuel) :
    ∃ st1 acc,
      insert hasher fuel al st (key, v) res = some (true, st1, acc) ∧
      (∀ a j i w, slot_word st a j i = some w → w ≠ 0 → slot_word st1 a j i = some w) ∧
      st1.root_dir = st.root_dir ∧
      (∀ e ∈ ls, ∃ L1, get_address st1.dir_heap e.1 = some L1 ∧
        L1.segs_power = e.2.segs_power ∧ L1.prev = e.2.prev ∧
        L1.segments.length = e.2.segments.length ∧
        (∀ (i a : Nat), e.2.segments[i]? = some a → a ≠ 0 → L1.segments[i]? = some a) ∧
        (L1.next = e.2.next ∨
          (e.1 = st.top_dir ∧ e.2.next = 0 ∧ L1.next = st1.top_dir))) := by
  obtain ⟨st1, ls1, w, hgi, hout⟩ := insert_outcome_of_well_formed hasher st ls key (key, v)
    (some res) fuel al hwf hfr hf
  have hs1 := insert_outcome_shape hasher st ls key (key, v) (al 0) st1 ls1 w hwf.shp hfr hout
  refine ⟨st1, _, hgi,
    insert_outcome_slots hasher st ls key (key, v) (al 0) st1 ls1 w hwf.shp hfr hout,
    (insert_outcome_root hasher st ls key (key, v) (al 0) st1 ls1 w hout).1, ?_⟩
  intro e he
  obtain ⟨y, hy, h1, h2, h3, h4, h5, h6⟩ :=
    insert_outcome_layers hasher st ls key (key, v) (al 0) st1 ls1 w hwf.shp hout e he
  refine ⟨y.2, ?_, h2, h3, h4, h5, h6⟩
  rw [← h1]
  exact (is_chain_mem _ _ _ hs1.chain y hy).2

set_option maxRecDepth 100000 in
theorem insert_rewrites_nothing_published_witness :
    ∃ st1 acc,
      insert id 2 ex_alloc3 ex_full (32, 132) ⟨0, 0⟩ = some (true, st1, acc) ∧
      (∀ a j i w, slot_word ex_full a j i = some w → w ≠ 0 → slot_word st1 a j i = some w) ∧
      st1.root_dir = ex_full.root_dir ∧
      (∀ e ∈ [(64, ex_root)], ∃ L1, get_address st1.dir_heap e.1 = some L1 ∧
        L1.segs_power = e.2.segs_power ∧ L1.prev = e.2.prev ∧
        L1.segments.length = e.2.segments.length ∧
        (∀ (i a : Nat), e.2.segments[i]? = some a → a ≠ 0 → L1.segments[i]? = some a) ∧
        (L1.next = e.2.next ∨
          (e.1 = ex_full.top_dir ∧ e.2.next = 0 ∧ L1.next = st1.top_dir))) :=
  insert_rewrites_nothing_published id ex_full [(64, ex_root)] 32 132 ⟨0, 0⟩ 2 ex_alloc3
    (well_formed_of_check (by decide)) (fresh_of_check (by decide)) (by decide)

/-! ## Capacity across an insert -/

theorem count_set_zero :
    ∀ (l : List Nat) (i b : Nat), l[i]? = some 0 → b ≠ 0 →
      ((l.set i b).filter (fun off => off ≠ 0)).length =
        (l.filter (fun off => off ≠ 0)).length + 1
  | [], i, b, h, _ => by simp at h
  | x :: rest, 0, b, h, hb => by
    have hx : x = 0 := by simpa using h
    subst hx
    simp [List.set, List.filter_cons, hb]
  | x :: rest, i + 1, b, h, hb => by
    have h1 : rest[i]? = some 0 := by simpa using h
    have ih := count_set_zero rest i b h1 hb
    by_cases hx : x = 0
    · simp only [List.set, List.filter_cons, hx, ne_eq, not_true_eq_false, decide_False,
        Bool.false_eq_true, if_false]
      exact ih
    · simp only [List.set, List.filter_cons, hx, ne_eq, not_false_eq_true, decide_True, if_true,
        List.length_cons, ih]

theorem allocated_set_layer (dp : Nat) (L L1 : directory) (k : Nat)
    (hk : (L1.segments.filter (fun off => off ≠ 0)).length =
      (L.segments.filter (fun off => off ≠ 0)).length + k) :
    ∀ (ls : List (Nat × directory)), (ls.map Prod.fst).Nodup → (dp, L) ∈ ls →
      allocated_segments (set_layer ls dp L1) = allocated_segments ls + k
  | [], _, hm => by cases hm
  | y :: rest, hnd, hm => by
    have hnd1 := hnd
    rw [List.map_cons, List.nodup_cons] at hnd1
    rw [set_layer_cons]
    by_cases hd : y.1 = dp
    · have hyL : y = (dp, L) := snd_eq_of_nodup hnd (List.mem_cons_self _ _) hm hd
      have hnot : dp ∉ rest.map Prod.fst := by rw [← hd]; exact hnd1.1
      rw [if_pos hd, set_layer_of_not_mem dp L1 rest hnot, hyL]
      simp only [allocated_segments, List.map_cons, List.sum_cons, hk]
      omega
    · have hm1 : (dp, L) ∈ rest := by
        rcases List.mem_cons.mp hm with h | h
        · exact absurd (by rw [← h]) hd
        · exact h
      have ih := allocated_set_layer dp L L1 k hk rest hnd1.2 hm1
      rw [if_neg hd]
      simp only [allocated_segments, List.map_cons, List.sum_cons] at ih ⊢
      omega

theorem allocated_append (l1 l2 : List (Nat × directory)) :
    allocated_segments (l1 ++ l2) = allocated_segments l1 + allocated_segments l2 := by
  simp [allocated_segments]

theorem insert_outcome_allocated {K V : Type} [DecidableEq K] (hasher : K → Nat)
    (st : NRHI K V) (ls : List (Nat × directory)) (key : K) (param : K × V) (o : offsets)
    (st1 : NRHI K V) (ls1 : List (Nat × directory)) (w : Nat) (hs : shape st ls)
    (hfr : fresh st o) (hout : insert_outcome hasher st ls key param o st1 ls1 w) :
    allocated_segments ls1 =
      allocated_segments ls +
        (if (∀ x ∈ probe_walk hasher st ls key,
            ¬ is_match st key (token_of (hash_of hasher key)) (word_at st x)) ∧
          (∀ x ∈ probe_walk hasher st ls key, word_at st x ≠ 0) then 1 else 0) := by
  cases hout with
  | hit r hr hm =>
    rw [if_neg (fun h => h.1 r hr hm)]
    rfl
  | empty r hnm hfind =>
    have hzero : word_at st r = 0 := by simpa using List.find?_some hfind
    rw [if_neg (fun h => h.2 r (List.mem_of_find?_eq_some hfind) hzero)]
    rfl
  | null dp sidx L hnm hfull hstop hL hz =>
    rw [if_pos ⟨hnm, hfull⟩]
    exact allocated_set_layer dp L _ 1 (count_set_zero _ _ _ hz hfr.buckets_ne) ls hs.nodup hL
  | grow pre L hnm hfull hstop hls hnext hp =>
    rw [if_pos ⟨hnm, hfull⟩, allocated_append,
      allocated_set_layer st.top_dir L { L with next := o.dir } 0 rfl ls hs.nodup
        (mem_of_eq_append_singleton hls)]
    have hidx : hash_of hasher key >>> (hashcode_size - (L.segs_power + EXPO)) <
        2 ^ (L.segs_power + EXPO) := shr_lt_pow (hash_of_lt hasher key) (by omega)
    have hcnt := count_set_zero (List.replicate (2 ^ (L.segs_power + EXPO)) 0)
      (hash_of hasher key >>> (hashcode_size - (L.segs_power + EXPO))) o.buckets
      (List.getElem?_replicate_of_lt hidx) hfr.buckets_ne
    have hzero : ((List.replicate (2 ^ (L.segs_power + EXPO)) 0).filter
        (fun off => off ≠ 0)).length = 0 := by
      rw [List.length_eq_zero, List.filter_eq_nil_iff]
      intro a ha
      simp [List.eq_of_mem_replicate ha]
    simp only [allocated_segments, List.map_cons, List.map_nil, List.sum_cons, List.sum_nil,
      next_layer, hcnt, hzero]
    omega

theorem insert_outcome_powers {K V : Type} [DecidableEq K] (hasher : K → Nat)
    (st : NRHI K V) (ls : List (Nat × directory)) (key : K) (param : K × V) (o : offsets)
    (st1 : NRHI K V) (ls1 : List (Nat × directory)) (w : Nat)
    (hout : insert_outcome hasher st ls key param o st1 ls1 w)
    (hsz : ∀ e ∈ ls, e.2.segs_power + EXPO ≤ 62) :
    (∀ e ∈ ls1, e.2.segs_power ≤ 62) ∧ ls1.length ≤ ls.length + 1 := by
  have hold : ∀ e ∈ ls, e.2.segs_power ≤ 62 := fun e he => by
    have := hsz e he
    omega
  cases hout with
  | hit r hr hm => exact ⟨hold, by omega⟩
  | empty r hnm hfind => exact ⟨hold, by omega⟩
  | null dp sidx L hnm hfull hstop hL hz =>
    refine ⟨?_, by rw [set_layer_length]; omega⟩
    intro e he
    rcases mem_set_layer he with ⟨h1, _⟩ | ⟨h1, _⟩
    · exact hold e h1
    · rw [h1]
      exact hold (dp, L) hL
  | grow pre L hnm hfull hstop hls hnext hp =>
    have hL : (st.top_dir, L) ∈ ls := mem_of_eq_append_singleton hls
    refine ⟨?_, by simp [set_layer_length]⟩
    intro e he
    rcases List.mem_append.mp he with h | h
    · rcases mem_set_layer h with ⟨h1, _⟩ | ⟨h1, _⟩
      · exact hold e h1
      · rw [h1]
        exact hold (st.top_dir, L) hL
    · rw [List.mem_singleton.mp h]
      exact hsz (st.top_dir, L) hL

/-- C6: in a well-formed state whose slot count stays countable (every layer power plus
EXPO at most 62, and the slots of one more bucket array still below `2^64`), an
`insert((k,v))` whose walk meets no slot passing the key test and no empty slot grows the
index: `capacity()` afterwards is larger than before by exactly
`bucket_size * slots_num`; an insert whose walk meets an empty slot or a slot passing the
key test leaves `capacity()` unchanged. -/
theorem insert_capacity {K V : Type} [DecidableEq K] (hasher : K → Nat)
    (st : NRHI K V) (ls : List (Nat × directory)) (key : K) (v : V) (res : accessor)
    (fuel : Nat) (al : Nat → offsets)
    (hwf : well_formed st ls) (hfr : fresh st (al 0)) (hf : ls.length + 1 < fuel)
    (hsz : ∀ e ∈ ls, e.2.segs_power + EXPO ≤ 62)
    (hfit : (allocated_segments ls + 1) * st.bucket_size * slots_num < U64) :
    ∃ st1 acc c0 c1,
      insert hasher fuel al st (key, v) res = some (true, st1, acc) ∧
      capacity fuel st = some c0 ∧ capacity fuel st1 = some c1 ∧
      ((∀ x ∈ probe_walk hasher st ls key,
          ¬ is_match st key (token_of (hash_of hasher key)) (word_at st x)) →
        (∀ x ∈ probe_walk hasher st ls key, word_at st x ≠ 0) →
        c1 = c0 + st.bucket_size * slots_num ∧ c0 < c1) ∧
      (((∃ x ∈ probe_walk hasher st ls key, word_at st x = 0) ∨
          (∃ x ∈ probe_walk hasher st ls key,
            is_match st key (token_of (hash_of hasher key)) (word_at st x))) →
        c1 = c0) := by
  have hs := hwf.shp
  obtain ⟨hb1, _⟩ := shape_bsize hs
  obtain ⟨st1, ls1, w, hgi, hout⟩ := insert_outcome_of_well_formed hasher st ls key (key, v)
    (some res) fuel al hwf hfr (by omega)
  have hs1 := insert_outcome_shape hasher st ls key (key, v) (al 0) st1 ls1 w hs hfr hout
  obtain ⟨hpow1, hlen1⟩ := insert_outcome_powers hasher st ls key (key, v) (al 0) st1 ls1 w
    hout hsz
  have halloc := insert_outcome_allocated hasher st ls key (key, v) (al 0) st1 ls1 w hs hfr hout
  have hbs := (insert_outcome_root hasher st ls key (key, v) (al 0) st1 ls1 w hout).2.1
  have hc0 := capacity_spec st ls fuel hs.chain
    (fun e he => ⟨by have := hsz e he; omega, hs.segs_len e he⟩) (by omega)
  have hc1 := capacity_spec st1 ls1 fuel hs1.chain
    (fun e he => ⟨hpow1 e he, hs1.segs_len e he⟩) (by omega)
  have hfit0 : st.bucket_size * slots_num * allocated_segments ls < U64 := by
    have : st.bucket_size * slots_num * allocated_segments ls ≤
        (allocated_segments ls + 1) * st.bucket_size * slots_num := by
      have e0 : (allocated_segments ls + 1) * st.bucket_size * slots_num =
          st.bucket_size * slots_num * allocated_segments ls + st.bucket_size * slots_num := by
        ring
      omega
    omega
  rw [Nat.mod_eq_of_lt hfit0] at hc0
  rw [hbs, halloc] at hc1
  refine ⟨st1, _, _, _, hgi, hc0, hc1, ?_, ?_⟩
  · intro hnm hfull
    rw [if_pos ⟨hnm, hfull⟩]
    have e1 : st.bucket_size * slots_num * (allocated_segments ls + 1) =
        (allocated_segments ls + 1) * st.bucket_size * slots_num := by ring
    rw [e1, Nat.mod_eq_of_lt hfit]
    have hpos : 0 < st.bucket_size * slots_num := Nat.mul_pos hb1 (by decide)
    constructor
    · ring
    · nlinarith
  · intro hor
    have hneg : ¬ ((∀ x ∈ probe_walk hasher st ls key,
          ¬ is_match st key (token_of (hash_of hasher key)) (word_at st x)) ∧
        (∀ x ∈ probe_walk hasher st ls key, word_at st x ≠ 0)) := by
      rintro ⟨h1, h2⟩
      rcases hor with ⟨x, hx, h0⟩ | ⟨x, hx, hm⟩
      · exact h2 x hx h0
      · exact h1 x hx hm
    rw [if_neg hneg, Nat.add_zero, Nat.mod_eq_of_lt hfit0]

set_option maxRecDepth 100000 in
theorem insert_capacity_witness :
    ∃ st1 acc c0 c1,
      insert id 3 ex_alloc3 ex_full (32, 132) ⟨0, 0⟩ = some (true, st1, acc) ∧
      capacity 3 ex_full = some c0 ∧ capacity 3 st1 = some c1 ∧
      ((∀ x ∈ probe_walk id ex_full [(64, ex_root)] 32,
          ¬ is_match ex_full 32 (token_of (hash_of id 32)) (word_at ex_full x)) →
        (∀ x ∈ probe_walk id ex_full [(64, ex_root)] 32, word_at ex_full x ≠ 0) →
        c1 = c0 + ex_full.bucket_size * slots_num ∧ c0 < c1) ∧
      (((∃ x ∈ probe_walk id ex_full [(64, ex_root)] 32, word_at ex_full x = 0) ∨
          (∃ x ∈ probe_walk id ex_full [(64, ex_root)] 32,
            is_match ex_full 32 (token_of (hash_of id 32)) (word_at ex_full x))) →
        c1 = c0) :=
  insert_capacity id ex_full [(64, ex_root)] 32 132 ⟨0, 0⟩ 3 ex_alloc3
    (well_formed_of_check (by decide)) (fresh_of_check (by decide)) (by decide)
    (by decide) (by decide)

/-! ## The probe walk only grows -/

theorem layer_refs_succ_none (bs b0 dp : Nat) (L : directory) (s0 n s : Nat)
    (h : L.segments[(s0 + s) % 2 ^ L.segs_power]? = none) :
    layer_refs bs b0 dp L s0 (n + 1) s = ([], some ((s0 + s) % 2 ^ L.segs_power)) := by
  simp only [layer_refs, h]

theorem layer_refs_succ_zero (bs b0 dp : Nat) (L : directory) (s0 n s : Nat)
    (h : L.segments[(s0 + s) % 2 ^ L.segs_power]? = some 0) :
    layer_refs bs b0 dp L s0 (n + 1) s = ([], some ((s0 + s) % 2 ^ L.segs_power)) := by
  simp only [layer_refs, h, if_true]

theorem layer_refs_succ_some (bs b0 dp : Nat) (L : directory) (s0 n s a : Nat)
    (h : L.segments[(s0 + s) % 2 ^ L.segs_power]? = some a) (ha : a ≠ 0) :
    layer_refs bs b0 dp L s0 (n + 1) s =
      (segment_refs bs b0 dp ((s0 + s) % 2 ^ L.segs_power) a LP_DIS_B 0 ++
        (layer_refs bs b0 dp L s0 n (s + 1)).1, (layer_refs bs b0 dp L s0 n (s + 1)).2) := by
  simp only [layer_refs, h, ha, if_false]

theorem chain_refs_cons_some (bs h b0 : Nat) (x : Nat × directory)
    (rest : List (Nat × directory)) (s : Nat)
    (hs : (layer_refs bs b0 x.1 x.2 (h >>> (hashcode_size - x.2.segs_power)) LP_DIS_S 0).2 =
      some s) :
    chain_refs bs h b0 (x :: rest) =
      ((layer_refs bs b0 x.1 x.2 (h >>> (hashcode_size - x.2.segs_power)) LP_DIS_S 0).1,
        some (x.1, s)) := by
  rw [chain_refs]
  simp only [hs]

theorem chain_refs_cons_none (bs h b0 : Nat) (x : Nat × directory)
    (rest : List (Nat × directory))
    (hs : (layer_refs bs b0 x.1 x.2 (h >>> (hashcode_size - x.2.segs_power)) LP_DIS_S 0).2 =
      none) :
    chain_refs bs h b0 (x :: rest) =
      ((layer_refs bs b0 x.1 x.2 (h >>> (hashcode_size - x.2.segs_power)) LP_DIS_S 0).1 ++
        (chain_refs bs h b0 rest).1, (chain_refs bs h b0 rest).2) := by
  rw [chain_refs]
  simp only [hs]

theorem layer_refs_mono (bs b0 dp : Nat) (L L1 : directory) (s0 : Nat)
    (hp : L1.segs_power = L.segs_power)
    (hseg : ∀ (i a : Nat), L.segments[i]? = some a → a ≠ 0 → L1.segments[i]? = some a) :
    ∀ (n s : Nat),
      (∀ r ∈ (layer_refs bs b0 dp L s0 n s).1, r ∈ (layer_refs bs b0 dp L1 s0 n s).1) ∧
      ((layer_refs bs b0 dp L s0 n s).2 = none →
        layer_refs bs b0 dp L1 s0 n s = layer_refs bs b0 dp L s0 n s)
  | 0, s => by simp [layer_refs]
  | n + 1, s => by
    obtain ⟨ih1, ih2⟩ := layer_refs_mono bs b0 dp L L1 s0 hp hseg n (s + 1)
    rcases hL : L.segments[(s0 + s) % 2 ^ L.segs_power]? with _ | a
    · rw [layer_refs_succ_none bs b0 dp L s0 n s hL]
      simp
    · by_cases ha : a = 0
      · subst ha
        rw [layer_refs_succ_zero bs b0 dp L s0 n s hL]
        simp
      · have h1 := hseg _ a hL ha
        rw [← hp] at h1
        rw [layer_refs_succ_some bs b0 dp L s0 n s a hL ha,
          layer_refs_succ_some bs b0 dp L1 s0 n s a h1 ha, hp]
        refine ⟨?_, ?_⟩
        · intro r hr
          rcases List.mem_append.mp hr with hr | hr
          · exact List.mem_append.mpr (Or.inl hr)
          · exact List.mem_append.mpr (Or.inr (ih1 r hr))
        · intro hnone
          rw [ih2 hnone]

theorem mem_chain_refs_head (bs h b0 : Nat) (x : Nat × directory)
    (rest : List (Nat × directory)) (r : slot_ref)
    (hr : r ∈ (layer_refs bs b0 x.1 x.2 (h >>> (hashcode_size - x.2.segs_power)) LP_DIS_S 0).1) :
    r ∈ (chain_refs bs h b0 (x :: rest)).1 := by
  cases hstop : (layer_refs bs b0 x.1 x.2 (h >>> (hashcode_size - x.2.segs_power)) LP_DIS_S 0).2 with
  | some s =>
    rw [chain_refs_cons_some bs h b0 x rest s hstop]
    exact hr
  | none =>
    rw [chain_refs_cons_none bs h b0 x rest hstop]
    exact List.mem_append.mpr (Or.inl hr)

theorem chain_refs_map_mono (bs h b0 : Nat) (f : Nat × directory → Nat × directory) :
    ∀ (ls : List (Nat × directory)),
      (∀ x ∈ ls, (f x).1 = x.1 ∧ (f x).2.segs_power = x.2.segs_power ∧
        ∀ (i a : Nat), x.2.segments[i]? = some a → a ≠ 0 → (f x).2.segments[i]? = some a) →
      (∀ r ∈ (chain_refs bs h b0 ls).1, r ∈ (chain_refs bs h b0 (ls.map f)).1) ∧
      ((chain_refs bs h b0 ls).2 = none →
        chain_refs bs h b0 (ls.map f) = chain_refs bs h b0 ls)
  | [], _ => by simp [chain_refs]
  | x :: rest, hf => by
    obtain ⟨h1, h2, h3⟩ := hf x (List.mem_cons_self _ _)
    obtain ⟨ih1, ih2⟩ := chain_refs_map_mono bs h b0 f rest
      (fun y hy => hf y (List.mem_cons_of_mem _ hy))
    obtain ⟨m1, m2⟩ := layer_refs_mono bs b0 x.1 x.2 (f x).2
      (h >>> (hashcode_size - x.2.segs_power)) h2 h3 LP_DIS_S 0
    rw [List.map_cons]
    cases hstop : (layer_refs bs b0 x.1 x.2 (h >>> (hashcode_size - x.2.segs_power)) LP_DIS_S 0).2 with
    | some s =>
      rw [chain_refs_cons_some bs h b0 x rest s hstop]
      constructor
      · intro r hr
        apply mem_chain_refs_head
        rw [h1, h2]
        exact m1 r hr
      · intro hn
        cases hn
    | none =>
      have m3 := m2 hstop
      have hstop1 : (layer_refs bs b0 (f x).1 (f x).2
          (h >>> (hashcode_size - (f x).2.segs_power)) LP_DIS_S 0).2 = none := by
        rw [h1, h2, m3]
        exact hstop
      rw [chain_refs_cons_none bs h b0 x rest hstop,
        chain_refs_cons_none bs h b0 (f x) (rest.map f) hstop1, h1, h2, m3]
      constructor
      · intro r hr
        rcases List.mem_append.mp hr with hr | hr
        · exact List.mem_append.mpr (Or.inl hr)
        · exact List.mem_append.mpr (Or.inr (ih1 r hr))
      · intro hn
        rw [ih2 hn]

theorem chain_refs_append (bs h b0 : Nat) (ys : List (Nat × directory)) :
    ∀ (ls : List (Nat × directory)),
      (∀ r ∈ (chain_refs bs h b0 ls).1, r ∈ (chain_refs bs h b0 (ls ++ ys)).1) ∧
      ((chain_refs bs h b0 ls).2 = none →
        chain_refs bs h b0 (ls ++ ys) =
          ((chain_refs bs h b0 ls).1 ++ (chain_refs bs h b0 ys).1, (chain_refs bs h b0 ys).2))
  | [] => by simp [chain_refs]
  | x :: rest => by
    obtain ⟨ih1, ih2⟩ := chain_refs_append bs h b0 ys rest
    rw [List.cons_append]
    cases hstop : (layer_refs bs b0 x.1 x.2 (h >>> (hashcode_size - x.2.segs_power)) LP_DIS_S 0).2 with
    | some s =>
      rw [chain_refs_cons_some bs h b0 x rest s hstop]
      constructor
      · intro r hr
        exact mem_chain_refs_head bs h b0 x _ r hr
      · intro hn
        cases hn
    | none =>
      rw [chain_refs_cons_none bs h b0 x rest hstop,
        chain_refs_cons_none bs h b0 x (rest ++ ys) hstop]
      constructor
      · intro r hr
        rcases List.mem_append.mp hr with hr | hr
        · exact List.mem_append.mpr (Or.inl hr)
        · exact List.mem_append.mpr (Or.inr (ih1 r hr))
      · intro hn
        rw [ih2 hn, List.append_assoc]

theorem mem_segment_refs_first (bs b0 dp sidx a : Nat) (hb0 : b0 < bs) :
    (⟨dp, sidx, a, b0, 0⟩ : slot_ref) ∈ segment_refs bs b0 dp sidx a LP_DIS_B 0 := by
  unfold segment_refs
  refine List.mem_flatMap.mpr ⟨0, by simp [LP_DIS_B], ?_⟩
  unfold bucket_refs
  refine List.mem_map.mpr ⟨0, by simp [slots_num], ?_⟩
  rw [Nat.add_zero, Nat.mod_eq_of_lt hb0]

theorem layer_refs_new_cell (bs b0 dp : Nat) (L : directory) (s0 : Nat) (hb0 : b0 < bs)
    (sidx bk : Nat) (hbk : bk ≠ 0) (hz : L.segments[sidx]? = some 0) :
    ∀ (n s : Nat), (layer_refs bs b0 dp L s0 n s).2 = some sidx →
      (⟨dp, sidx, bk, b0, 0⟩ : slot_ref) ∈
        (layer_refs bs b0 dp { L with segments := L.segments.set sidx bk } s0 n s).1
  | 0, s, h => by simp [layer_refs] at h
  | n + 1, s, h => by
    have hlt : sidx < L.segments.length := getElem?_lt hz
    rcases hL : L.segments[(s0 + s) % 2 ^ L.segs_power]? with _ | a
    · rw [layer_refs_succ_none bs b0 dp L s0 n s hL] at h
      have e : (s0 + s) % 2 ^ L.segs_power = sidx := by simpa using h
      rw [e, hz] at hL
      cases hL
    · by_cases ha : a = 0
      · subst ha
        rw [layer_refs_succ_zero bs b0 dp L s0 n s hL] at h
        have e : (s0 + s) % 2 ^ L.segs_power = sidx := by simpa using h
        have h1 : ({ L with segments := L.segments.set sidx bk } : directory).segments[
            (s0 + s) % 2 ^ ({ L with segments := L.segments.set sidx bk } : directory).segs_power]? =
            some bk := by
          show (L.segments.set sidx bk)[(s0 + s) % 2 ^ L.segs_power]? = some bk
          rw [e, List.getElem?_set_self hlt]
        rw [layer_refs_succ_some bs b0 dp _ s0 n s bk h1 hbk]
        apply List.mem_append.mpr
        left
        show (⟨dp, sidx, bk, b0, 0⟩ : slot_ref) ∈
          segment_refs bs b0 dp ((s0 + s) % 2 ^ L.segs_power) bk LP_DIS_B 0
        rw [e]
        exact mem_segment_refs_first bs b0 dp sidx bk hb0
      · rw [layer_refs_succ_some bs b0 dp L s0 n s a hL ha] at h
        have hne : sidx ≠ (s0 + s) % 2 ^ L.segs_power := by
          intro e
          rw [← e, hz] at hL
          exact ha (by simpa using hL.symm)
        have h1 : ({ L with segments := L.segments.set sidx bk } : directory).segments[
            (s0 + s) % 2 ^ ({ L with segments := L.segments.set sidx bk } : directory).segs_power]? =
            some a := by
          show (L.segments.set sidx bk)[(s0 + s) % 2 ^ L.segs_power]? = some a
          rw [List.getElem?_set_ne hne]
          exact hL
        rw [layer_refs_succ_some bs b0 dp _ s0 n s a h1 ha]
        apply List.mem_append.mpr
        right
        exact layer_refs_new_cell bs b0 dp L s0 hb0 sidx bk hbk hz n (s + 1) h

theorem chain_refs_new_cell (bs h b0 : Nat) (hb0 : b0 < bs) (dp sidx bk : Nat) (L : directory)
    (hbk : bk ≠ 0) (hz : L.segments[sidx]? = some 0) :
    ∀ (ls : List (Nat × directory)), (ls.map Prod.fst).Nodup →
      (∀ x ∈ ls, x.2.segments.length = 2 ^ x.2.segs_power) → (dp, L) ∈ ls →
      (chain_refs bs h b0 ls).2 = some (dp, sidx) →
      (⟨dp, sidx, bk, b0, 0⟩ : slot_ref) ∈
        (chain_refs bs h b0 (set_layer ls dp { L with segments := L.segments.set sidx bk })).1
  | [], _, _, hm, _ => by cases hm
  | x :: rest, hnd, hlen, hm, hs => by
    have hnd1 := hnd
    rw [List.map_cons, List.nodup_cons] at hnd1
    rw [set_layer_cons]
    cases hstop : (layer_refs bs b0 x.1 x.2 (h >>> (hashcode_size - x.2.segs_power)) LP_DIS_S 0).2 with
    | some s =>
      rw [chain_refs_cons_some bs h b0 x rest s hstop] at hs
      have e1 : x.1 = dp := by
        have := congrArg (fun o => o.map Prod.fst) hs
        simpa using this
      have e2 : s = sidx := by
        have := congrArg (fun o => o.map Prod.snd) hs
        simpa using this
      have hx : x = (dp, L) := snd_eq_of_nodup hnd (List.mem_cons_self _ _) hm e1
      subst hx
      subst e2
      rw [if_pos rfl]
      apply mem_chain_refs_head
      exact layer_refs_new_cell bs b0 dp L _ hb0 s bk hbk hz LP_DIS_S 0 hstop
    | none =>
      rw [chain_refs_cons_none bs h b0 x rest hstop] at hs
      obtain ⟨L2, hL2, _⟩ := chain_refs_stop bs h b0 rest dp sidx
        (fun y hy => hlen y (List.mem_cons_of_mem _ hy)) hs
      have hne : x.1 ≠ dp := by
        intro e
        apply hnd1.1
        rw [e]
        exact List.mem_map.mpr ⟨(dp, L2), hL2, rfl⟩
      have hm1 : (dp, L) ∈ rest := by
        rcases List.mem_cons.mp hm with h1 | h1
        · exact absurd (by rw [← h1]) hne
        · exact h1
      rw [if_neg hne, chain_refs_cons_none bs h b0 x _ hstop]
      apply List.mem_append.mpr
      right
      exact chain_refs_new_cell bs h b0 hb0 dp sidx bk L hbk hz rest hnd1.2
        (fun y hy => hlen y (List.mem_cons_of_mem _ hy)) hm1 hs

theorem chain_refs_grown_cell (bs h b0 : Nat) (hb0 : b0 < bs) (hh : h < U64)
    (ls : List (Nat × directory)) (d bk : Nat) (N : directory) (hbk : bk ≠ 0)
    (hp : N.segs_power ≤ 64)
    (hseg : N.segments[h >>> (hashcode_size - N.segs_power)]? = some bk)
    (hstop : (chain_refs bs h b0 ls).2 = none) :
    (⟨d, h >>> (hashcode_size - N.segs_power), bk, b0, 0⟩ : slot_ref) ∈
      (chain_refs bs h b0 (ls ++ [(d, N)])).1 := by
  rw [(chain_refs_append bs h b0 [(d, N)] ls).2 hstop]
  apply List.mem_append.mpr
  right
  apply mem_chain_refs_head
  have hlt : h >>> (hashcode_size - N.segs_power) < 2 ^ N.segs_power := shr_lt_pow hh hp
  have hmod : (h >>> (hashcode_size - N.segs_power) + 0) % 2 ^ N.segs_power =
      h >>> (hashcode_size - N.segs_power) := by
    rw [Nat.add_zero, Nat.mod_eq_of_lt hlt]
  have h1 : N.segments[(h >>> (hashcode_size - N.segs_power) + 0) % 2 ^ N.segs_power]? =
      some bk := by
    rw [hmod]
    exact hseg
  show (⟨d, h >>> (hashcode_size - N.segs_power), bk, b0, 0⟩ : slot_ref) ∈
    (layer_refs bs b0 d N (h >>> (hashcode_size - N.segs_power)) (3 + 1) 0).1
  rw [layer_refs_succ_some bs b0 d N _ 3 0 bk h1 hbk, hmod]
  exact List.mem_append.mpr (Or.inl (mem_segment_refs_first bs b0 d _ bk hb0))

/-! ## Effect of an insert on slots and walks -/

theorem set_layer_walk_mono (bs h b0 : Nat) (ls : List (Nat × directory)) (dp : Nat)
    (L L1 : directory) (hnd : (ls.map Prod.fst).Nodup) (hL : (dp, L) ∈ ls)
    (hp : L1.segs_power = L.segs_power)
    (hseg : ∀ (i a : Nat), L.segments[i]? = some a → a ≠ 0 → L1.segments[i]? = some a) :
    (∀ r ∈ (chain_refs bs h b0 ls).1, r ∈ (chain_refs bs h b0 (set_layer ls dp L1)).1) ∧
    ((chain_refs bs h b0 ls).2 = none →
      chain_refs bs h b0 (set_layer ls dp L1) = chain_refs bs h b0 ls) := by
  apply chain_refs_map_mono bs h b0 (fun x => if x.1 = dp then (dp, L1) else x) ls
  intro x hx
  by_cases hd : x.1 = dp
  · have hxL : x = (dp, L) := snd_eq_of_nodup hnd hx hL hd
    subst hxL
    simp only [if_true]
    exact ⟨trivial, hp, hseg⟩
  · simp only [if_neg hd]
    exact ⟨trivial, trivial, fun i a h _ => h⟩

theorem insert_outcome_walk_mono {K V : Type} [DecidableEq K] (hasher : K → Nat)
    (st : NRHI K V) (ls : List (Nat × directory)) (key : K) (param : K × V) (o : offsets)
    (st1 : NRHI K V) (ls1 : List (Nat × directory)) (w : Nat) (hs : shape st ls)
    (hout : insert_outcome hasher st ls key param o st1 ls1 w) (k2 : K) :
    ∀ r ∈ probe_walk hasher st ls k2, r ∈ probe_walk hasher st1 ls1 k2 := by
  cases hout with
  | hit r hr hm => exact fun r hr => hr
  | empty r hnm hfind => exact fun r hr => hr
  | null dp sidx L hnm hfull hstop hL hz =>
    refine (set_layer_walk_mono st.bucket_size (hash_of hasher k2)
      (bucket_of st.bucket_size (hash_of hasher k2)) ls dp L
      { L with segments := L.segments.set sidx o.buckets } hs.nodup hL rfl ?_).1
    intro i a hi ha
    have hne : sidx ≠ i := by
      intro e
      rw [← e, hz] at hi
      exact ha (by simpa using hi.symm)
    show (L.segments.set sidx o.buckets)[i]? = some a
    rw [List.getElem?_set_ne hne]
    exact hi
  | grow pre L hnm hfull hstop hls hnext hp =>
    intro r hr
    have h1 := (set_layer_walk_mono st.bucket_size (hash_of hasher k2)
      (bucket_of st.bucket_size (hash_of hasher k2)) ls st.top_dir L { L with next := o.dir }
      hs.nodup (mem_of_eq_append_singleton hls) rfl (fun i a h _ => h)).1 r hr
    exact (chain_refs_append st.bucket_size _ _ _ _).1 r h1

theorem key_of_cons {K V : Type} (st st1 : NRHI K V) (off : Nat) (param : K × V)
    (hkv : st1.kv_heap = (off, param) :: st.kv_heap) (hnew : st.kv_heap.lookup off = none)
    (w : Nat) (kv : K × V) (hw : get_address st.kv_heap w = some kv) :
    key_of st1 w = key_of st w := by
  unfold key_of get_address at *
  rw [hkv, lookup_cons_ne]
  intro e
  rw [e, hnew] at hw
  cases hw

theorem key_of_new {K V : Type} (st st1 : NRHI K V) (off t : Nat) (param : K × V)
    (hkv : st1.kv_heap = (off, param) :: st.kv_heap) (ht : t < 2 ^ 16) (ho : off < 2 ^ 48) :
    get_address st1.kv_heap (slot_cont t off) = some param := by
  unfold get_address
  rw [hkv, get_offset_slot_cont ht ho, lookup_cons_self]

/-- What an insert that does not find its key leaves behind. -/
theorem insert_outcome_cell {K V : Type} [DecidableEq K] (hasher : K → Nat)
    (st : NRHI K V) (ls : List (Nat × directory)) (key : K) (param : K × V) (o : offsets)
    (st1 : NRHI K V) (ls1 : List (Nat × directory)) (w : Nat) (hs : shape st ls)
    (hfr : fresh st o) (hout : insert_outcome hasher st ls key param o st1 ls1 w)
    (hnm : ∀ x ∈ probe_walk hasher st ls key,
      ¬ is_match st key (token_of (hash_of hasher key)) (word_at st x)) :
    w = slot_cont (token_of (hash_of hasher key)) o.kv ∧
    st1.kv_heap = (o.kv, param) :: st.kv_heap ∧
    ∃ c ∈ probe_walk hasher st1 ls1 key,
      slot_word st1 c.array c.bucket_idx c.slot_idx = some w ∧
      ∀ (a j i w0 : Nat), ¬ (a = c.array ∧ j = c.bucket_idx ∧ i = c.slot_idx) →
        slot_word st1 a j i = some w0 → w0 ≠ 0 → slot_word st a j i = some w0 := by
  obtain ⟨hb1, hb2⟩ := shape_bsize hs
  have hb0 := bucket_of_lt (h := hash_of hasher key) hb1 hb2
  cases hout with
  | hit r hr hm => exact absurd hm (hnm r hr)
  | empty r _ hfind =>
    have hr := List.mem_of_find?_eq_some hfind
    obtain ⟨L, arr, b, _, _, _, harr, hb, hsl⟩ := valid_ref_slot hs
      (mem_chain_refs st _ _ hb1 ls r hr)
    refine ⟨rfl, rfl, r, hr, ?_, ?_⟩
    · rw [slot_word_publish st _ _ r _ arr b harr hb hsl, if_pos ⟨rfl, rfl, rfl⟩]
    · intro a j i w0 hne hw _
      rw [slot_word_publish st _ _ r _ arr b harr hb hsl, if_neg hne] at hw
      exact hw
  | null dp sidx L _ hfull hstop hL hz =>
    refine ⟨rfl, rfl, ⟨dp, sidx, o.buckets, bucket_of st.bucket_size (hash_of hasher key), 0⟩,
      ?_, ?_, ?_⟩
    · exact chain_refs_new_cell st.bucket_size _ _ hb0 dp sidx o.buckets L hfr.buckets_ne hz ls
        hs.nodup hs.segs_len hL hstop
    · rw [slot_word_publish_fresh (materialize st dp L sidx o.buckets) param o.kv dp sidx
        o.buckets _ _ hb0 (lookup_cons_self _ _ _), if_pos ⟨rfl, rfl, rfl⟩]
    · intro a j i w0 hne hw hw0
      rw [slot_word_publish_fresh (materialize st dp L sidx o.buckets) param o.kv dp sidx
        o.buckets _ _ hb0 (lookup_cons_self _ _ _), if_neg hne] at hw
      by_cases ha : a = o.buckets
      · rw [ha] at hw
        exact absurd (slot_word_materialize_new _ _ _ _ _ _ _ _ hw) hw0
      · rw [slot_word_materialize _ _ _ _ _ _ _ _ ha] at hw
        exact hw
  | grow pre L _ hfull hstop hls hnext hp =>
    have hstop1 : (chain_refs st.bucket_size (hash_of hasher key)
        (bucket_of st.bucket_size (hash_of hasher key))
        (set_layer ls st.top_dir { L with next := o.dir })).2 = none := by
      rw [(set_layer_walk_mono st.bucket_size (hash_of hasher key)
        (bucket_of st.bucket_size (hash_of hasher key)) ls st.top_dir L { L with next := o.dir }
        hs.nodup (mem_of_eq_append_singleton hls) rfl (fun i a h _ => h)).2 hstop]
      exact hstop
    have hidx : hash_of hasher key >>> (hashcode_size - (L.segs_power + EXPO)) <
        2 ^ (L.segs_power + EXPO) := shr_lt_pow (hash_of_lt hasher key) (by omega)
    refine ⟨rfl, rfl,
      ⟨o.dir, hash_of hasher key >>> (hashcode_size - (L.segs_power + EXPO)), o.buckets,
        bucket_of st.bucket_size (hash_of hasher key), 0⟩, ?_, ?_, ?_⟩
    · refine chain_refs_grown_cell st.bucket_size (hash_of hasher key) _ hb0
        (hash_of_lt hasher key) _ o.dir o.buckets
        { next_layer st.top_dir L with
          segments := (next_layer st.top_dir L).segments.set
            (hash_of hasher key >>> (hashcode_size - (L.segs_power + EXPO))) o.buckets }
        hfr.buckets_ne (by show L.segs_power + EXPO ≤ 64; omega) ?_ hstop1
      show ((List.replicate (2 ^ (L.segs_power + EXPO)) 0).set
        (hash_of hasher key >>> (hashcode_size - (L.segs_power + EXPO))) o.buckets)[
          hash_of hasher key >>> (hashcode_size - (L.segs_power + EXPO))]? = some o.buckets
      rw [List.getElem?_set_self (by rw [List.length_replicate]; exact hidx)]
    · rw [slot_word_publish_fresh
        (materialize (extend st st.top_dir L o.dir) o.dir (next_layer st.top_dir L)
          (hash_of hasher key >>> (hashcode_size - (L.segs_power + EXPO))) o.buckets)
        param o.kv o.dir _ o.buckets _ _ hb0 (lookup_cons_self _ _ _), if_pos ⟨rfl, rfl, rfl⟩]
    · intro a j i w0 hne hw hw0
      rw [slot_word_publish_fresh
        (materialize (extend st st.top_dir L o.dir) o.dir (next_layer st.top_dir L)
          (hash_of hasher key >>> (hashcode_size - (L.segs_power + EXPO))) o.buckets)
        param o.kv o.dir _ o.buckets _ _ hb0 (lookup_cons_self _ _ _), if_neg hne] at hw
      by_cases ha : a = o.buckets
      · rw [ha] at hw
        exact absurd (slot_word_materialize_new _ _ _ _ _ _ _ _ hw) hw0
      · rw [slot_word_materialize _ _ _ _ _ _ _ _ ha, slot_word_extend] at hw
        exact hw

/-! ## The invariant of sequential inserts -/

theorem insert_outcome_hit_or {K V : Type} [DecidableEq K] (hasher : K → Nat)
    (st : NRHI K V) (ls : List (Nat × directory)) (key : K) (param : K × V) (o : offsets)
    (st1 : NRHI K V) (ls1 : List (Nat × directory)) (w : Nat)
    (hout : insert_outcome hasher st ls key param o st1 ls1 w) :
    (st1 = st ∧ ls1 = ls ∧ ∃ r ∈ probe_walk hasher st ls key,
      is_match st key (token_of (hash_of hasher key)) (word_at st r) ∧ w = word_at st r) ∨
    (∀ x ∈ probe_walk hasher st ls key,
      ¬ is_match st key (token_of (hash_of hasher key)) (word_at st x)) := by
  cases hout with
  | hit r hr hm => exact Or.inl ⟨rfl, rfl, r, hr, hm, rfl⟩
  | empty r hnm hfind => exact Or.inr hnm
  | null dp sidx L hnm hfull hstop hL hz => exact Or.inr hnm
  | grow pre L hnm hfull hstop hls hnext hp => exact Or.inr hnm

theorem placed_key_on_walk {K V : Type} [DecidableEq K] (hasher : K → Nat)
    (st : NRHI K V) (ls : List (Nat × directory)) (hp : placed hasher st ls) (key : K)
    (a j i w : Nat) (hw : slot_word st a j i = some w) (hne : w ≠ 0)
    (hk : key_of st w = some key) :
    ∃ r ∈ probe_walk hasher st ls key, r.array = a ∧ r.bucket_idx = j ∧ r.slot_idx = i ∧
      word_at st r = w ∧ is_match st key (token_of (hash_of hasher key)) (word_at st r) := by
  obtain ⟨k, hk1, htok, r, hr, h1, h2, h3⟩ := hp a j i w hw hne
  have hkk : k = key := by
    rw [hk1] at hk
    exact Option.some.inj hk
  subst hkk
  have hwr : word_at st r = w := by
    apply word_at_of_slot_word
    rw [h1, h2, h3]
    exact hw
  exact ⟨r, hr, h1, h2, h3, hwr, by rw [hwr]; exact ⟨hne, htok, hk1⟩⟩

theorem inv_step {K V : Type} [DecidableEq K] (hasher : K → Nat)
    (st : NRHI K V) (ls : List (Nat × directory)) (param : K × V) (o : offsets)
    (st1 : NRHI K V) (ls1 : List (Nat × directory)) (w : Nat) (hi : inv hasher st ls)
    (hfr : fresh st o) (hout : insert_outcome hasher st ls param.1 param o st1 ls1 w) :
    inv hasher st1 ls1 := by
  have hs1 := insert_outcome_shape hasher st ls param.1 param o st1 ls1 w hi.shp hfr hout
  rcases insert_outcome_hit_or hasher st ls param.1 param o st1 ls1 w hout with
    ⟨h1, h2, _⟩ | hnm
  · rw [h1, h2]
    exact hi
  have ht := token_of_lt (hash_of hasher param.1)
  obtain ⟨hw, hkv, c, hc, hcw, hold⟩ :=
    insert_outcome_cell hasher st ls param.1 param o st1 ls1 w hi.shp hfr hout hnm
  have hkey : key_of st1 w = some param.1 := by
    unfold key_of
    rw [hw, key_of_new st st1 o.kv _ param hkv ht hfr.kv_lt]
    rfl
  have hkeep : ∀ (a j i w0 : Nat), slot_word st a j i = some w0 → w0 ≠ 0 →
      key_of st1 w0 = key_of st w0 := by
    intro a j i w0 h0 hne
    obtain ⟨kv, hkv0⟩ := hi.shp.records a j i w0 h0 hne
    exact key_of_cons st st1 o.kv param hkv hfr.kv_new w0 kv hkv0
  have hclash : ∀ (a j i w0 : Nat), slot_word st a j i = some w0 → w0 ≠ 0 →
      key_of st1 w0 = some param.1 → False := by
    intro a j i w0 h0 hne hk
    rw [hkeep a j i w0 h0 hne] at hk
    obtain ⟨r, hr, _, _, _, _, hm⟩ :=
      placed_key_on_walk hasher st ls hi.plc param.1 a j i w0 h0 hne hk
    exact hnm r hr hm
  refine ⟨hs1, ?_, ?_⟩
  · intro a j i w0 h0 hne
    by_cases hcell : a = c.array ∧ j = c.bucket_idx ∧ i = c.slot_idx
    · obtain ⟨rfl, rfl, rfl⟩ := hcell
      rw [hcw] at h0
      have e : w = w0 := Option.some.inj h0
      subst e
      refine ⟨param.1, hkey, ?_, c, hc, rfl, rfl, rfl⟩
      rw [hw]
      exact slot_token_slot_cont ht hfr.kv_lt
    · have hsw := hold a j i w0 hcell h0 hne
      obtain ⟨k, hk, htok, r, hr, hra⟩ := hi.plc a j i w0 hsw hne
      refine ⟨k, ?_, htok, r, ?_, hra⟩
      · rw [hkeep a j i w0 hsw hne]
        exact hk
      · exact insert_outcome_walk_mono hasher st ls param.1 param o st1 ls1 w hi.shp hout k r hr
  · intro a j i w0 a1 j1 i1 w1 k h0 hne0 hk0 h1 hne1 hk1
    by_cases c0 : a = c.array ∧ j = c.bucket_idx ∧ i = c.slot_idx
    · by_cases c1 : a1 = c.array ∧ j1 = c.bucket_idx ∧ i1 = c.slot_idx
      · exact ⟨c0.1.trans c1.1.symm, c0.2.1.trans c1.2.1.symm, c0.2.2.trans c1.2.2.symm⟩
      · exfalso
        obtain ⟨rfl, rfl, rfl⟩ := c0
        rw [hcw] at h0
        have e : w = w0 := Option.some.inj h0
        subst e
        rw [hkey] at hk0
        have ek : param.1 = k := Option.some.inj hk0
        rw [← ek] at hk1
        exact hclash a1 j1 i1 w1 (hold a1 j1 i1 w1 c1 h1 hne1) hne1 hk1
    · by_cases c1 : a1 = c.array ∧ j1 = c.bucket_idx ∧ i1 = c.slot_idx
      · exfalso
        obtain ⟨rfl, rfl, rfl⟩ := c1
        rw [hcw] at h1
        have e : w = w1 := Option.some.inj h1
        subst e
        rw [hkey] at hk1
        have ek : param.1 = k := Option.some.inj hk1
        rw [← ek] at hk0
        exact hclash a j i w0 (hold a j i w0 c0 h0 hne0) hne0 hk0
      · have s0 := hold a j i w0 c0 h0 hne0
        have s1 := hold a1 j1 i1 w1 c1 h1 hne1
        rw [hkeep a j i w0 s0 hne0] at hk0
        rw [hkeep a1 j1 i1 w1 s1 hne1] at hk1
        exact hi.uniq a j i w0 a1 j1 i1 w1 k s0 hne0 hk0 s1 hne1 hk1

/-! ## Fuel -/

theorem probe_layers_fuel_mono {K V : Type} [DecidableEq K] (st : NRHI K V) (key : K)
    (h token b0 : Nat) :
    ∀ (fuel : Nat) (l : locals), probe_layers st key h token b0 fuel l ≠ Ctl.fault →
      ∀ k, probe_layers st key h token b0 (fuel + k) l = probe_layers st key h token b0 fuel l
  | 0, l, hne, _ => absurd (by simp [probe_layers]) hne
  | f + 1, l, hne, k => by
    have e : f + 1 + k = (f + k) + 1 := by omega
    rw [e]
    by_cases hdp : l.dp = 0
    · simp only [probe_layers, hdp, if_true]
    · cases hget : get_address st.dir_heap l.dp with
      | none =>
        exfalso
        apply hne
        simp only [probe_layers, hdp, if_false, hget]
      | some L =>
        cases h1 : shl64 1 L.segs_power with
        | none =>
          exfalso
          apply hne
          simp only [probe_layers, hdp, if_false, hget, h1]
        | some segs =>
          cases h2 : shr64 h (sub64 hashcode_size L.segs_power) with
          | none =>
            exfalso
            apply hne
            simp only [probe_layers, hdp, if_false, hget, h1, h2]
          | some s0 =>
            rw [probe_layers_succ st key h token b0 f l L segs s0 hdp hget h1 h2] at hne ⊢
            rw [probe_layers_succ st key h token b0 (f + k) l L segs s0 hdp hget h1 h2]
            cases hloop : for_loop (probe_segment st key token L segs s0 b0) LP_DIS_S 0
                { l with effective_dp := l.dp } with
            | cont l2 =>
              rw [hloop] at hne
              exact probe_layers_fuel_mono st key h token b0 f _ hne k
            | out l2 => rfl
            | ret w => rfl
            | fault => rfl

theorem insert_pass_fuel_mono {K V : Type} [DecidableEq K] (hasher : K → Nat) (fuel : Nat)
    (st : NRHI K V) (key : K) (param : K × V) (res : Option accessor) (slot0 : Nat)
    (o : offsets) (hne : insert_pass hasher fuel st key param res slot0 o ≠ attempt.fault)
    (k : Nat) :
    insert_pass hasher (fuel + k) st key param res slot0 o =
      insert_pass hasher fuel st key param res slot0 o := by
  rw [insert_pass_eq] at hne
  rw [insert_pass_eq, insert_pass_eq, probe_layers_fuel_mono]
  intro hf
  rw [hf] at hne
  exact hne rfl

/-- A sequential insert that returns left the state in one of the four outcomes. -/
theorem generic_insert_outcome {K V : Type} [DecidableEq K] (hasher : K → Nat)
    (st : NRHI K V) (ls : List (Nat × directory)) (key : K) (param : K × V)
    (res : Option accessor) (fuel : Nat) (al : Nat → offsets) (hs : shape st ls)
    (hfr : fresh st (al 0)) (r : Bool × NRHI K V × Option accessor)
    (hr : generic_insert hasher fuel al st key param res = some r) :
    ∃ ls1 w, insert_outcome hasher st ls key param (al 0) r.2.1 ls1 w ∧ r.1 = true ∧
      r.2.2 = res.map (fun _ => { kv_p := w, pool_uuid := st.my_pool_uuid }) := by
  cases fuel with
  | zero => simp [generic_insert, generic_insert_loop] at hr
  | succ f =>
    have hne : insert_pass hasher (f + 1) st key param res 0 (al 0) ≠ attempt.fault := by
      intro hfault
      unfold generic_insert generic_insert_loop at hr
      rw [hfault] at hr
      cases hr
    have hmono := insert_pass_fuel_mono hasher (f + 1) st key param res 0 (al 0) hne
      (ls.length + 1)
    rcases insert_pass_outcome hasher st ls key param res (f + 1 + (ls.length + 1)) (al 0) hs
      hfr (by omega) with ⟨st1, ls1, w, hpass, hout⟩ | ⟨hfault, _⟩
    · rw [hmono] at hpass
      have hgi := generic_insert_of_pass hasher (f + 1) al st key param res true st1 _
        (by omega) hpass
      rw [hgi] at hr
      have e := Option.some.inj hr
      subst e
      exact ⟨ls1, w, hout, rfl, rfl⟩
    · rw [hmono] at hfault
      exact absurd hfault hne

/-! ## States the constructor builds -/

theorem loop_bound_top : loop_bound (2 ^ 63) = 0 := by
  unfold loop_bound to_ptrdiff
  rw [if_neg (Nat.lt_irrefl _)]
  norm_num

theorem shape_unmade {K V : Type} (uuid dir_off bs hp sp : Nat) (segs : List Nat)
    (h1 : 1 ≤ hp) (h2 : hp ≤ 63) (hbs : bs = 2 ^ hp) (h3 : 1 ≤ sp) (h4 : sp ≤ 63)
    (hne : dir_off ≠ 0) (hlt : dir_off < 2 ^ 48) (hlen : segs.length = 2 ^ sp)
    (hz : ∀ a ∈ segs, a = 0) :
    shape
      ({ my_pool_uuid := uuid, bucket_size := bs, root_dir := dir_off, top_dir := dir_off,
         dirs := [dir_off],
         dir_heap := [(dir_off, { segs_power := sp, segments := segs, prev := 0, next := 0 })],
         bucket_heap := [], kv_heap := [] } : NRHI K V)
      [(dir_off, { segs_power := sp, segments := segs, prev := 0, next := 0 })] where
  chain := by
    refine ⟨hne, rfl, ?_, rfl⟩
    simp [get_address, get_offset_of_lt hlt]
  root_ne := hne
  top := ⟨[], _, rfl⟩
  bsize := ⟨hp, h1, h2, hbs⟩
  dp_lt := by
    intro e he
    rw [List.mem_singleton.mp he]
    exact hlt
  nodup := by simp
  power := by
    intro e he
    rw [List.mem_singleton.mp he]
    exact ⟨h3, h4⟩
  segs_len := by
    intro e he
    rw [List.mem_singleton.mp he]
    exact hlen
  segs := by
    intro e he a ha hane
    rw [List.mem_singleton.mp he] at ha
    exact absurd (hz a ha) hane
  arrays := by
    intro a arr harr
    simp at harr
  records := by
    intro a j i w hw _
    simp [slot_word] at hw

theorem NRHI_new_slots {K V : Type} (uuid dir_off : Nat) (bucket_off : Nat → Nat)
    (hashpower segspower : Nat) (st : NRHI K V)
    (hnew : NRHI_new uuid dir_off bucket_off hashpower segspower = some st) :
    ∀ (a j i w : Nat), slot_word st a j i = some w → w = 0 := by
  intro a j i w hw
  unfold NRHI_new at hnew
  by_cases h0 : hashpower = 0
  · rw [if_pos h0] at hnew
    cases hnew
  rw [if_neg h0] at hnew
  cases hb : shl64 1 hashpower with
  | none => simp [hb] at hnew
  | some bs =>
    cases hsg : shl64 1 segspower with
    | none => simp [hb, hsg] at hnew
    | some segs =>
      simp only [hb, hsg, Option.some.injEq] at hnew
      subst hnew
      unfold slot_word at hw
      simp only [Option.bind_eq_some] at hw
      obtain ⟨arr, harr, b, hb1, hw1⟩ := hw
      have := lookup_map_const bucket_off (zero_buckets bs) _ a arr harr
      subst this
      exact zero_buckets_slot hb1 hw1

theorem NRHI_new_powers {K V : Type} (uuid dir_off : Nat) (bucket_off : Nat → Nat)
    (hashpower segspower : Nat) (st : NRHI K V)
    (hnew : NRHI_new uuid dir_off bucket_off hashpower segspower = some st) :
    1 ≤ hashpower ∧ hashpower ≤ 63 ∧ segspower ≤ 63 := by
  unfold NRHI_new at hnew
  by_cases h0 : hashpower = 0
  · rw [if_pos h0] at hnew
    cases hnew
  by_cases h1 : hashpower < 64
  · by_cases h2 : segspower < 64
    · omega
    · simp [shl64, h2] at hnew
  · simp [shl64, h1] at hnew

/-! ## Reachable states satisfy the invariant -/

theorem probe_layers_power_zero {K V : Type} [DecidableEq K] (st : NRHI K V) (key : K)
    (h token b0 fuel : Nat) (l : locals) (L : directory)
    (hget : get_address st.dir_heap l.dp = some L) (hsp : L.segs_power = 0) :
    probe_layers st key h token b0 fuel l = Ctl.fault ∨ l.dp = 0 := by
  by_cases hdp : l.dp = 0
  · exact Or.inr hdp
  left
  cases fuel with
  | zero => simp [probe_layers]
  | succ f =>
    have h2 : shr64 h (sub64 hashcode_size L.segs_power) = none := by
      rw [hsp]
      have e : sub64 hashcode_size 0 = 64 := by
        unfold sub64 hashcode_size U64
        norm_num
      rw [e]
      unfold shr64
      rw [if_neg (by omega)]
    have h1 : shl64 1 L.segs_power = some (2 ^ L.segs_power) := shl64_one (by omega)
    simp only [probe_layers, hdp, if_false, hget, h1, h2]

theorem generic_insert_power_zero {K V : Type} [DecidableEq K] (hasher : K → Nat)
    (st : NRHI K V) (L : directory) (hne : st.root_dir ≠ 0)
    (hget : get_address st.dir_heap st.root_dir = some L) (hsp : L.segs_power = 0)
    (fuel : Nat) (al : Nat → offsets) (key : K) (param : K × V) (res : Option accessor) :
    generic_insert hasher fuel al st key param res = none := by
  cases fuel with
  | zero => simp [generic_insert, generic_insert_loop]
  | succ f =>
    have hp : insert_pass hasher (f + 1) st key param res 0 (al 0) = attempt.fault := by
      rw [insert_pass_eq]
      rcases probe_layers_power_zero st key (hash_of hasher key) (token_of (hash_of hasher key))
        (bucket_of st.bucket_size (hash_of hasher key)) (f + 1)
        (locals_of (bucket_of st.bucket_size (hash_of hasher key)) 0 st.root_dir 0 (-1) none) L
        hget hsp with h | h
      · rw [h]
      · exact absurd h hne
    unfold generic_insert generic_insert_loop
    rw [hp]

theorem inv_of_empty {K V : Type} (hasher : K → Nat) (st : NRHI K V)
    (ls : List (Nat × directory)) (hs : shape st ls)
    (hz : ∀ (a j i w : Nat), slot_word st a j i = some w → w = 0) : inv hasher st ls :=
  ⟨hs, fun a j i w hw hne => absurd (hz a j i w hw) hne,
    fun a j i w _ _ _ _ _ hw hne _ _ _ _ => absurd (hz a j i w hw) hne⟩

theorem NRHI_new_inv {K V : Type} [DecidableEq K] (hasher : K → Nat) (uuid dir_off : Nat)
    (bucket_off : Nat → Nat) (hashpower segspower : Nat) (st : NRHI K V)
    (hal : fresh_new dir_off bucket_off (2 ^ segspower))
    (hnew : NRHI_new uuid dir_off bucket_off hashpower segspower = some st) :
    (∃ ls, inv hasher st ls) ∨
      ((∀ (a j i w : Nat), slot_word st a j i = some w → w = 0) ∧
        ∀ fuel al key param res, generic_insert hasher fuel al st key param res = none) := by
  have hz := NRHI_new_slots uuid dir_off bucket_off hashpower segspower st hnew
  obtain ⟨h1, h2, h3⟩ := NRHI_new_powers uuid dir_off bucket_off hashpower segspower st hnew
  by_cases h62 : segspower ≤ 62
  · rw [NRHI_new_eq uuid dir_off bucket_off hashpower segspower h1 h2 h62] at hnew
    have e := Option.some.inj hnew
    subst e
    by_cases h0 : segspower = 0
    · right
      refine ⟨hz, ?_⟩
      intro fuel al key param res
      refine generic_insert_power_zero hasher _ (new_root bucket_off segspower) hal.dir_ne ?_ h0
        fuel al key param res
      exact (new_state_chain uuid dir_off bucket_off hashpower segspower hal.dir_ne
        hal.dir_lt).2.2.1
    · left
      exact ⟨_, inv_of_empty hasher _ _
        (shape_new_state uuid dir_off bucket_off hashpower segspower h1 h2 (by omega) h62 hal)
        hz⟩
  · have e63 : segspower = 63 := by omega
    subst e63
    left
    unfold NRHI_new at hnew
    rw [if_neg (by omega), shl64_one (show hashpower < 64 by omega),
      shl64_one (show 63 < 64 by omega)] at hnew
    simp only [loop_bound_top, List.range_zero, List.map_nil, Option.some.injEq] at hnew
    subst hnew
    refine ⟨_, inv_of_empty hasher _ _
      (shape_unmade uuid dir_off (2 ^ hashpower) hashpower 63 _ h1 h2 rfl (by omega) (by omega)
        hal.dir_ne hal.dir_lt ?_ ?_) ?_⟩
    · rw [List.length_map, List.length_range]
    · intro a ha
      obtain ⟨i, _, hi⟩ := List.mem_map.mp ha
      rw [if_neg (Nat.not_lt_zero i)] at hi
      exact hi.symm
    · intro a j i w hw
      simp [slot_word] at hw

theorem reachable_inv {K V : Type} [DecidableEq K] (hasher : K → Nat) (st : NRHI K V)
    (hr : reachable hasher st) :
    (∃ ls, inv hasher st ls) ∨
      ((∀ (a j i w : Nat), slot_word st a j i = some w → w = 0) ∧
        ∀ fuel al key param res, generic_insert hasher fuel al st key param res = none) := by
  induction hr with
  | init uuid dir_off bucket_off hashpower segspower st hal hnew =>
    exact NRHI_new_inv hasher uuid dir_off bucket_off hashpower segspower st hal hnew
  | step st fuel al value res r _ hfr hgi ih =>
    rcases ih with ⟨ls, hi⟩ | ⟨_, hdead⟩
    · obtain ⟨ls1, w, hout, _, _⟩ :=
        generic_insert_outcome hasher st ls value.1 value res fuel al hi.shp hfr r hgi
      exact Or.inl ⟨ls1, inv_step hasher st ls value (al 0) r.2.1 ls1 w hi hfr hout⟩
    · rw [hdead] at hgi
      cases hgi

theorem is_chain_unique (heap : List (Nat × directory)) :
    ∀ (l1 l2 : List (Nat × directory)) (dp : Nat), is_chain heap dp l1 → is_chain heap dp l2 →
      l1 = l2
  | [], [], _, _, _ => rfl
  | [], y :: _, dp, h1, h2 => absurd h1 h2.1
  | x :: _, [], dp, h1, h2 => absurd h2 h1.1
  | x :: r1, y :: r2, dp, h1, h2 => by
    obtain ⟨_, hx, hgx, hrx⟩ := h1
    obtain ⟨_, hy, hgy, hry⟩ := h2
    have e2 : x.2 = y.2 := by
      rw [hgx] at hgy
      exact Option.some.inj hgy
    have e : x = y := Prod.ext (hx.trans hy.symm) e2
    subst e
    rw [is_chain_unique heap r1 r2 _ hrx hry]

theorem reachable_inv_of_shape {K V : Type} [DecidableEq K] (hasher : K → Nat)
    (st : NRHI K V) (ls : List (Nat × directory)) (hr : reachable hasher st)
    (hwf : well_formed st ls) : inv hasher st ls := by
  rcases reachable_inv hasher st hr with ⟨ls1, hi⟩ | ⟨hz, hdead⟩
  · rw [is_chain_unique _ ls ls1 _ hwf.shp.chain hi.shp.chain]
    exact hi
  · exact inv_of_empty hasher st ls hwf.shp hz

/-! ## One record per key -/

theorem ex_run_reachable : ∀ (n : Nat) (st : NRHI Nat Nat), ex_run n = some st →
    reachable id st
  | 0, st, h => by
    have e : ex_new = st := Option.some.inj h
    subst e
    exact reachable.init 7 64 ex_bucket_off 1 1 ex_new ex_fresh_new (by decide)
  | n + 1, st, h => by
    unfold ex_run at h
    cases h0 : ex_run n with
    | none => simp [h0] at h
    | some s0 =>
      rw [h0, Option.some_bind] at h
      by_cases hfc : fresh_check s0 (ex_alloc_seq n 0)
      · rw [if_pos hfc] at h
        cases hgi : generic_insert id 2 (ex_alloc_seq n) s0 n (n, n + 100) none with
        | none => simp [hgi] at h
        | some r =>
          rw [hgi, Option.map_some'] at h
          have e : r.2.1 = st := Option.some.inj h
          subst e
          exact reachable.step s0 2 (ex_alloc_seq n) (n, n + 100) none r
            (ex_run_reachable n s0 h0) (fresh_of_check hfc) hgi
      · rw [if_neg hfc] at h
        cases h

set_option maxRecDepth 1000000 in
theorem ex_grown_reachable : reachable id ex_grown :=
  ex_run_reachable 33 ex_grown (by decide)

theorem ex_one_reachable : reachable id ex_one :=
  reachable.step ex_new 2 ex_alloc1 (42, 1) none (true, ex_one, none)
    (ex_run_reachable 0 ex_new rfl) ex_new_fresh (by decide)

theorem absent_of_check {K V : Type} {st : NRHI K V} {key : K} (h : absent_check st key) :
    absent st key := by
  intro a j i w hw
  unfold slot_word at hw
  simp only [Option.bind_eq_some] at hw
  obtain ⟨arr, harr, b, hb, hw1⟩ := hw
  exact h (a, arr) (mem_of_lookup _ _ _ harr) b (List.getElem?_mem hb) w (List.getElem?_mem hw1)

theorem slot_word_of_word_at {K V : Type} {st : NRHI K V} {r : slot_ref}
    (h : word_at st r ≠ 0) :
    slot_word st r.array r.bucket_idx r.slot_idx = some (word_at st r) := by
  unfold word_at ref_word at *
  cases hw : slot_word st r.array r.bucket_idx r.slot_idx with
  | none => rw [hw] at h; exact absurd rfl h
  | some w => rfl

theorem no_match_of_absent {K V : Type} {st : NRHI K V} {key : K} (h : absent st key)
    (token : Nat) (r : slot_ref) : ¬ is_match st key token (word_at st r) := by
  intro hm
  exact h _ _ _ _ (slot_word_of_word_at hm.1) ⟨hm.1, hm.2.2⟩

theorem insert_outcome_length {K V : Type} [DecidableEq K] (hasher : K → Nat)
    (st : NRHI K V) (ls : List (Nat × directory)) (key : K) (param : K × V) (o : offsets)
    (st1 : NRHI K V) (ls1 : List (Nat × directory)) (w : Nat)
    (hout : insert_outcome hasher st ls key param o st1 ls1 w) :
    ls1.length ≤ ls.length + 1 := by
  cases hout with
  | hit r hr hm => omega
  | empty r hnm hfind => omega
  | null dp sidx L hnm hfull hstop hL hz => rw [set_layer_length]; omega
  | grow pre L hnm hfull hstop hls hnext hp => simp [set_layer_length]

/-- C5: in every state reachable from a newly created index by sequential inserts
(among them inserts that materialize a segment or extend the directory chain), no two
non-empty slots reference KV records with equal keys. -/
theorem reachable_no_duplicate_keys {K V : Type} [DecidableEq K] (hasher : K → Nat)
    (st : NRHI K V) (hr : reachable hasher st) : no_duplicate_keys st := by
  rcases reachable_inv hasher st hr with ⟨ls, hi⟩ | ⟨hz, _⟩
  · exact hi.uniq
  · intro a j i w _ _ _ _ _ hw hne
    exact absurd (hz a j i w hw) hne

theorem reachable_no_duplicate_keys_witness :
    reachable id ex_grown ∧ no_duplicate_keys ex_grown :=
  ⟨ex_grown_reachable, reachable_no_duplicate_keys id ex_grown ex_grown_reachable⟩

/-- C4 (as amended): in a well-formed state reached by sequential inserts that holds no
record with key `k`, `insert((k,v))` allocates exactly one KV record, `(k,v)`, and the
`insert((k,v2), acc)` that follows it allocates nothing and leaves the whole state (every
slot, segment pointer, layer, top and the records) unchanged, and binds `acc` to the
record `(k,v)` stored by the first call. -/
theorem repeated_insert_allocates_once {K V : Type} [DecidableEq K] (hasher : K → Nat)
    (st : NRHI K V) (ls : List (Nat × directory)) (k : K) (v v2 : V) (res1 res2 : accessor)
    (fuel1 fuel2 : Nat) (al1 al2 : Nat → offsets)
    (hr : reachable hasher st) (hwf : well_formed st ls) (hfr : fresh st (al1 0))
    (habs : absent st k) (hf1 : ls.length < fuel1) (hf2 : ls.length + 1 < fuel2) :
    ∃ st1 acc,
      insert hasher fuel1 al1 st (k, v) res1 = some (true, st1, some acc) ∧
      st1.kv_heap = ((al1 0).kv, (k, v)) :: st.kv_heap ∧
      insert hasher fuel2 al2 st1 (k, v2) res2 = some (true, st1, some acc) ∧
      accessor.deref st1 acc = some (k, v) := by
  have hi := reachable_inv_of_shape hasher st ls hr hwf
  obtain ⟨st1, ls1, w, hgi, hout⟩ := insert_outcome_of_well_formed hasher st ls k (k, v)
    (some res1) fuel1 al1 hwf hfr hf1
  have hnm : ∀ x ∈ probe_walk hasher st ls k,
      ¬ is_match st k (token_of (hash_of hasher k)) (word_at st x) :=
    fun x _ => no_match_of_absent habs _ x
  have ht := token_of_lt (hash_of hasher k)
  obtain ⟨hw, hkv, c, hc, hcw, _⟩ :=
    insert_outcome_cell hasher st ls k (k, v) (al1 0) st1 ls1 w hi.shp hfr hout hnm
  have hi1 : inv hasher st1 ls1 := inv_step hasher st ls (k, v) (al1 0) st1 ls1 w hi hfr hout
  have hlen := insert_outcome_length hasher st ls k (k, v) (al1 0) st1 ls1 w hout
  have huuid := (insert_outcome_root hasher st ls k (k, v) (al1 0) st1 ls1 w hout).2.2
  have hrec : get_address st1.kv_heap w = some (k, v) := by
    rw [hw]
    exact key_of_new st st1 (al1 0).kv _ (k, v) hkv ht hfr.kv_lt
  have hkey : key_of st1 w = some k := by
    unfold key_of
    rw [hrec]
    rfl
  have hwne : w ≠ 0 := by
    rw [hw]
    exact slot_cont_ne_zero ht hfr.kv_lt hfr.kv_ne
  have htok : slot_token w = token_of (hash_of hasher k) := by
    rw [hw]
    exact slot_token_slot_cont ht hfr.kv_lt
  have hcword : word_at st1 c = w := word_at_of_slot_word hcw
  have hsc : scan st1 k (token_of (hash_of hasher k)) (probe_walk hasher st1 ls1 k) none =
      scan_result.hit w := by
    rw [scan_eq]
    cases hfind : (probe_walk hasher st1 ls1 k).find?
        (fun r => decide (is_match st1 k (token_of (hash_of hasher k)) (word_at st1 r))) with
    | none =>
      exfalso
      have hall := List.find?_eq_none.mp hfind c hc
      apply hall
      rw [hcword]
      exact decide_eq_true ⟨hwne, htok, hkey⟩
    | some r =>
      have hm : is_match st1 k (token_of (hash_of hasher k)) (word_at st1 r) := by
        simpa using List.find?_some hfind
      have hsame := hi1.uniq _ _ _ _ _ _ _ _ k (slot_word_of_word_at hm.1) hm.1 hm.2.2 hcw hwne
        hkey
      have hwr : word_at st1 r = w := by
        apply word_at_of_slot_word
        rw [hsame.1, hsame.2.1, hsame.2.2]
        exact hcw
      show scan_result.hit (word_at st1 r) = scan_result.hit w
      rw [hwr]
  have hpass := insert_pass_hit hasher st1 ls1 k (k, v2) (some res2) 0 fuel2 (al2 0) hi1.shp
    (by omega) w hsc
  have hgi2 := generic_insert_of_pass hasher fuel2 al2 st1 k (k, v2) (some res2) true st1 _
    (by omega) hpass
  refine ⟨st1, { kv_p := w, pool_uuid := st.my_pool_uuid }, hgi, hkv, ?_, hrec⟩
  unfold insert
  rw [hgi2, huuid]
  rfl

set_option maxRecDepth 100000 in
theorem repeated_insert_allocates_once_witness :
    ∃ st1 acc,
      insert id 3 ex_alloc4 ex_grown (33, 133) ⟨0, 0⟩ = some (true, st1, some acc) ∧
      st1.kv_heap = ((ex_alloc4 0).kv, (33, 133)) :: ex_grown.kv_heap ∧
      insert id 4 ex_alloc2 st1 (33, 233) ⟨0, 0⟩ = some (true, st1, some acc) ∧
      accessor.deref st1 acc = some (33, 133) :=
  repeated_insert_allocates_once id ex_grown [(64, ex_root_linked), (1544, ex_second)] 33 133
    233 ⟨0, 0⟩ ⟨0, 0⟩ 3 4 ex_alloc4 ex_alloc2 ex_grown_reachable
    (well_formed_of_check (by decide)) (fresh_of_check (by decide))
    (absent_of_check (by decide)) (by decide) (by decide)

/-- C4 (counterexample): the state `ex_one`, reached by `insert((42, 1))` on the index
`new(1, 1)`, already holds key 42; there `insert((42, 2))` followed by
`insert((42, 3), acc)` binds `acc` to the record `(42, 1)`, whose value is not 2, and the
records after the two calls are those before them: no KV allocation happens. -/
theorem repeated_insert_present_key_counterexample :
    reachable id ex_one ∧
      ((insert id 2 ex_alloc2 ex_one (42, 2) ⟨0, 0⟩).bind (fun r =>
        (insert id 2 ex_alloc3 r.2.1 (42, 3) ⟨0, 0⟩).map (fun r2 =>
          (r2.2.2.bind (fun acc => accessor.deref r2.2.1 acc), r2.2.1.kv_heap)))) =
        some (some (42, 1), ex_one.kv_heap) :=
  ⟨ex_one_reachable, by decide⟩

/-! ## The token -/

theorem token_of_eq (h : Nat) : token_of h = h / 2 ^ 16 % 2 ^ 16 := by
  unfold token_of partial_shift
  rw [Nat.shiftRight_eq_div_pow]

/-- C11 (as amended): for every key with 64-bit hash `h` that the walk does not find, the
token `generic_insert` derives from `h` and stores in the high 16 bits of the published
slot word is the second 16-bit group of `h`, bits 16..31: `(h >> 16) mod 2^16`. -/
theorem stored_token_is_hash_bits_16_to_31 {K V : Type} [DecidableEq K] (hasher : K → Nat)
    (st : NRHI K V) (ls : List (Nat × directory)) (key : K) (v : V) (res : accessor)
    (fuel : Nat) (al : Nat → offsets)
    (hwf : well_formed st ls) (hfr : fresh st (al 0)) (hf : ls.length < fuel)
    (hnm : ∀ x ∈ probe_walk hasher st ls key,
      ¬ is_match st key (token_of (hash_of hasher key)) (word_at st x)) :
    ∃ st1 w a j i,
      insert hasher fuel al st (key, v) res =
        some (true, st1, some { kv_p := w, pool_uuid := st.my_pool_uuid }) ∧
      slot_word st1 a j i = some w ∧ w ≠ 0 ∧
      slot_token w = hash_of hasher key / 2 ^ 16 % 2 ^ 16 := by
  obtain ⟨st1, ls1, w, hgi, hout⟩ := insert_outcome_of_well_formed hasher st ls key (key, v)
    (some res) fuel al hwf hfr hf
  have ht := token_of_lt (hash_of hasher key)
  obtain ⟨hw, _, c, _, hcw, _⟩ :=
    insert_outcome_cell hasher st ls key (key, v) (al 0) st1 ls1 w hwf.shp hfr hout hnm
  refine ⟨st1, w, c.array, c.bucket_idx, c.slot_idx, hgi, hcw, ?_, ?_⟩
  · rw [hw]
    exact slot_cont_ne_zero ht hfr.kv_lt hfr.kv_ne
  · rw [hw, slot_token_slot_cont ht hfr.kv_lt, token_of_eq]

set_option maxRecDepth 100000 in
theorem stored_token_is_hash_bits_16_to_31_witness :
    ∃ st1 w a j i,
      insert id 2 ex_alloc1 ex_new (281474977038336, 1) ⟨0, 0⟩ =
        some (true, st1, some { kv_p := w, pool_uuid := ex_new.my_pool_uuid }) ∧
      slot_word st1 a j i = some w ∧ w ≠ 0 ∧
      slot_token w = hash_of id 281474977038336 / 2 ^ 16 % 2 ^ 16 :=
  stored_token_is_hash_bits_16_to_31 id ex_new [(64, ex_root)] 281474977038336 1 ⟨0, 0⟩ 2
    ex_alloc1 ex_new_well_formed ex_new_fresh (by decide)
    (fun x _ => no_match_of_absent (absent_of_check (by decide)) _ x)

/-- C11 (counterexample): with the identity hash, the key `2^48 + 5 * 2^16` has hash
`h = 2^48 + 5 * 2^16`, whose top 16 bits `h >> 48` are 1; `insert` on the index
`new(1, 1)` stores the slot word `5 * 2^48 + 1000`, whose token is 5. -/
theorem stored_token_top_bits_counterexample :
    hash_of id 281474977038336 >>> 48 = 1 ∧
      (insert id 2 ex_alloc1 ex_new (281474977038336, 1) ⟨0, 0⟩).map
          (fun r => (r.1, slot_word r.2.1 128 0 0,
            r.2.2.map (fun acc => slot_token acc.kv_p))) =
        some (true, some (5 * 2 ^ 48 + 1000), some 5) := by
  decide

/-! ## Slot words of reachable states -/

theorem reachable_offsets {K V : Type} [DecidableEq K] (hasher : K → Nat) (st : NRHI K V)
    (hr : reachable hasher st) :
    ∀ (a j i w : Nat), slot_word st a j i = some w → w ≠ 0 → get_offset w ≠ 0 := by
  induction hr with
  | init uuid dir_off bucket_off hashpower segspower st hal hnew =>
    intro a j i w hw hne
    exact absurd (NRHI_new_slots uuid dir_off bucket_off hashpower segspower st hnew a j i w hw)
      hne
  | step st fuel al value res r hreach hfr hgi ih =>
    rcases reachable_inv hasher st hreach with ⟨ls, hi⟩ | ⟨_, hdead⟩
    · obtain ⟨ls1, w1, hout, _, _⟩ :=
        generic_insert_outcome hasher st ls value.1 value res fuel al hi.shp hfr r hgi
      rcases insert_outcome_hit_or hasher st ls value.1 value (al 0) r.2.1 ls1 w1 hout with
        ⟨h1, _, _⟩ | hnm
      · rw [h1]
        exact ih
      · obtain ⟨hw1, _, c, _, hcw, hold⟩ :=
          insert_outcome_cell hasher st ls value.1 value (al 0) r.2.1 ls1 w1 hi.shp hfr hout hnm
        intro a j i w hw hne
        by_cases hcell : a = c.array ∧ j = c.bucket_idx ∧ i = c.slot_idx
        · obtain ⟨rfl, rfl, rfl⟩ := hcell
          rw [hcw] at hw
          have e : w1 = w := Option.some.inj hw
          rw [← e, hw1, get_offset_slot_cont (token_of_lt _) hfr.kv_lt]
          exact hfr.kv_ne
        · exact ih a j i w (hold a j i w hcell hw hne) hne
    · rw [hdead] at hgi
      cases hgi

/-- C12 (as amended): in every state reached from a newly created index by sequential
inserts, for every hash function, every slot word `s` is 0, or the low-48-bit offset of
`s` is non-zero, a record lives at that offset and the high-16-bit token of `s` is the
token derived from the hash of that record's key. -/
theorem reachable_slot_words {K V : Type} [DecidableEq K] (hasher : K → Nat) (st : NRHI K V)
    (hr : reachable hasher st) :
    ∀ (a j i s : Nat), slot_word st a j i = some s →
      s = 0 ∨ (get_offset s ≠ 0 ∧ ∃ k v, get_address st.kv_heap s = some (k, v) ∧
        slot_token s = token_of (hash_of hasher k)) := by
  intro a j i s hs
  by_cases h0 : s = 0
  · exact Or.inl h0
  right
  refine ⟨reachable_offsets hasher st hr a j i s hs h0, ?_⟩
  rcases reachable_inv hasher st hr with ⟨ls, hi⟩ | ⟨hz, _⟩
  · obtain ⟨k, hk, htok, _⟩ := hi.plc a j i s hs h0
    unfold key_of at hk
    cases hrec : get_address st.kv_heap s with
    | none => rw [hrec] at hk; cases hk
    | some kv =>
      rw [hrec] at hk
      have e : kv.1 = k := Option.some.inj hk
      exact ⟨kv.1, kv.2, rfl, by rw [e]; exact htok⟩
  · exact absurd (hz a j i s hs) h0

theorem reachable_slot_words_witness :
    reachable id ex_grown ∧
      ∀ (a j i s : Nat), slot_word ex_grown a j i = some s →
        s = 0 ∨ (get_offset s ≠ 0 ∧ ∃ k v, get_address ex_grown.kv_heap s = some (k, v) ∧
          slot_token s = token_of (hash_of id k)) :=
  ⟨ex_grown_reachable, reachable_slot_words id ex_grown ex_grown_reachable⟩

/-- C12 (counterexample): in the state `ex_one`, reached by `insert((42, 1))` on the index
`new(1, 1)` with the identity hash, slot 0 of bucket 0 of the array at 128 holds the word
1000: it is not 0 and its high-16-bit token is 0. -/
theorem zero_token_counterexample :
    reachable id ex_one ∧ slot_word ex_one 128 0 0 = some 1000 ∧
      ¬ ((1000 : Nat) = 0 ∨ (get_offset 1000 ≠ 0 ∧ slot_token 1000 ≠ 0)) :=
  ⟨ex_one_reachable, by decide, by decide⟩

/-! ## Packing of the slot word -/

theorem slot_cont_low (t o : Nat) : slot_cont t o = slot_cont t (o % 2 ^ 48) := by
  have e : not64 partial_mask = 2 ^ 48 - 1 := by decide
  unfold slot_cont
  rw [e, Nat.and_pow_two_sub_one_eq_mod, Nat.and_pow_two_sub_one_eq_mod, Nat.mod_mod]

/-- C13: for every 16-bit token `t` and every record offset `o`, the word
`generic_insert` publishes, `(t << 48) XOR (o AND NOT 0xFFFF000000000000)`, equals
`(t << 48) | (o & 0x0000FFFFFFFFFFFF)`; its bits 48..63 are `t` and its bits 0..47 are the
low 48 bits of `o`; for `o < 2^48` unpacking the word gives back `t` and `o`, and the word
is not 0 when `o` is not 0. -/
theorem slot_word_packing (t o : Nat) (ht : t < 2 ^ 16) :
    slot_cont t o = (t <<< 48 ||| (o &&& 0x0000FFFFFFFFFFFF)) ∧
      slot_cont t o < 2 ^ 64 ∧
      slot_cont t o >>> 48 = t ∧ slot_cont t o % 2 ^ 48 = o % 2 ^ 48 ∧
      (o < 2 ^ 48 →
        slot_token (slot_cont t o) = t ∧ get_offset (slot_cont t o) = o ∧
          (o ≠ 0 → slot_cont t o ≠ 0)) := by
  have hlow : o % 2 ^ 48 < 2 ^ 48 := Nat.mod_lt _ (by norm_num)
  have hmask : o &&& 0x0000FFFFFFFFFFFF = o % 2 ^ 48 := by
    have e : (0x0000FFFFFFFFFFFF : Nat) = 2 ^ 48 - 1 := by norm_num
    rw [e, Nat.and_pow_two_sub_one_eq_mod]
  have hsum : slot_cont t o = 2 ^ 48 * t + o % 2 ^ 48 := by
    rw [slot_cont_low, slot_cont_eq ht hlow]
  refine ⟨?_, ?_, ?_, ?_, ?_⟩
  · rw [hmask, slot_cont_low, slot_cont_eq_or ht hlow]
  · rw [hsum]
    omega
  · rw [hsum, Nat.shiftRight_eq_div_pow, Nat.mul_add_div (Nat.pow_pos (by norm_num)),
      Nat.div_eq_of_lt hlow, Nat.add_zero]
  · rw [hsum, Nat.mul_add_mod, Nat.mod_mod]
  · intro h48
    exact ⟨slot_token_slot_cont ht h48, get_offset_slot_cont ht h48,
      fun hne => slot_cont_ne_zero ht h48 hne⟩

theorem slot_word_packing_witness :
    slot_cont 5 1000 = (5 <<< 48 ||| (1000 &&& 0x0000FFFFFFFFFFFF)) ∧
      slot_cont 5 1000 < 2 ^ 64 ∧
      slot_cont 5 1000 >>> 48 = 5 ∧ slot_cont 5 1000 % 2 ^ 48 = 1000 % 2 ^ 48 ∧
      (1000 < 2 ^ 48 →
        slot_token (slot_cont 5 1000) = 5 ∧ get_offset (slot_cont 5 1000) = 1000 ∧
          (1000 ≠ 0 → slot_cont 5 1000 ≠ 0)) :=
  slot_word_packing 5 1000 (by norm_num)

/-! ## Layout of the layer chain -/

theorem layered_map (f : Nat × directory → Nat × directory) :
    ∀ (ls : List (Nat × directory)) (p sp : Nat),
      (∀ x ∈ ls, (f x).1 = x.1 ∧ (f x).2.prev = x.2.prev ∧ (f x).2.segs_power = x.2.segs_power) →
      layered p sp ls → layered p sp (ls.map f)
  | [], _, _, _, _ => trivial
  | x :: rest, p, sp, hf, h => by
    obtain ⟨h1, h2, h3⟩ := hf x (List.mem_cons_self _ _)
    obtain ⟨a, b, c⟩ := h
    refine ⟨by rw [h2]; exact a, by rw [h3]; exact b, ?_⟩
    rw [h1]
    exact layered_map f rest x.1 (sp + EXPO) (fun y hy => hf y (List.mem_cons_of_mem _ hy)) c

theorem layered_set_layer (ls : List (Nat × directory)) (p sp dp : Nat) (L L1 : directory)
    (hnd : (ls.map Prod.fst).Nodup) (hL : (dp, L) ∈ ls) (hprev : L1.prev = L.prev)
    (hpow : L1.segs_power = L.segs_power) (h : layered p sp ls) :
    layered p sp (set_layer ls dp L1) := by
  apply layered_map (fun x => if x.1 = dp then (dp, L1) else x) ls p sp _ h
  intro x hx
  by_cases hd : x.1 = dp
  · have hxL : x = (dp, L) := snd_eq_of_nodup hnd hx hL hd
    subst hxL
    simp only [if_true]
    exact ⟨trivial, hprev, hpow⟩
  · simp only [if_neg hd]
    exact ⟨trivial, trivial, trivial⟩

theorem layered_append_singleton (x : Nat × directory) :
    ∀ (l : List (Nat × directory)) (p sp : Nat),
      layered p sp (l ++ [x]) ↔
        layered p sp l ∧ x.2.prev = last_dp p l ∧ x.2.segs_power = sp + EXPO * l.length
  | [], p, sp => by simp [layered, last_dp]
  | y :: rest, p, sp => by
    have ih := layered_append_singleton x rest y.1 (sp + EXPO)
    have e : sp + EXPO + EXPO * rest.length = sp + EXPO * (rest.length + 1) := by ring
    rw [List.cons_append]
    show (y.2.prev = p ∧ y.2.segs_power = sp ∧ layered y.1 (sp + EXPO) (rest ++ [x])) ↔
      (y.2.prev = p ∧ y.2.segs_power = sp ∧ layered y.1 (sp + EXPO) rest) ∧
        x.2.prev = last_dp y.1 rest ∧ x.2.segs_power = sp + EXPO * (rest.length + 1)
    rw [ih, e]
    constructor
    · rintro ⟨a, b, c, d, f⟩
      exact ⟨⟨a, b, c⟩, d, f⟩
    · rintro ⟨⟨a, b, c⟩, d, f⟩
      exact ⟨a, b, c, d, f⟩

theorem last_dp_append_singleton (x : Nat × directory) :
    ∀ (l : List (Nat × directory)) (p : Nat), last_dp p (l ++ [x]) = x.1
  | [], _ => rfl
  | y :: rest, _ => by
    rw [List.cons_append]
    exact last_dp_append_singleton x rest y.1

theorem layered_index :
    ∀ (ls : List (Nat × directory)) (p sp d : Nat) (e : Nat × directory),
      layered p sp ls → ls[d]? = some e →
      e.2.segs_power = sp + EXPO * d ∧ (d = 0 → e.2.prev = p) ∧
        ∀ n, d = n + 1 → ∃ q, ls[n]? = some q ∧ e.2.prev = q.1
  | [], _, _, _, _, _, he => by simp at he
  | x :: rest, p, sp, 0, e, h, he => by
    have hx : x = e := by simpa using he
    subst hx
    exact ⟨by rw [Nat.mul_zero, Nat.add_zero]; exact h.2.1, fun _ => h.1,
      fun n hn => absurd hn (by omega)⟩
  | x :: rest, p, sp, d + 1, e, h, he => by
    have he1 : rest[d]? = some e := by simpa using he
    obtain ⟨h1, h2, h3⟩ := layered_index rest x.1 (sp + EXPO) d e h.2.2 he1
    refine ⟨by rw [h1]; ring, fun h0 => absurd h0 (by omega), ?_⟩
    intro n hn
    have hnd : n = d := by omega
    subst hnd
    cases n with
    | zero => exact ⟨x, by simp, h2 rfl⟩
    | succ m =>
      obtain ⟨q, hq, hp⟩ := h3 m rfl
      exact ⟨q, by simpa using hq, hp⟩

theorem is_chain_next_zero (heap : List (Nat × directory)) :
    ∀ (ls : List (Nat × directory)) (dp d : Nat) (e : Nat × directory),
      is_chain heap dp ls → ls[d]? = some e → e.2.next = 0 → d + 1 = ls.length
  | [], _, _, _, _, he, _ => by simp at he
  | [x], dp, 0, e, _, _, _ => rfl
  | [x], dp, d + 1, e, _, he, _ => by simp at he
  | x :: y :: rest, dp, 0, e, hc, he, hz => by
    have hx : x = e := by simpa using he
    subst hx
    obtain ⟨_, _, _, hrest⟩ := hc
    rw [hz] at hrest
    exact absurd rfl hrest.1
  | x :: y :: rest, dp, d + 1, e, hc, he, hz => by
    have he1 : (y :: rest)[d]? = some e := by simpa using he
    have := is_chain_next_zero heap (y :: rest) x.2.next d e hc.2.2.2 he1 hz
    simp only [List.length_cons] at this ⊢
    omega

theorem NRHI_new_root {K V : Type} (uuid dir_off : Nat) (bucket_off : Nat → Nat)
    (hashpower segspower : Nat) (st : NRHI K V) (hne : dir_off ≠ 0) (hlt : dir_off < 2 ^ 48)
    (hnew : NRHI_new uuid dir_off bucket_off hashpower segspower = some st) :
    ∃ R, is_chain st.dir_heap st.root_dir [(dir_off, R)] ∧ st.top_dir = dir_off ∧
      R.prev = 0 ∧ R.segs_power = segspower := by
  unfold NRHI_new at hnew
  by_cases h0 : hashpower = 0
  · rw [if_pos h0] at hnew
    cases hnew
  rw [if_neg h0] at hnew
  cases hb : shl64 1 hashpower with
  | none => simp [hb] at hnew
  | some bs =>
    cases hsg : shl64 1 segspower with
    | none => simp [hb, hsg] at hnew
    | some segs =>
      simp only [hb, hsg, Option.some.injEq] at hnew
      subst hnew
      refine ⟨directory.mk segspower
          ((List.range segs).map (fun i => if i < loop_bound segs then bucket_off i else 0))
          0 0, ⟨hne, rfl, ?_, rfl⟩, rfl, rfl, rfl⟩
      simp [get_address, get_offset_of_lt hlt]

theorem insert_outcome_layered {K V : Type} [DecidableEq K] (hasher : K → Nat)
    (st : NRHI K V) (ls : List (Nat × directory)) (key : K) (param : K × V) (o : offsets)
    (st1 : NRHI K V) (ls1 : List (Nat × directory)) (w : Nat) (hs : shape st ls)
    (hout : insert_outcome hasher st ls key param o st1 ls1 w) (sp : Nat)
    (hl : layered 0 sp ls) : layered 0 sp ls1 := by
  cases hout with
  | hit r hr hm => exact hl
  | empty r hnm hfind => exact hl
  | null dp sidx L hnm hfull hstop hL hz =>
    exact layered_set_layer ls 0 sp dp L _ hs.nodup hL rfl rfl hl
  | grow pre L hnm hfull hstop hls hnext hp =>
    have hmem : (st.top_dir, L) ∈ ls := mem_of_eq_append_singleton hls
    have h1 : layered 0 sp (set_layer ls st.top_dir { L with next := o.dir }) :=
      layered_set_layer ls 0 sp st.top_dir L _ hs.nodup hmem rfl rfl hl
    have hL : L.segs_power = sp + EXPO * pre.length := by
      rw [hls] at hl
      exact ((layered_append_singleton _ pre 0 sp).mp hl).2.2
    have hlast : last_dp 0 (set_layer ls st.top_dir { L with next := o.dir }) = st.top_dir := by
      rw [hls, set_layer_append, set_layer_singleton_self]
      exact last_dp_append_singleton _ _ 0
    have hlen : (set_layer ls st.top_dir { L with next := o.dir }).length = pre.length + 1 := by
      rw [set_layer_length, hls]
      simp
    refine (layered_append_singleton _ _ 0 sp).mpr ⟨h1, ?_, ?_⟩
    · rw [hlast]
      rfl
    · rw [hlen]
      show L.segs_power + EXPO = sp + EXPO * (pre.length + 1)
      rw [hL]
      ring

theorem reachable_layered {K V : Type} [DecidableEq K] (hasher : K → Nat) (st : NRHI K V)
    (hr : reachable hasher st) :
    ∃ ls sp pre T, is_chain st.dir_heap st.root_dir ls ∧ ls = pre ++ [(st.top_dir, T)] ∧
      layered 0 sp ls := by
  induction hr with
  | init uuid dir_off bucket_off hashpower segspower st hal hnew =>
    obtain ⟨R, hc, htop, hprev, hsp⟩ := NRHI_new_root uuid dir_off bucket_off hashpower
      segspower st hal.dir_ne hal.dir_lt hnew
    exact ⟨[(dir_off, R)], segspower, [], R, hc, by rw [htop]; rfl, hprev, hsp, trivial⟩
  | step st fuel al value res r hreach hfr hgi ih =>
    obtain ⟨ls, sp, _, _, hc, _, hl⟩ := ih
    rcases reachable_inv hasher st hreach with ⟨ls0, hi⟩ | ⟨_, hdead⟩
    · have e := is_chain_unique _ ls0 ls _ hi.shp.chain hc
      subst e
      obtain ⟨ls1, w1, hout, _, _⟩ :=
        generic_insert_outcome hasher st ls0 value.1 value res fuel al hi.shp hfr r hgi
      have hs1 := insert_outcome_shape hasher st ls0 value.1 value (al 0) r.2.1 ls1 w1 hi.shp
        hfr hout
      obtain ⟨pre1, T1, htop1⟩ := hs1.top
      exact ⟨ls1, sp, pre1, T1, hs1.chain, htop1,
        insert_outcome_layered hasher st ls0 value.1 value (al 0) r.2.1 ls1 w1 hi.shp hout sp hl⟩
    · rw [hdead] at hgi
      cases hgi

/-- C14: in every state reached from a newly created index by sequential inserts, the
layers reachable from root form a chain in which the layer at depth `d` has
`segs_power = root.segs_power + EXPO * d`, the `prev` of the root is null and the `prev` of
every other layer is its predecessor in the chain, and a layer whose `next` is 0 is `top`;
`top` is the last (deepest) layer of the chain. -/
theorem reachable_chain_layout {K V : Type} [DecidableEq K] (hasher : K → Nat)
    (st : NRHI K V) (hr : reachable hasher st) :
    ∃ ls root pre T, is_chain st.dir_heap st.root_dir ls ∧ ls[0]? = some root ∧
      ls = pre ++ [(st.top_dir, T)] ∧ T.next = 0 ∧
      ∀ (d : Nat) (L : Nat × directory), ls[d]? = some L →
        L.2.segs_power = root.2.segs_power + EXPO * d ∧
        (d = 0 → L.2.prev = 0) ∧
        (∀ n, d = n + 1 → ∃ P, ls[n]? = some P ∧ L.2.prev = P.1) ∧
        (L.2.next = 0 → L.1 = st.top_dir) := by
  obtain ⟨ls, sp, pre, T, hc, htop, hl⟩ := reachable_layered hasher st hr
  have hne : ls ≠ [] := by rw [htop]; simp
  obtain ⟨root, rest, hroot⟩ : ∃ root rest, ls = root :: rest := by
    cases ls with
    | nil => exact absurd rfl hne
    | cons x xs => exact ⟨x, xs, rfl⟩
  have hrsp : root.2.segs_power = sp := by
    rw [hroot] at hl
    exact hl.2.1
  have hlast : ls[pre.length]? = some (st.top_dir, T) := by
    rw [htop]
    simp
  have hTnext : T.next = 0 := by
    obtain ⟨pre1, L1, hl1, hn1⟩ := is_chain_last _ ls st.root_dir 0 hc hne
    have heq : pre1 ++ [(last_dp 0 ls, L1)] = pre ++ [(st.top_dir, T)] := by
      rw [← hl1, ← htop]
    have := (append_singleton_inj heq).2
    have e2 : L1 = T := congrArg Prod.snd this
    rw [← e2]
    exact hn1
  refine ⟨ls, root, pre, T, hc, by rw [hroot]; simp, htop, hTnext, ?_⟩
  intro d L hd
  obtain ⟨h1, h2, h3⟩ := layered_index ls 0 sp d L hl hd
  refine ⟨by rw [hrsp]; exact h1, h2, h3, ?_⟩
  intro hz
  have hdl := is_chain_next_zero _ ls _ d L hc hd hz
  have hlen : ls.length = pre.length + 1 := by
    rw [htop]
    simp
  have hdp : d = pre.length := by omega
  rw [hdp, hlast] at hd
  rw [← Option.some.inj hd]

theorem reachable_chain_layout_witness :
    reachable id ex_grown ∧
    ∃ ls root pre T, is_chain ex_grown.dir_heap ex_grown.root_dir ls ∧ ls[0]? = some root ∧
      ls = pre ++ [(ex_grown.top_dir, T)] ∧ T.next = 0 ∧
      ∀ (d : Nat) (L : Nat × directory), ls[d]? = some L →
        L.2.segs_power = root.2.segs_power + EXPO * d ∧
        (d = 0 → L.2.prev = 0) ∧
        (∀ n, d = n + 1 → ∃ P, ls[n]? = some P ∧ L.2.prev = P.1) ∧
        (L.2.next = 0 → L.1 = ex_grown.top_dir) :=
  ⟨ex_grown_reachable, reachable_chain_layout id ex_grown ex_grown_reachable⟩

/-! ## recover -/

theorem recover_loop_spec {K V : Type} :
    ∀ (ls : List (Nat × directory)) (dp fuel : Nat) (st : NRHI K V),
      is_chain st.dir_heap dp ls → ls.length < fuel →
      recover_loop fuel dp st = some { st with top_dir := last_dp st.top_dir ls }
  | [], dp, fuel, st, hc, hf => by
    obtain ⟨f, rfl⟩ : ∃ f, fuel = f + 1 := ⟨fuel - 1, by simp at hf; omega⟩
    have h0 : dp = 0 := hc
    simp only [recover_loop, h0, if_true, last_dp]
  | e :: rest, dp, fuel, st, hc, hf => by
    obtain ⟨f, rfl⟩ : ∃ f, fuel = f + 1 := ⟨fuel - 1, by simp at hf; omega⟩
    obtain ⟨hne, he, hget, hrest⟩ := hc
    have ih := recover_loop_spec rest e.2.next f { st with top_dir := dp } hrest
      (by simp at hf; omega)
    simp only [recover_loop, hne, if_false, hget, ih, last_dp, he]

theorem is_chain_unique_end (heap : List (Nat × directory)) (ls pre : List (Nat × directory))
    (dp : Nat) (T : Nat × directory) (hc : is_chain heap dp ls) (hls : ls = pre ++ [T]) :
    ∀ e ∈ ls, e.2.next = 0 → e = T := by
  intro e he hz
  obtain ⟨d, hd⟩ := List.getElem?_of_mem he
  have hlen := is_chain_next_zero heap ls dp d e hc hd hz
  have hl : ls.length = pre.length + 1 := by rw [hls]; simp
  have hdp : d = pre.length := by omega
  rw [hdp, hls] at hd
  simpa using hd.symm

/-- C15: for every state whose layer chain from root is finite and ends with a null
`next`, and whatever `top_dir` holds before the call, `recover()` returns (given fuel for
the layers of the chain) and sets `top_dir` to the last layer of the chain, the only layer
reachable from root whose `next` is 0; it changes no other field, and a second call gives
the same state as the first. -/
theorem recover_sets_top {K V : Type} (st : NRHI K V) (ls : List (Nat × directory))
    (fuel : Nat) (hc : is_chain st.dir_heap st.root_dir ls) (hne : ls ≠ [])
    (hf : ls.length < fuel) :
    ∃ pre T, ls = pre ++ [T] ∧ T.2.next = 0 ∧ (∀ e ∈ ls, e.2.next = 0 → e = T) ∧
      recover fuel st = some { st with top_dir := T.1 } ∧
      recover fuel { st with top_dir := T.1 } = some { st with top_dir := T.1 } := by
  obtain ⟨pre, L, hls, hnext⟩ := is_chain_last _ ls st.root_dir st.top_dir hc hne
  have hlast : ∀ p, last_dp p ls = last_dp st.top_dir ls := by
    intro p
    rw [hls, last_dp_append_singleton, last_dp_append_singleton]
  refine ⟨pre, (last_dp st.top_dir ls, L), hls, hnext,
    is_chain_unique_end _ ls pre _ _ hc hls, ?_, ?_⟩
  · exact recover_loop_spec ls st.root_dir fuel st hc hf
  · have h2 := recover_loop_spec ls st.root_dir fuel
      { st with top_dir := last_dp st.top_dir ls } hc hf
    unfold recover
    rw [h2]
    simp only [hlast]

theorem recover_sets_top_witness :
    ∃ pre T, [(64, ex_root_linked), (1544, ex_second)] = pre ++ [T] ∧ T.2.next = 0 ∧
      (∀ e ∈ [(64, ex_root_linked), (1544, ex_second)], e.2.next = 0 → e = T) ∧
      recover 3 { ex_grown with top_dir := 999 } =
        some { { ex_grown with top_dir := 999 } with top_dir := T.1 } ∧
      recover 3 { { ex_grown with top_dir := 999 } with top_dir := T.1 } =
        some { { ex_grown with top_dir := 999 } with top_dir := T.1 } :=
  recover_sets_top { ex_grown with top_dir := 999 } [(64, ex_root_linked), (1544, ex_second)] 3
    (chain_ok_sound _ _ _ (by decide)) (by decide) (by decide)

/-! ## Operations that are not implemented -/

/-- C16: for every state, key and value, `erase(key)` (also with a transparent key),
`update(value)` and `update(value, res)` (by copy and by move) and the transparent-key
`find` return false; the state after `erase` and `update` is the state before, `find`
writes nothing, and the accessor passed in is left as it was. -/
theorem unimplemented_operations_return_false {K V Q : Type} (st : NRHI K V) (key : K)
    (key2 : Q) (value : K × V) (res : accessor) :
    erase st key = (false, st) ∧ erase_transparent st key2 = (false, st) ∧
      update_value st value = (false, st) ∧ update st value res = (false, st, some res) ∧
      find_transparent st key2 res = (false, some res) :=
  ⟨rfl, rfl, rfl, rfl, rfl⟩

/-! ## A walk and the publication that follows it -/

theorem insert_pass_split {K V : Type} [DecidableEq K] (hasher : K → Nat) (fuel : Nat)
    (st : NRHI K V) (key : K) (param : K × V) (res : Option accessor) (slot_idx : Nat)
    (al : offsets) :
    insert_pass hasher fuel st key param res slot_idx al =
      insert_finish hasher st key param res al (insert_walk hasher fuel st key slot_idx) := by
  unfold insert_pass insert_finish insert_walk
  split <;> simp_all

set_option maxRecDepth 1000000 in
/-- C17 (code at the failing input): with the identity hash.  (a) On the index
`new(1, 1)` the walk of `insert((44, 2))` records slot 0 of bucket 0 of segment 0 as
empty; `insert((42, 1))` then runs and publishes the word 1000 in that slot; the first
insert goes on from `OUT`: `FAST_INSERT` reads 1000 from the slot, its compare-and-swap
expects 1000, succeeds and replaces the word by 1100; it returns true and no record is
freed.  (b) On the index after 33 inserts the walk of `insert((2^62, 2))` stops at the null
segment 1 of the second layer; `insert((2^62 + 2, 1))` materializes that segment and
publishes 4000 in slot 0 of its bucket 0; the first insert goes on: `expand` returns early,
and `FAST_INSERT` replaces the word 4000 by 1100 and returns true. -/
theorem fast_insert_overwrites_published_slot :
    (insert_walk id 2 ex_new 44 0 = Ctl.cont ⟨0, 64, 64, 1, 0, 0, true, 0⟩ ∧
      insert id 2 ex_alloc1 ex_new (42, 1) ⟨0, 0⟩ = some (true, ex_one, some ⟨1000, 7⟩) ∧
      slot_word ex_one 128 0 0 = some 1000 ∧
      (insert_finish id ex_one 44 (44, 2) (some ⟨0, 0⟩) (ex_alloc2 0)
          (insert_walk id 2 ex_new 44 0)).returned.map
          (fun b => (b.1, slot_word b.2.1 128 0 0, b.2.1.kv_heap)) =
        some (true, some 1100, [(1100, (44, 2)), (1000, (42, 1))])) ∧
    (insert_walk id 3 ex_grown 4611686018427387904 0 =
        Ctl.out ⟨1544, 1544, 0, 1, -1, 0, false, 0⟩ ∧
      (insert id 3 ex_alloc4 ex_grown (4611686018427387906, 1) ⟨0, 0⟩).map
          (fun a => (a.1, slot_word a.2.1 4004 0 0)) = some (true, some 4000) ∧
      (insert id 3 ex_alloc4 ex_grown (4611686018427387906, 1) ⟨0, 0⟩).bind
          (fun a =>
            (insert_finish id a.2.1 4611686018427387904 (4611686018427387904, 2)
                (some ⟨0, 0⟩) (ex_alloc2 0)
                (insert_walk id 3 ex_grown 4611686018427387904 0)).returned.map
              (fun b => (b.1, slot_word b.2.1 4004 0 0, b.2.1.kv_heap.lookup 4000))) =
        some (true, some 1100, some (4611686018427387906, 1))) :=
  ⟨⟨by decide, by decide, by decide, by decide⟩, by decide, by decide, by decide⟩

set_option maxRecDepth 1000000 in
/-- C18 (code at the failing input): two inserts of key 42 on the index `new(1, 1)`, with
the identity hash.  The walk of `insert((42, 2))` runs first and records slot 0 of bucket 0
of segment 0 as empty; `insert((42, 1))` then runs to its end: it returns true with its
accessor at the record at 1000; the first insert goes on from `OUT`, replaces the slot
word 1000 by 1100 and returns true with its accessor at the record at 1100.  Both calls
return true and the two accessors resolve to different records.  Run one after the other,
the two calls return true as well. -/
theorem concurrent_equal_keys_both_inserted :
    (insert id 2 ex_alloc1 ex_new (42, 1) ⟨0, 0⟩ = some (true, ex_one, some ⟨1000, 7⟩) ∧
      (insert_finish id ex_one 42 (42, 2) (some ⟨0, 0⟩) (ex_alloc2 0)
          (insert_walk id 2 ex_new 42 0)).returned.map
          (fun b => (b.1, b.2.2, slot_word b.2.1 128 0 0)) =
        some (true, some ⟨1100, 7⟩, some 1100) ∧
      (insert_finish id ex_one 42 (42, 2) (some ⟨0, 0⟩) (ex_alloc2 0)
          (insert_walk id 2 ex_new 42 0)).returned.map
          (fun b => (accessor.deref b.2.1 ⟨1000, 7⟩, accessor.deref b.2.1 ⟨1100, 7⟩)) =
        some (some (42, 1), some (42, 2))) ∧
    (insert id 2 ex_alloc2 ex_one (42, 2) ⟨0, 0⟩).map (fun b => (b.1, b.2.2)) =
      some (true, some ⟨1000, 7⟩) :=
  ⟨⟨by decide, by decide, by decide⟩, by decide⟩

/-! ## recover and find -/

set_option maxRecDepth 1000000 in
/-- C19 (code at the failing input): with the identity hash, the state `ex_grown` is
reached by 33 inserts on the index `new(1, 1)`; the last of them, `insert((32, 132))`,
extended the chain and returned true with the record at 1536 published in the second
layer.  When the run stops there and `top_dir` is lost (here it still names the root),
`recover()` restores exactly `ex_grown`, a well-formed chain with `top_dir` at its last
layer, and the slot still holds the record of key 32; `find(32, acc)` returns false. -/
theorem recovered_index_find_returns_false :
    reachable id ex_grown ∧
      insert id 2 ex_alloc3 ex_full (32, 132) ⟨0, 0⟩ = some (true, ex_grown, some ⟨1536, 7⟩) ∧
      recover 3 { ex_grown with top_dir := 64 } = some ex_grown ∧
      well_formed_check ex_grown [(64, ex_root_linked), (1544, ex_second)] ∧
      slot_word ex_grown 1540 0 0 = some 1536 ∧
      get_address ex_grown.kv_heap 1536 = some (32, 132) ∧
      find ex_grown 32 ⟨0, 0⟩ = (false, some ⟨0, 0⟩) :=
  ⟨ex_grown_reachable, by decide, by decide, by decide, by decide, by decide, by decide⟩

/-! ## parse_ycsb_op -/

/-- C20: `parse_ycsb_op` returns PUT, GET, UPDATE, DELETE exactly on the strings
"INSERT", "READ", "UPDATE", "DELETE"; on every other string it returns HELP, QUIT or
UNKNOWN, which are greater than `OP::DELETE`; so the test `op > OP::DELETE` of the drivers
skips exactly the tokens that are not one of these four strings. -/
theorem parse_ycsb_op_spec (s : String) :
    (parse_ycsb_op s = OP.PUT ↔ s = "INSERT") ∧ (parse_ycsb_op s = OP.GET ↔ s = "READ") ∧
      (parse_ycsb_op s = OP.UPDATE ↔ s = "UPDATE") ∧
      (parse_ycsb_op s = OP.DELETE ↔ s = "DELETE") ∧
      (s ∉ ["INSERT", "READ", "UPDATE", "DELETE"] →
        OP.DELETE.val < (parse_ycsb_op s).val ∧
          (parse_ycsb_op s = OP.HELP ∨ parse_ycsb_op s = OP.QUIT ∨
            parse_ycsb_op s = OP.UNKNOWN)) ∧
      (ycsb_skipped s = true ↔ s ∉ ["INSERT", "READ", "UPDATE", "DELETE"]) := by
  unfold ycsb_skipped parse_ycsb_op
  by_cases h1 : s = "INSERT"
  · subst h1
    decide
  by_cases h2 : s = "READ"
  · subst h2
    decide
  by_cases h3 : s = "UPDATE"
  · subst h3
    decide
  by_cases h4 : s = "DELETE"
  · subst h4
    decide
  by_cases h5 : s = "help"
  · subst h5
    decide
  by_cases h6 : s = "quit"
  · subst h6
    decide
  simp [h1, h2, h3, h4, h5, h6, OP.val]

/-! ## parse_cli_op -/

/-- C21: `parse_cli_op` returns PUT, GET, DELETE, HELP, QUIT exactly on the strings "put",
"get", "free", "help", "quit", and UNKNOWN on every other string; it never returns UPDATE;
the command loop dispatches a token to an operation exactly when the token is one of the
operations the help text lists. -/
theorem parse_cli_op_spec (s : String) :
    (parse_cli_op s = OP.PUT ↔ s = "put") ∧ (parse_cli_op s = OP.GET ↔ s = "get") ∧
      (parse_cli_op s = OP.DELETE ↔ s = "free") ∧ (parse_cli_op s = OP.HELP ↔ s = "help") ∧
      (parse_cli_op s = OP.QUIT ↔ s = "quit") ∧
      (parse_cli_op s = OP.UNKNOWN ↔ s ∉ ["put", "get", "free", "help", "quit"]) ∧
      parse_cli_op s ≠ OP.UPDATE ∧
      (cli_accepts s = true ↔ s ∈ cli_help_ops) := by
  unfold cli_accepts cli_help_ops parse_cli_op
  by_cases h1 : s = "put"
  · subst h1
    decide
  by_cases h2 : s = "get"
  · subst h2
    decide
  by_cases h3 : s = "free"
  · subst h3
    decide
  by_cases h4 : s = "help"
  · subst h4
    decide
  by_cases h5 : s = "quit"
  · subst h5
    decide
  simp [h1, h2, h3, h4, h5]

/-! ## A stored key and its walk -/

theorem insert_of_match {K V : Type} [DecidableEq K] (hasher : K → Nat) (st : NRHI K V)
    (ls : List (Nat × directory)) (key : K) (param : K × V) (res : Option accessor)
    (fuel : Nat) (al : Nat → offsets) (hs : shape st ls) (hf : ls.length < fuel)
    (r : slot_ref) (hr : r ∈ probe_walk hasher st ls key)
    (hm : is_match st key (token_of (hash_of hasher key)) (word_at st r)) :
    ∃ r1 ∈ probe_walk hasher st ls key,
      is_match st key (token_of (hash_of hasher key)) (word_at st r1) ∧
      (probe_walk hasher st ls key).find?
        (fun x => decide (is_match st key (token_of (hash_of hasher key)) (word_at st x))) =
          some r1 ∧
      generic_insert hasher fuel al st key param res =
        some (true, st,
          res.map (fun _ => { kv_p := word_at st r1, pool_uuid := st.my_pool_uuid })) := by
  cases hfind : (probe_walk hasher st ls key).find?
      (fun x => decide (is_match st key (token_of (hash_of hasher key)) (word_at st x))) with
  | none =>
    exfalso
    exact List.find?_eq_none.mp hfind r hr (decide_eq_true hm)
  | some r1 =>
    have hm1 : is_match st key (token_of (hash_of hasher key)) (word_at st r1) := by
      simpa using List.find?_some hfind
    have hsc : scan st key (token_of (hash_of hasher key)) (probe_walk hasher st ls key) none =
        scan_result.hit (word_at st r1) := by
      rw [scan_eq, hfind]
    have hpass := insert_pass_hit hasher st ls key param res 0 fuel (al 0) hs hf _ hsc
    exact ⟨r1, List.mem_of_find?_eq_some hfind, hm1, rfl,
      generic_insert_of_pass hasher fuel al st key param res true st _ (by omega) hpass⟩

/-- C22: in every state reached from a newly created index by sequential inserts, a
non-empty slot `(a, j, i)` whose word `w` refers to a record with key `k` is one of the
slots the probe walk of `k` visits before it meets a segment with bucket pointer 0, and a
later `insert((k, v), acc)` allocates nothing, leaves the state as it is and binds `acc` to
`w`, the record in that slot. -/
theorem stored_key_stays_on_its_walk {K V : Type} [DecidableEq K] (hasher : K → Nat)
    (st : NRHI K V) (a j i w : Nat) (k : K) (hr : reachable hasher st)
    (hw : slot_word st a j i = some w) (hne : w ≠ 0) (hk : key_of st w = some k) :
    ∃ ls, is_chain st.dir_heap st.root_dir ls ∧
      (∃ r ∈ probe_walk hasher st ls k, r.array = a ∧ r.bucket_idx = j ∧ r.slot_idx = i) ∧
      ∀ (fuel : Nat) (al : Nat → offsets) (v : V) (res : accessor), ls.length < fuel →
        insert hasher fuel al st (k, v) res =
          some (true, st, some { kv_p := w, pool_uuid := st.my_pool_uuid }) := by
  rcases reachable_inv hasher st hr with ⟨ls, hi⟩ | ⟨hz, _⟩
  · obtain ⟨r, hrm, h1, h2, h3, hwr, hm⟩ :=
      placed_key_on_walk hasher st ls hi.plc k a j i w hw hne hk
    refine ⟨ls, hi.shp.chain, ⟨r, hrm, h1, h2, h3⟩, ?_⟩
    intro fuel al v res hf
    obtain ⟨r1, _, hm1, _, hgi⟩ :=
      insert_of_match hasher st ls k (k, v) (some res) fuel al hi.shp hf r hrm hm
    have hsame := hi.uniq _ _ _ _ _ _ _ _ k (slot_word_of_word_at hm1.1) hm1.1 hm1.2.2 hw hne hk
    have hw1 : word_at st r1 = w := by
      apply word_at_of_slot_word
      rw [hsame.1, hsame.2.1, hsame.2.2]
      exact hw
    unfold insert
    rw [hgi, hw1]
    rfl
  · exact absurd (hz a j i w hw) hne

set_option maxRecDepth 100000 in
theorem stored_key_stays_on_its_walk_witness :
    ∃ ls, is_chain ex_grown.dir_heap ex_grown.root_dir ls ∧
      (∃ r ∈ probe_walk id ex_grown ls 32, r.array = 1540 ∧ r.bucket_idx = 0 ∧ r.slot_idx = 0) ∧
      ∀ (fuel : Nat) (al : Nat → offsets) (v : Nat) (res : accessor), ls.length < fuel →
        insert id fuel al ex_grown (32, v) res =
          some (true, ex_grown, some { kv_p := 1536, pool_uuid := ex_grown.my_pool_uuid }) :=
  stored_key_stays_on_its_walk id ex_grown 1540 0 0 1536 32 ex_grown_reachable (by decide)
    (by decide) (by decide)

/-- C23 (as amended): in every well-formed state (any chain length and any pattern of
allocated and unallocated segments), for every key `k`: if some slot that the probe walk
of `k` visits before it meets a segment with bucket pointer 0 holds a record with key `k`
under the token of `k`, then `insert((k, v), acc)` allocates and writes nothing and binds
`acc` to the first such slot in probe order. -/
theorem insert_finds_key_on_walk {K V : Type} [DecidableEq K] (hasher : K → Nat)
    (st : NRHI K V) (ls : List (Nat × directory)) (k : K) (v : V) (res : accessor)
    (fuel : Nat) (al : Nat → offsets) (r : slot_ref)
    (hwf : well_formed st ls) (hf : ls.length < fuel)
    (hr : r ∈ probe_walk hasher st ls k)
    (hk : holds_key st k (word_at st r))
    (ht : slot_token (word_at st r) = token_of (hash_of hasher k)) :
    ∃ r1 ∈ probe_walk hasher st ls k,
      holds_key st k (word_at st r1) ∧
      slot_token (word_at st r1) = token_of (hash_of hasher k) ∧
      (probe_walk hasher st ls k).find?
        (fun x => decide (is_match st k (token_of (hash_of hasher k)) (word_at st x))) =
          some r1 ∧
      insert hasher fuel al st (k, v) res =
        some (true, st, some { kv_p := word_at st r1, pool_uuid := st.my_pool_uuid }) := by
  obtain ⟨r1, hr1, hm1, hfind, hgi⟩ :=
    insert_of_match hasher st ls k (k, v) (some res) fuel al hwf.shp hf r hr ⟨hk.1, ht, hk.2⟩
  exact ⟨r1, hr1, ⟨hm1.1, hm1.2.2⟩, hm1.2.1, hfind, hgi⟩

set_option maxRecDepth 100000 in
theorem insert_finds_key_on_walk_witness :
    ∃ r1 ∈ probe_walk id ex_grown [(64, ex_root_linked), (1544, ex_second)] 32,
      holds_key ex_grown 32 (word_at ex_grown r1) ∧
      slot_token (word_at ex_grown r1) = token_of (hash_of id 32) ∧
      (probe_walk id ex_grown [(64, ex_root_linked), (1544, ex_second)] 32).find?
        (fun x => decide (is_match ex_grown 32 (token_of (hash_of id 32))
          (word_at ex_grown x))) = some r1 ∧
      insert id 3 ex_alloc4 ex_grown (32, 7) ⟨0, 0⟩ =
        some (true, ex_grown,
          some { kv_p := word_at ex_grown r1, pool_uuid := ex_grown.my_pool_uuid }) :=
  insert_finds_key_on_walk id ex_grown [(64, ex_root_linked), (1544, ex_second)] 32 7 ⟨0, 0⟩ 3
    ex_alloc4 ⟨1544, 0, 1540, 0, 0⟩ (well_formed_of_check (by decide)) (by decide) (by decide)
    (by decide) (by decide)

set_option maxRecDepth 100000 in
/-- C23 (counterexample): with the identity hash.  In the well-formed state `ex_hidden` the
record of key 5 sits in the probe window of key 5 in the second layer (segment
`(5 >> 62) mod 4 = 0`, bucket `(5 & 1) mod 2 = 1`, slot 0), but the walk of key 5 leaves at
the null segment 1 of the root layer: `insert((5, 7), acc)` allocates a second record with
key 5 at 4000, publishes it in the root layer and binds `acc` to it.  In the well-formed
state `ex_mistoken` the walk of key 5 visits the slot that refers to the record of key 5,
but its token 9 is not the token 0 of key 5: `insert((5, 7), acc)` publishes a second
record with key 5 as well. -/
theorem hidden_duplicate_counterexample :
    (well_formed_check ex_hidden [(64, ex_root_gap), (1544, ex_second)] ∧
      (⟨1544, 0, 1540, 1, 0⟩ : slot_ref) ∈
        (layer_refs 2 (bucket_of 2 (hash_of id 5)) 1544 ex_second
          (hash_of id 5 >>> (hashcode_size - 2)) LP_DIS_S 0).1 ∧
      slot_word ex_hidden 1540 1 0 = some 1536 ∧ holds_key ex_hidden 5 1536 ∧
      probe_stop id ex_hidden [(64, ex_root_gap), (1544, ex_second)] 5 = some (64, 1) ∧
      (insert id 3 ex_alloc4 ex_hidden (5, 7) ⟨0, 0⟩).map
          (fun x => (x.2.2, slot_word x.2.1 128 1 0, x.2.1.kv_heap)) =
        some (some ⟨4000, 7⟩, some 4000, [(4000, (5, 7)), (1536, (5, 105))])) ∧
    (well_formed_check ex_mistoken [(64, ex_root)] ∧
      (⟨64, 0, 128, 1, 0⟩ : slot_ref) ∈ probe_walk id ex_mistoken [(64, ex_root)] 5 ∧
      holds_key ex_mistoken 5 (word_at ex_mistoken ⟨64, 0, 128, 1, 0⟩) ∧
      (insert id 3 ex_alloc4 ex_mistoken (5, 7) ⟨0, 0⟩).map
          (fun x => (x.2.2, slot_word x.2.1 128 1 1, x.2.1.kv_heap)) =
        some (some ⟨4000, 7⟩, some 4000, [(4000, (5, 7)), (1536, (5, 105))])) :=
  ⟨⟨by decide, by decide, by decide, by decide, by decide, by decide⟩,
    by decide, by decide, by decide, by decide⟩

/-! ## Lazy segment materialization -/

/-- C24: in a well-formed state, for a key `k` with hash `h` held by no slot its probe walk
visits, if the walk meets no empty slot and stops at segment `sidx` of the layer at `dp`,
whose bucket pointer is 0, then `insert((k,v), acc)` returns true, allocates one zeroed
bucket array of `bucket_size` buckets and installs it as the bucket pointer of that segment
and of no other; the chain has the same layers as before, `top` and root are unchanged;
the record `(k,v)` is published in slot 0 of bucket `h & (bucket_size - 1)` of the new
array, all other slots of the index are as before. -/
theorem insert_materializes_null_segment {K V : Type} [DecidableEq K] (hasher : K → Nat)
    (st : NRHI K V) (ls : List (Nat × directory)) (key : K) (v : V) (res : accessor)
    (fuel : Nat) (al : Nat → offsets) (dp sidx : Nat)
    (hwf : well_formed st ls) (hfr : fresh st (al 0)) (hf : ls.length < fuel)
    (habs : ∀ r ∈ probe_walk hasher st ls key, ¬ holds_key st key (word_at st r))
    (hfull : ∀ r ∈ probe_walk hasher st ls key, word_at st r ≠ 0)
    (hstop : probe_stop hasher st ls key = some (dp, sidx)) :
    ∃ st1 acc L,
      (dp, L) ∈ ls ∧ L.segments[sidx]? = some 0 ∧
      insert hasher fuel al st (key, v) res = some (true, st1, some acc) ∧
      is_chain st1.dir_heap st1.root_dir
        (set_layer ls dp { L with segments := L.segments.set sidx (al 0).buckets }) ∧
      (set_layer ls dp { L with segments := L.segments.set sidx (al 0).buckets }).length =
        ls.length ∧
      get_address st1.dir_heap dp =
        some { L with segments := L.segments.set sidx (al 0).buckets } ∧
      st1.top_dir = st.top_dir ∧ st1.root_dir = st.root_dir ∧
      st.bucket_heap.lookup (al 0).buckets = none ∧
      (∀ j i, j < st.bucket_size → i < slots_num →
        slot_word st1 (al 0).buckets j i =
          some (if j = hash_of hasher key &&& (st.bucket_size - 1) ∧ i = 0 then
            token_of (hash_of hasher key) <<< 48 ||| (al 0).kv else 0)) ∧
      (∀ a j i, a ≠ (al 0).buckets → slot_word st1 a j i = slot_word st a j i) ∧
      st1.kv_heap = ((al 0).kv, (key, v)) :: st.kv_heap ∧
      acc.kv_p = token_of (hash_of hasher key) <<< 48 ||| (al 0).kv ∧
      acc.deref st1 = some (key, v) := by
  have hs := hwf.shp
  obtain ⟨hb1, hb2⟩ := shape_bsize hs
  have hsc := scan_full st key (token_of (hash_of hasher key)) _ habs hfull
  obtain ⟨L, hL, hz, hpass⟩ := insert_pass_null hasher st ls key (key, v) (some res) 0 fuel
    (al 0) hs hf (by decide) hfr.buckets_lt dp sidx hsc hstop
  have hgi := generic_insert_of_pass hasher fuel al st key (key, v) (some res) _ _ _
    (by omega) hpass
  have hw := slot_cont_eq_or (token_of_lt (hash_of hasher key)) hfr.kv_lt
  have hoff := get_offset_slot_cont (token_of_lt (hash_of hasher key)) hfr.kv_lt
  have hb0 : bucket_of st.bucket_size (hash_of hasher key) =
      hash_of hasher key &&& (st.bucket_size - 1) := by
    unfold bucket_of
    rw [sub64_of_le (by omega) (by unfold U64; omega)]
  have hb0lt := bucket_of_lt (h := hash_of hasher key) hb1 hb2
  have hs2 := shape_materialize st ls hs dp sidx (al 0).buckets L hL hfr.buckets_lt
    hfr.buckets_new
  have hchain := hs2.chain
  have hmem : (dp, { L with segments := L.segments.set sidx (al 0).buckets }) ∈
      set_layer ls dp { L with segments := L.segments.set sidx (al 0).buckets } := by
    have := @mem_set_layer_of_mem ls dp { L with segments := L.segments.set sidx (al 0).buckets }
      _ hL
    simpa using this
  have hlook : (materialize st dp L sidx (al 0).buckets).bucket_heap.lookup (al 0).buckets =
      some (zero_buckets st.bucket_size) := lookup_cons_self _ _ _
  have hpub := slot_word_publish_fresh (materialize st dp L sidx (al 0).buckets) (key, v)
    (al 0).kv dp sidx (al 0).buckets (bucket_of st.bucket_size (hash_of hasher key))
    (slot_cont (token_of (hash_of hasher key)) (al 0).kv) hb0lt hlook
  refine ⟨_, _, L, hL, hz, hgi, hchain, set_layer_length _ _ _,
    (is_chain_mem _ _ _ hchain _ hmem).2, rfl, rfl, hfr.buckets_new, ?_, ?_, rfl, hw, ?_⟩
  · intro j i hj hi
    refine (hpub (al 0).buckets j i).trans ?_
    by_cases hji : j = bucket_of st.bucket_size (hash_of hasher key) ∧ i = 0
    · rw [if_pos ⟨rfl, hji⟩, if_pos (by rw [← hb0]; exact hji), hw]
    · rw [if_neg (fun h => hji h.2), if_neg (by rw [← hb0]; exact hji)]
      exact slot_word_zero_buckets _ _ _ j i hlook hj hi
  · intro a j i ha
    rw [hpub a j i, if_neg (fun h => ha h.1), slot_word_materialize _ _ _ _ _ _ _ _ ha]
  · unfold accessor.deref get_address
    simp only [hoff, publish, lookup_cons_self]

set_option maxRecDepth 100000 in
theorem insert_materializes_null_segment_witness :
    ∃ st1 acc L,
      (1544, L) ∈ [(64, ex_root_linked), (1544, ex_second)] ∧ L.segments[1]? = some 0 ∧
      insert id 3 ex_alloc4 ex_grown (4611686018427387904, 2) ⟨0, 0⟩ =
        some (true, st1, some acc) ∧
      is_chain st1.dir_heap st1.root_dir
        (set_layer [(64, ex_root_linked), (1544, ex_second)] 1544
          { L with segments := L.segments.set 1 (ex_alloc4 0).buckets }) ∧
      (set_layer [(64, ex_root_linked), (1544, ex_second)] 1544
          { L with segments := L.segments.set 1 (ex_alloc4 0).buckets }).length =
        [(64, ex_root_linked), (1544, ex_second)].length ∧
      get_address st1.dir_heap 1544 =
        some { L with segments := L.segments.set 1 (ex_alloc4 0).buckets } ∧
      st1.top_dir = ex_grown.top_dir ∧ st1.root_dir = ex_grown.root_dir ∧
      ex_grown.bucket_heap.lookup (ex_alloc4 0).buckets = none ∧
      (∀ j i, j < ex_grown.bucket_size → i < slots_num →
        slot_word st1 (ex_alloc4 0).buckets j i =
          some (if j = hash_of id 4611686018427387904 &&& (ex_grown.bucket_size - 1) ∧ i = 0
            then token_of (hash_of id 4611686018427387904) <<< 48 ||| (ex_alloc4 0).kv
            else 0)) ∧
      (∀ a j i, a ≠ (ex_alloc4 0).buckets → slot_word st1 a j i = slot_word ex_grown a j i) ∧
      st1.kv_heap = ((ex_alloc4 0).kv, (4611686018427387904, 2)) :: ex_grown.kv_heap ∧
      acc.kv_p = token_of (hash_of id 4611686018427387904) <<< 48 ||| (ex_alloc4 0).kv ∧
      acc.deref st1 = some (4611686018427387904, 2) :=
  insert_materializes_null_segment id ex_grown [(64, ex_root_linked), (1544, ex_second)]
    4611686018427387904 2 ⟨0, 0⟩ 3 ex_alloc4 1544 1 (well_formed_of_check (by decide))
    (fresh_of_check (by decide)) (by decide) (by decide) (by decide) (by decide)

/-! ## recover and the side vector -/

/-- C25 (code at the failing input): the index after 33 inserts has the chain of the two
layers at 64 and 1544, and the constructor and `expand` have left `dirs = [64, 1544]`.
Reopened with `dirs` empty, or with a stale `dirs`, and `top_dir` at the root, `recover()`
sets `top_dir` to 1544 and returns with `dirs` as it found it. -/
theorem recover_leaves_dirs :
    ex_grown.dirs = [64, 1544] ∧
      chain_ok ex_grown.dir_heap ex_grown.root_dir [(64, ex_root_linked), (1544, ex_second)] =
        true ∧
      (recover 3 { ex_grown with dirs := [], top_dir := 64 }).map
          (fun s => (s.top_dir, s.dirs)) = some (1544, []) ∧
      (recover 3 { ex_grown with dirs := [999], top_dir := 64 }).map
          (fun s => (s.top_dir, s.dirs)) = some (1544, [999]) :=
  ⟨by decide, by decide, by decide, by decide⟩

/-! ## Array accesses of an insert -/

/-- C26: in a well-formed state with fresh allocator offsets, a sequential
`insert((k,v), acc)` for a key with hash `h` makes no access outside an array: every slot
the walk probes lies in a layer of the chain, at a segment index below `2^segs_power`
whose bucket pointer names an allocated array, at a bucket index below `bucket_size` and a
slot index below 8; the segment where the walk stops has an index below `2^segs_power`;
the index `h >> (64 - segs_power - 1)` computed for a new layer is below
`2^(segs_power + 1)`; and the insert returns, having met no access without a value, with
the accessor at a non-empty slot of an allocated bucket array. -/
theorem insert_accesses_in_bounds {K V : Type} [DecidableEq K] (hasher : K → Nat)
    (st : NRHI K V) (ls : List (Nat × directory)) (key : K) (v : V) (res : accessor)
    (fuel : Nat) (al : Nat → offsets)
    (hwf : well_formed st ls) (hfr : fresh st (al 0)) (hf : ls.length < fuel) :
    (∀ r ∈ probe_walk hasher st ls key, ∃ L arr b,
      (r.dp, L) ∈ ls ∧ r.segment_idx < 2 ^ L.segs_power ∧
      L.segments[r.segment_idx]? = some r.array ∧ r.array ≠ 0 ∧
      st.bucket_heap.lookup r.array = some arr ∧ r.bucket_idx < st.bucket_size ∧
      arr[r.bucket_idx]? = some b ∧ r.slot_idx < slots_num ∧ r.slot_idx < b.length) ∧
    (∀ dp sidx, probe_stop hasher st ls key = some (dp, sidx) →
      ∃ L, (dp, L) ∈ ls ∧ L.segments[sidx]? = some 0 ∧ sidx < 2 ^ L.segs_power) ∧
    (∀ pre L, ls = pre ++ [(st.top_dir, L)] →
      hash_of hasher key >>> (hashcode_size - L.segs_power - 1) < 2 ^ (L.segs_power + 1)) ∧
    ∃ st1 w a j i,
      insert hasher fuel al st (key, v) res =
        some (true, st1, some { kv_p := w, pool_uuid := st.my_pool_uuid }) ∧
      slot_word st1 a j i = some w ∧ w ≠ 0 := by
  have hs := hwf.shp
  obtain ⟨hb1, _⟩ := shape_bsize hs
  refine ⟨?_, ?_, ?_, ?_⟩
  · intro r hr
    have hv := mem_chain_refs st _ _ hb1 ls r hr
    obtain ⟨L, hL, hseg, hne, hbi, hsi⟩ := hv
    obtain ⟨L1, arr, b, _, _, _, harr, hb, hsl⟩ := valid_ref_slot hs
      (⟨L, hL, hseg, hne, hbi, hsi⟩ : valid_ref st ls r)
    refine ⟨L, arr, b, hL, ?_, hseg, hne, harr, hbi, hb, hsi, hsl⟩
    rw [← hs.segs_len (r.dp, L) hL]
    exact getElem?_lt hseg
  · intro dp sidx hstop
    exact chain_refs_stop st.bucket_size _ _ ls dp sidx hs.segs_len hstop
  · intro pre L hls
    have hp : L.segs_power + EXPO ≤ 63 := hwf.top_power pre _ hls
    have hp1 : L.segs_power + 1 ≤ 64 := by
      unfold EXPO at hp
      omega
    have e : hashcode_size - L.segs_power - 1 = 64 - (L.segs_power + 1) := by
      unfold hashcode_size
      omega
    rw [e]
    exact shr_lt_pow (hash_of_lt hasher key) hp1
  · obtain ⟨st1, ls1, w, hgi, hout⟩ := insert_outcome_of_well_formed hasher st ls key (key, v)
      (some res) fuel al hwf hfr hf
    rcases insert_outcome_hit_or hasher st ls key (key, v) (al 0) st1 ls1 w hout with
      ⟨h1, _, r, _, hm, hw⟩ | hnm
    · refine ⟨st1, w, r.array, r.bucket_idx, r.slot_idx, hgi, ?_, ?_⟩
      · rw [h1, hw]
        exact slot_word_of_word_at hm.1
      · rw [hw]
        exact hm.1
    · obtain ⟨hw, _, c, _, hcw, _⟩ :=
        insert_outcome_cell hasher st ls key (key, v) (al 0) st1 ls1 w hs hfr hout hnm
      refine ⟨st1, w, c.array, c.bucket_idx, c.slot_idx, hgi, hcw, ?_⟩
      rw [hw]
      exact slot_cont_ne_zero (token_of_lt _) hfr.kv_lt hfr.kv_ne

set_option maxRecDepth 100000 in
theorem insert_accesses_in_bounds_witness :
    (∀ r ∈ probe_walk id ex_grown [(64, ex_root_linked), (1544, ex_second)] 33, ∃ L arr b,
      (r.dp, L) ∈ [(64, ex_root_linked), (1544, ex_second)] ∧
      r.segment_idx < 2 ^ L.segs_power ∧
      L.segments[r.segment_idx]? = some r.array ∧ r.array ≠ 0 ∧
      ex_grown.bucket_heap.lookup r.array = some arr ∧ r.bucket_idx < ex_grown.bucket_size ∧
      arr[r.bucket_idx]? = some b ∧ r.slot_idx < slots_num ∧ r.slot_idx < b.length) ∧
    (∀ dp sidx,
      probe_stop id ex_grown [(64, ex_root_linked), (1544, ex_second)] 33 = some (dp, sidx) →
      ∃ L, (dp, L) ∈ [(64, ex_root_linked), (1544, ex_second)] ∧
        L.segments[sidx]? = some 0 ∧ sidx < 2 ^ L.segs_power) ∧
    (∀ pre L, [(64, ex_root_linked), (1544, ex_second)] = pre ++ [(ex_grown.top_dir, L)] →
      hash_of id 33 >>> (hashcode_size - L.segs_power - 1) < 2 ^ (L.segs_power + 1)) ∧
    ∃ st1 w a j i,
      insert id 3 ex_alloc4 ex_grown (33, 133) ⟨0, 0⟩ =
        some (true, st1, some { kv_p := w, pool_uuid := ex_grown.my_pool_uuid }) ∧
      slot_word st1 a j i = some w ∧ w ≠ 0 :=
  insert_accesses_in_bounds id ex_grown [(64, ex_root_linked), (1544, ex_second)] 33 133
    ⟨0, 0⟩ 3 ex_alloc4 (well_formed_of_check (by decide)) (fresh_of_check (by decide))
    (by decide)

/-! ## Index arithmetic and tokens -/

/-- C27: for every 64-bit hash `h`, the primary bucket index `h & (bucket_size - 1)` that
`generic_insert` computes is, for `bucket_size = 2^n` with `1 ≤ n ≤ 63`, `h mod
bucket_size`, the low `n` bits of `h`; and the primary segment index `h >> (64 - p)` that it
computes in a layer of power `p`, `1 ≤ p ≤ 63`, is `floor(h / 2^(64 - p))`, the top `p` bits
of `h`, and is below `2^p`. -/
theorem primary_indices (h n p : Nat) (hh : h < 2 ^ 64) (hn1 : 1 ≤ n) (hn2 : n ≤ 63)
    (hp1 : 1 ≤ p) (hp2 : p ≤ 63) :
    bucket_of (2 ^ n) h = h % 2 ^ n ∧ bucket_of (2 ^ n) h < 2 ^ n ∧
      shr64 h (sub64 hashcode_size p) = some (h / 2 ^ (64 - p)) ∧
      h / 2 ^ (64 - p) < 2 ^ p ∧ h / 2 ^ (64 - p) = h >>> (64 - p) := by
  have hpos : 0 < 2 ^ n := Nat.pow_pos (by norm_num)
  have hlt : 2 ^ n < U64 := by
    unfold U64
    exact Nat.pow_lt_pow_right (by norm_num) (by omega)
  have hb : bucket_of (2 ^ n) h = h % 2 ^ n := by
    unfold bucket_of
    rw [sub64_of_le (by omega) hlt, Nat.and_pow_two_sub_one_eq_mod]
  have hs : h / 2 ^ (64 - p) = h >>> (64 - p) := (Nat.shiftRight_eq_div_pow h (64 - p)).symm
  refine ⟨hb, by rw [hb]; exact Nat.mod_lt _ hpos, ?_, ?_, hs⟩
  · rw [shr64_primary hp1 hp2, hs]
    rfl
  · rw [hs]
    exact shr_lt_pow (by unfold U64; exact hh) (by omega)

theorem primary_indices_witness :
    bucket_of (2 ^ 10) 18446744073709551615 = 18446744073709551615 % 2 ^ 10 ∧
      bucket_of (2 ^ 10) 18446744073709551615 < 2 ^ 10 ∧
      shr64 18446744073709551615 (sub64 hashcode_size 3) =
        some (18446744073709551615 / 2 ^ (64 - 3)) ∧
      18446744073709551615 / 2 ^ (64 - 3) < 2 ^ 3 ∧
      18446744073709551615 / 2 ^ (64 - 3) = 18446744073709551615 >>> (64 - 3) :=
  primary_indices 18446744073709551615 10 3 (by norm_num) (by norm_num) (by norm_num)
    (by norm_num) (by norm_num)

/-- C28: in every state reached from a newly created index by sequential inserts, every
non-empty slot refers to a record, and the 16-bit token in bits 48..63 of its word is the
token `generic_insert` derives from the hash of that record's key; so the test the walk
applies to the slot for that key (slot not empty, same token, equal key) succeeds. -/
theorem reachable_tokens_match_keys {K V : Type} [DecidableEq K] (hasher : K → Nat)
    (st : NRHI K V) (hr : reachable hasher st) :
    ∀ (a j i w : Nat), slot_word st a j i = some w → w ≠ 0 →
      ∃ k v, accessor.deref st { kv_p := w, pool_uuid := st.my_pool_uuid } = some (k, v) ∧
        w >>> 48 % 2 ^ 16 = (hash_of hasher k >>> partial_shift) % 2 ^ 16 ∧
        is_match st k ((hash_of hasher k >>> partial_shift) % 2 ^ 16) w := by
  intro a j i w hw hne
  rcases reachable_inv hasher st hr with ⟨ls, hi⟩ | ⟨hz, _⟩
  · obtain ⟨k, hk, htok, _⟩ := hi.plc a j i w hw hne
    have hk0 := hk
    unfold key_of at hk
    cases hrec : get_address st.kv_heap w with
    | none => rw [hrec] at hk; cases hk
    | some kv =>
      rw [hrec] at hk
      have e : kv.1 = k := Option.some.inj hk
      subst e
      exact ⟨kv.1, kv.2, hrec, htok, hne, htok, hk0⟩
  · exact absurd (hz a j i w hw) hne

theorem reachable_tokens_match_keys_witness :
    reachable id ex_grown ∧
    ∀ (a j i w : Nat), slot_word ex_grown a j i = some w → w ≠ 0 →
      ∃ k v,
        accessor.deref ex_grown { kv_p := w, pool_uuid := ex_grown.my_pool_uuid } =
          some (k, v) ∧
        w >>> 48 % 2 ^ 16 = (hash_of id k >>> partial_shift) % 2 ^ 16 ∧
        is_match ex_grown k ((hash_of id k >>> partial_shift) % 2 ^ 16) w :=
  ⟨ex_grown_reachable, reachable_tokens_match_keys id ex_grown ex_grown_reachable⟩

/-- C30: for every 64-bit hash `h` and every top-layer power `p` with `1 ≤ p ≤ 62`, the
segment index `generic_insert` passes to `expand` for the new layer,
`(ptrdiff_t)(h >> (64 - p - 1))`, is `s1 = h >> (64 - (p + EXPO))`, the primary segment of
`h` in a layer of power `p + EXPO`; it is below `2^(p + EXPO)`, and `s1 >> 1` is
`s0 = h >> (64 - p)`, the primary segment in the parent layer: `s1` is `2 s0` or
`2 s0 + 1`. -/
theorem expansion_segment_index (h p : Nat) (hh : h < 2 ^ 64) (hp1 : 1 ≤ p) (hp2 : p ≤ 62) :
    (shr64 h (sub64 (sub64 hashcode_size p) 1)).map to_ptrdiff =
        some ((h >>> (hashcode_size - (p + EXPO)) : Nat) : Int) ∧
      h >>> (hashcode_size - (p + EXPO)) < 2 ^ (p + EXPO) ∧
      (h >>> (hashcode_size - (p + EXPO))) >>> 1 = h >>> (hashcode_size - p) ∧
      (h >>> (hashcode_size - (p + EXPO)) = 2 * (h >>> (hashcode_size - p)) ∨
        h >>> (hashcode_size - (p + EXPO)) = 2 * (h >>> (hashcode_size - p)) + 1) := by
  have hU : h < U64 := by unfold U64; exact hh
  have h1 : sub64 hashcode_size p = 64 - p :=
    sub64_of_le (by unfold hashcode_size; omega) (by unfold hashcode_size U64; omega)
  have h2 : sub64 (64 - p) 1 = 64 - p - 1 := sub64_of_le (by omega) (by unfold U64; omega)
  have e1 : hashcode_size - (p + EXPO) = 64 - (p + 1) := rfl
  have e2 : hashcode_size - p = 64 - (p + 1) + 1 := by
    unfold hashcode_size
    omega
  have e3 : 64 - p - 1 = 64 - (p + 1) := by omega
  have hlt : h >>> (64 - (p + 1)) < 2 ^ (p + 1) := shr_lt_pow hU (by omega)
  have hlt63 : h >>> (64 - (p + 1)) < 2 ^ 63 :=
    lt_of_lt_of_le hlt (Nat.pow_le_pow_right (by norm_num) (by omega))
  have hhalf : (h >>> (64 - (p + 1))) >>> 1 = h >>> (64 - (p + 1) + 1) := by
    rw [← Nat.shiftRight_add]
  refine ⟨?_, ?_, ?_, ?_⟩
  · rw [h1, h2, e3, e1]
    unfold shr64
    rw [if_pos (by omega), Option.map_some', to_ptrdiff_of_lt hlt63]
  · rw [e1]
    exact hlt
  · rw [e1, e2, hhalf]
  · rw [e2, ← hhalf, e1]
    have := Nat.shiftRight_eq_div_pow (h >>> (64 - (p + 1))) 1
    rw [this]
    omega

theorem expansion_segment_index_witness :
    (shr64 13835058055282163712 (sub64 (sub64 hashcode_size 1) 1)).map to_ptrdiff =
        some ((13835058055282163712 >>> (hashcode_size - (1 + EXPO)) : Nat) : Int) ∧
      13835058055282163712 >>> (hashcode_size - (1 + EXPO)) < 2 ^ (1 + EXPO) ∧
      (13835058055282163712 >>> (hashcode_size - (1 + EXPO))) >>> 1 =
        13835058055282163712 >>> (hashcode_size - 1) ∧
      (13835058055282163712 >>> (hashcode_size - (1 + EXPO)) =
          2 * (13835058055282163712 >>> (hashcode_size - 1)) ∨
        13835058055282163712 >>> (hashcode_size - (1 + EXPO)) =
          2 * (13835058055282163712 >>> (hashcode_size - 1)) + 1) :=
  expansion_segment_index 13835058055282163712 1 (by norm_num) (by norm_num) (by norm_num)

/-! ## One pass, bounded allocation -/

theorem mem_heap_store {α : Type} (heap : List (Nat × α)) (off : Nat) (x : α)
    (e : Nat × α) (he : e ∈ heap_store heap off x) : e.1 = off ∨ e ∈ heap := by
  unfold heap_store at he
  rcases List.mem_cons.mp he with h | h
  · left
    rw [h]
  · right
    exact (List.mem_filter.mp h).1

theorem mem_write_slot (heap : List (Nat × List bucket)) (a j i w : Nat)
    (e : Nat × List bucket) (he : e ∈ write_slot heap a j i w) :
    e.1 ∈ heap.map Prod.fst := by
  unfold write_slot at he
  cases hl : heap.lookup a with
  | none =>
    rw [hl] at he
    exact List.mem_map_of_mem Prod.fst he
  | some arr =>
    rw [hl] at he
    rcases mem_heap_store _ _ _ e he with h | h
    · rw [h]
      exact List.mem_map_of_mem Prod.fst (mem_of_lookup _ _ _ hl)
    · exact List.mem_map_of_mem Prod.fst h

theorem shape_layer_key {K V : Type} {st : NRHI K V} {ls : List (Nat × directory)}
    (hs : shape st ls) {dp : Nat} {L : directory} (hL : (dp, L) ∈ ls) :
    dp ∈ st.dir_heap.map Prod.fst := by
  have hget := (is_chain_mem _ _ _ hs.chain _ hL).2
  unfold get_address at hget
  rw [get_offset_of_lt (hs.dp_lt _ hL)] at hget
  exact List.mem_map_of_mem Prod.fst (mem_of_lookup _ _ _ hget)

theorem insert_outcome_allocations {K V : Type} [DecidableEq K] (hasher : K → Nat)
    (st : NRHI K V) (ls : List (Nat × directory)) (key : K) (param : K × V) (o : offsets)
    (st1 : NRHI K V) (ls1 : List (Nat × directory)) (w : Nat) (hs : shape st ls)
    (hout : insert_outcome hasher st ls key param o st1 ls1 w) :
    (st1.kv_heap = st.kv_heap ∨ st1.kv_heap = (o.kv, param) :: st.kv_heap) ∧
    (∀ x ∈ st1.bucket_heap, x.1 = o.buckets ∨ x.1 ∈ st.bucket_heap.map Prod.fst) ∧
    (∀ x ∈ st1.dir_heap, x.1 = o.dir ∨ x.1 ∈ st.dir_heap.map Prod.fst) := by
  cases hout with
  | hit r hr hm =>
    exact ⟨Or.inl rfl, fun x hx => Or.inr (List.mem_map_of_mem Prod.fst hx),
      fun x hx => Or.inr (List.mem_map_of_mem Prod.fst hx)⟩
  | empty r hnm hfind =>
    exact ⟨Or.inr rfl, fun x hx => Or.inr (mem_write_slot _ _ _ _ _ x hx),
      fun x hx => Or.inr (List.mem_map_of_mem Prod.fst hx)⟩
  | null dp sidx L hnm hfull hstop hL hz =>
    refine ⟨Or.inr rfl, ?_, ?_⟩
    · intro x hx
      have h1 := mem_write_slot _ _ _ _ _ x hx
      have h2 : x.1 ∈ ((o.buckets, zero_buckets st.bucket_size) :: st.bucket_heap).map
          Prod.fst := h1
      rw [List.map_cons, List.mem_cons] at h2
      exact h2
    · intro x hx
      have hx1 : x ∈ heap_store st.dir_heap dp
          { L with segments := L.segments.set sidx o.buckets } := hx
      rcases mem_heap_store _ _ _ x hx1 with h | h
      · right
        rw [h]
        exact shape_layer_key hs hL
      · exact Or.inr (List.mem_map_of_mem Prod.fst h)
  | grow pre L hnm hfull hstop hls hnext hp =>
    have hL : (st.top_dir, L) ∈ ls := mem_of_eq_append_singleton hls
    refine ⟨Or.inr rfl, ?_, ?_⟩
    · intro x hx
      have h1 := mem_write_slot _ _ _ _ _ x hx
      have h2 : x.1 ∈ ((o.buckets, zero_buckets st.bucket_size) :: st.bucket_heap).map
          Prod.fst := h1
      rw [List.map_cons, List.mem_cons] at h2
      exact h2
    · intro x hx
      have hx1 : x ∈ heap_store
          (heap_store ((o.dir, next_layer st.top_dir L) :: st.dir_heap) st.top_dir
            { L with next := o.dir }) o.dir
          { next_layer st.top_dir L with
            segments := (next_layer st.top_dir L).segments.set
              (hash_of hasher key >>> (hashcode_size - (L.segs_power + EXPO))) o.buckets } := hx
      rcases mem_heap_store _ _ _ x hx1 with h | h
      · exact Or.inl h
      · rcases mem_heap_store _ _ _ x h with h | h
        · right
          rw [h]
          exact shape_layer_key hs hL
        · rcases List.mem_cons.mp h with h | h
          · left
            rw [h]
          · exact Or.inr (List.mem_map_of_mem Prod.fst h)

/-- C29: in a well-formed state with fresh allocator offsets, for every key, a sequential
`generic_insert` returns, and returns true: its first pass of the `while (true)` loop ends
in a `return true` (one layer walk, no retry, none of the exits that return false); the
records afterwards are those before, or those before and the one new record, which is not
freed; the bucket arrays and the layers afterwards live at the offsets in use before or at
the one offset the allocator handed out for a bucket array, resp. for a layer. -/
theorem insert_returns_in_one_pass {K V : Type} [DecidableEq K] (hasher : K → Nat)
    (st : NRHI K V) (ls : List (Nat × directory)) (key : K) (param : K × V)
    (res : Option accessor) (fuel : Nat) (al : Nat → offsets)
    (hwf : well_formed st ls) (hfr : fresh st (al 0)) (hf : ls.length < fuel) :
    ∃ st1 acc,
      insert_pass hasher fuel st key param res 0 (al 0) = attempt.done true st1 acc ∧
      generic_insert hasher fuel al st key param res = some (true, st1, acc) ∧
      (st1.kv_heap = st.kv_heap ∨ st1.kv_heap = ((al 0).kv, param) :: st.kv_heap) ∧
      (∀ x ∈ st1.bucket_heap, x.1 = (al 0).buckets ∨ x.1 ∈ st.bucket_heap.map Prod.fst) ∧
      (∀ x ∈ st1.dir_heap, x.1 = (al 0).dir ∨ x.1 ∈ st.dir_heap.map Prod.fst) := by
  rcases insert_pass_outcome hasher st ls key param res fuel (al 0) hwf.shp hfr hf with
    ⟨st1, ls1, w, hpass, hout⟩ | ⟨_, pre, L, hls, hp⟩
  · exact ⟨st1, _, hpass,
      generic_insert_of_pass hasher fuel al st key param res true st1 _ (by omega) hpass,
      insert_outcome_allocations hasher st ls key param (al 0) st1 ls1 w hwf.shp hout⟩
  · exact absurd (hwf.top_power pre _ hls) hp

set_option maxRecDepth 100000 in
theorem insert_returns_in_one_pass_witness :
    ∃ st1 acc,
      insert_pass id 3 ex_grown 4611686018427387904 (4611686018427387904, 2) (some ⟨0, 0⟩) 0
          (ex_alloc4 0) = attempt.done true st1 acc ∧
      generic_insert id 3 ex_alloc4 ex_grown 4611686018427387904 (4611686018427387904, 2)
          (some ⟨0, 0⟩) = some (true, st1, acc) ∧
      (st1.kv_heap = ex_grown.kv_heap ∨
        st1.kv_heap = ((ex_alloc4 0).kv, (4611686018427387904, 2)) :: ex_grown.kv_heap) ∧
      (∀ x ∈ st1.bucket_heap,
        x.1 = (ex_alloc4 0).buckets ∨ x.1 ∈ ex_grown.bucket_heap.map Prod.fst) ∧
      (∀ x ∈ st1.dir_heap, x.1 = (ex_alloc4 0).dir ∨ x.1 ∈ ex_grown.dir_heap.map Prod.fst) :=
  insert_returns_in_one_pass id ex_grown [(64, ex_root_linked), (1544, ex_second)]
    4611686018427387904 (4611686018427387904, 2) (some ⟨0, 0⟩) 3 ex_alloc4
    (well_formed_of_check (by decide)) (fresh_of_check (by decide)) (by decide)

end nrhi
